import Mathlib

/-!
# Local-alignment DP column of `src/match/idxlocalidp.c`

A shallow embedding of the affine-gap column recurrence (`secondcolumn`,
`nextcolumn`, `inplacenextcolumn`), of the node-state lifecycle and of the
verdict function `locali_fullmatchLimdfsstate`, followed by theorems about them.

Conventions of the embedding.

* `long` is `Int` and `unsigned long` is `Nat`.  A sum of two `long` is
  `addLong`: the sum modulo `2^64`, taken in `LONG_MIN..LONG_MAX`, which is what
  the addition of a 64-bit machine leaves (the C standard leaves signed
  overflow undefined).  The scores handed to the engine are `long`; where a
  statement depends on it, it says `Scorevalues.isLong`, and
  `Scorevalues.gapfits` where it needs `gapstart + gapextend` not to wrap.  The
  only unsigned arithmetic of the file is `querylength + 1`, which cannot wrap
  on a column that really has that many cells.
* A buffer `Matrixvalue *` is `Option (List Matrixvalue)`: `none` is `NULL`,
  `some cells` an allocation of `cells.length` cells.  The field `lenval` is
  kept separately, as in the C struct.
* A function that dereferences `NULL`, that reads or writes past the end of an
  allocation, or whose `gt_assert` fails, returns `none`.
* Columns are passed by value, so a destination never shares its struct with
  the parent; `gt_assert(outcol != incol)` therefore holds by construction.
* Where the sharing of buffers is the subject (copy independence), the states
  are placed in a `Memory` of structs and heap blocks, and the functions above
  are lifted to it: they read the states they are given and write their result
  into the one state, and the one buffer, that they hold a non-const pointer to.

Two further functions are embedded, each in a namespace of its own:
`gt_seed_extend_compute_parts` of `src/tools/gt_seed_extend.c` and
`range_compare_long_first` of `src/exercise/sspliced_alignment.c`.

* In `gt_seed_extend_compute_parts` the sums and products of `GtUword` are taken
  modulo `GT_UWORD_MAX + 1`; `GT_UWORD_MAX` is a parameter.
* `range_compare_long_first` only compares its `unsigned long` fields, which
  are `Nat`.
-/

namespace Idxlocalidp

/-- The C type `Uchar` (an encoded sequence symbol). -/
abbrev Uchar := Nat

/-- `#define MINUSINFTY (-1L)`. -/
def MINUSINFTY : Int := -1

/-- The largest value of a `long` of 64 bits. -/
def LONG_MAX : Int := 9223372036854775807

/-- The smallest value of a `long` of 64 bits. -/
def LONG_MIN : Int := -9223372036854775808

/-- The `long` that a sum leaves in a 64-bit register: the value modulo `2^64`
in the range `LONG_MIN..LONG_MAX` (two's complement). -/
def wrapLong (x : Int) : Int :=
  (x + 9223372036854775808) % 18446744073709551616 - 9223372036854775808

/-- The sum `a + b` of two `long`. -/
def addLong (a b : Int) : Int :=
  wrapLong (a + b)

/-- `struct Scorevalues`. -/
structure Scorevalues where
  matchscore : Int
  mismatchscore : Int
  gapstart : Int
  gapextend : Int
deriving DecidableEq, Repr

/-- `struct Limdfsconstinfo`. -/
structure Limdfsconstinfo where
  scorevalues : Scorevalues
  query : List Uchar
  maxcollen : Nat
  querylength : Nat
  threshold : Nat
deriving DecidableEq, Repr

/-- `struct Matrixvalue`: one cell of a column. -/
structure Matrixvalue where
  repcell : Int
  inscell : Int
  delcell : Int
  bestcell : Int
deriving DecidableEq, Repr

/-- `struct Column`. -/
structure Column where
  colvalues : Option (List Matrixvalue)
  lenval : Nat
  pprefixlen : Nat
  maxvalue : Nat
deriving DecidableEq, Repr

/-- The enumeration `Limdfsstatus` of `absdfstrans-imp.h`, with the three
values the file assigns. -/
inductive Limdfsstatus where
  | Limdfssuccess
  | Limdfscontinue
  | Limdfsstop
deriving DecidableEq, Repr

/-- The fields of `Limdfsresult` (declared in `absdfstrans-imp.h`) that
`locali_fullmatchLimdfsstate` writes. -/
structure Limdfsresult where
  status : Limdfsstatus
  pprefixlen : Nat
  distance : Nat
deriving DecidableEq, Repr

/-- `max2`. -/
def max2 (a b : Int) : Int :=
  if a < b then b else a

/-- `max3`. -/
def max3 (a b c : Int) : Int :=
  let temp := if a < b then b else a
  if temp < c then c else temp

/-- The macro `REPLACEMENTSCORE(A,B)`.  `ISSPECIAL` comes from
`core/chardef.h`, which is not part of the sources at hand, and is a
parameter. -/
def REPLACEMENTSCORE (ISSPECIAL : Uchar → Bool) (lci : Limdfsconstinfo)
    (A B : Uchar) : Int :=
  if A ≠ B ∨ ISSPECIAL A = true then lci.scorevalues.mismatchscore
  else lci.scorevalues.matchscore

/-- Modelled from the spec: `gt_realloc` is only declared in `core/ma.h`
(`gt_realloc_mem`); the spec has buffers grown with their contents kept.  The
first cells of the old allocation are kept, the cells beyond it are
indeterminate and are taken from `fresh`. -/
def gt_realloc (fresh : Nat → Matrixvalue) (ptr : Option (List Matrixvalue))
    (n : Nat) : Option (List Matrixvalue) :=
  some ((List.range n).map (fun j => (ptr.getD []).getD j (fresh j)))

/-- The cell `cells[i]` of a buffer. -/
def cellAt (cells : List Matrixvalue) (i : Nat) : Matrixvalue :=
  cells.getD i ⟨0, 0, 0, 0⟩

/-- The cell `column->colvalues[i]`. -/
def Column.cell (column : Column) (i : Nat) : Matrixvalue :=
  cellAt (column.colvalues.getD []) i

/-- The loop `for (i = 1UL; i <= n; i++) body(i)` run on the state `s`. -/
def forUpTo {σ : Type} (n : Nat) (body : Nat → σ → σ) (s : σ) : σ :=
  match n with
  | 0 => s
  | k + 1 => body (k + 1) (forUpTo k body s)

/-- The part of a column that the loops of the file update: the cells and the
two bookkeeping fields. -/
structure Colbuf where
  cells : List Matrixvalue
  maxvalue : Nat
  pprefixlen : Nat
deriving DecidableEq, Repr

/-- Body of the loop of `secondcolumn` (lines 138-148). -/
def secondcolumnBody (ISSPECIAL : Uchar → Bool) (lci : Limdfsconstinfo)
    (dbchar : Uchar) (i : Nat) (s : Colbuf) : Colbuf :=
  let delcell := MINUSINFTY
  let inscell := MINUSINFTY
  let repcell := REPLACEMENTSCORE ISSPECIAL lci dbchar (lci.query.getD (i - 1) 0)
  let bestcell := max2 delcell repcell
  let cells := s.cells.set i ⟨repcell, inscell, delcell, bestcell⟩
  if bestcell > 0 ∧ bestcell > (s.maxvalue : Int) then
    { cells := cells, maxvalue := bestcell.toNat, pprefixlen := i }
  else
    { s with cells := cells }

/-- `secondcolumn`: the first column after the root. -/
def secondcolumn (ISSPECIAL : Uchar → Bool) (fresh : Nat → Matrixvalue)
    (lci : Limdfsconstinfo) (outcol : Column) (dbchar : Uchar) : Option Column :=
  let outcol : Column :=
    if outcol.lenval < lci.maxcollen then
      { outcol with
        colvalues := gt_realloc fresh outcol.colvalues lci.maxcollen
        lenval := lci.maxcollen }
    else outcol
  match outcol.colvalues with
  | none => none
  | some cells =>
    if cells.length < lci.querylength + 1 then none
    else
      let cells := cells.set 0
        ⟨MINUSINFTY, addLong lci.scorevalues.gapstart lci.scorevalues.gapextend,
         MINUSINFTY, MINUSINFTY⟩
      let s := forUpTo lci.querylength (secondcolumnBody ISSPECIAL lci dbchar)
        { cells := cells, maxvalue := 0, pprefixlen := 0 }
      some { outcol with
             colvalues := some s.cells
             maxvalue := s.maxvalue
             pprefixlen := s.pprefixlen }

/-- Body of the loop of `nextcolumn` (lines 204-270); `incells` is the buffer
of `incol`, the state is the part of `outcol` written so far. -/
def nextcolumnBody (ISSPECIAL : Uchar → Bool) (lci : Limdfsconstinfo)
    (dbchar : Uchar) (incells : List Matrixvalue) (i : Nat) (s : Colbuf) : Colbuf :=
  let repcell :=
    if (cellAt incells (i - 1)).bestcell > 0 then
      addLong (cellAt incells (i - 1)).bestcell
        (REPLACEMENTSCORE ISSPECIAL lci dbchar (lci.query.getD (i - 1) 0))
    else MINUSINFTY
  let inscell :=
    if (cellAt incells i).inscell > 0 then
      if (cellAt incells i).bestcell > 0 then
        max2 (addLong (cellAt incells i).inscell lci.scorevalues.gapextend)
          (addLong (addLong (cellAt incells i).bestcell lci.scorevalues.gapstart)
            lci.scorevalues.gapextend)
      else addLong (cellAt incells i).inscell lci.scorevalues.gapextend
    else
      if (cellAt incells i).bestcell > 0 then
        addLong (addLong (cellAt incells i).bestcell lci.scorevalues.gapstart)
          lci.scorevalues.gapextend
      else MINUSINFTY
  let delcell :=
    if (cellAt s.cells (i - 1)).delcell > 0 then
      if (cellAt s.cells (i - 1)).bestcell > 0 then
        max2 (addLong (cellAt s.cells (i - 1)).delcell lci.scorevalues.gapextend)
          (addLong (addLong (cellAt s.cells (i - 1)).bestcell lci.scorevalues.gapstart)
            lci.scorevalues.gapextend)
      else addLong (cellAt s.cells (i - 1)).delcell lci.scorevalues.gapextend
    else
      if (cellAt s.cells (i - 1)).bestcell > 0 then
        addLong (addLong (cellAt s.cells (i - 1)).bestcell lci.scorevalues.gapstart)
          lci.scorevalues.gapextend
      else MINUSINFTY
  let bestcell := max3 repcell inscell delcell
  let cells := s.cells.set i ⟨repcell, inscell, delcell, bestcell⟩
  if bestcell > 0 ∧ bestcell > (s.maxvalue : Int) then
    { cells := cells, maxvalue := bestcell.toNat, pprefixlen := i }
  else
    { s with cells := cells }

/-- The cell written at index 0 by `nextcolumn` (lines 171-199) and by
`inplacenextcolumn` (lines 281-309) from the cell `c0` that the parent column
has at index 0. -/
def firstcell (lci : Limdfsconstinfo) (c0 : Matrixvalue) : Matrixvalue :=
  let repcell := MINUSINFTY
  let delcell := MINUSINFTY
  let inscell :=
    if c0.inscell > 0 then
      if c0.bestcell > 0 then
        max2 (addLong c0.inscell lci.scorevalues.gapextend)
          (addLong (addLong c0.bestcell lci.scorevalues.gapstart)
            lci.scorevalues.gapextend)
      else addLong c0.inscell lci.scorevalues.gapextend
    else
      if c0.bestcell > 0 then
        addLong (addLong c0.bestcell lci.scorevalues.gapstart)
          lci.scorevalues.gapextend
      else MINUSINFTY
  ⟨repcell, inscell, delcell, max3 repcell inscell delcell⟩

/-- `nextcolumn`: the column after `incol` for the character `dbchar`, written
into `outcol`. -/
def nextcolumn (ISSPECIAL : Uchar → Bool) (fresh : Nat → Matrixvalue)
    (lci : Limdfsconstinfo) (outcol : Column) (dbchar : Uchar) (incol : Column) :
    Option Column :=
  if outcol.colvalues = none ∧ incol.colvalues = none then none
  else if ¬ (incol.lenval ≥ lci.querylength + 1) then none
  else
    let outcol : Column :=
      if outcol.lenval < lci.querylength + 1 then
        { outcol with
          colvalues := gt_realloc fresh outcol.colvalues lci.maxcollen
          lenval := lci.maxcollen }
      else outcol
    if ¬ (outcol.lenval ≥ lci.querylength + 1) then none
    else
      match outcol.colvalues, incol.colvalues with
      | some cells, some incells =>
        if cells.length < lci.querylength + 1 ∨
            incells.length < lci.querylength + 1 then none
        else
          let c0 := firstcell lci (cellAt incells 0)
          let cells := cells.set 0 c0
          let s := forUpTo lci.querylength
            (nextcolumnBody ISSPECIAL lci dbchar incells)
            { cells := cells, maxvalue := (max2 0 c0.bestcell).toNat,
              pprefixlen := 0 }
          some { outcol with
                 colvalues := some s.cells
                 maxvalue := s.maxvalue
                 pprefixlen := s.pprefixlen }
      | _, _ => none

/-- State of the loop of `inplacenextcolumn`: the column being overwritten and
the local variable `nw`. -/
structure Inplacestate where
  buf : Colbuf
  nw : Matrixvalue
deriving DecidableEq, Repr

/-- Body of the loop of `inplacenextcolumn` (lines 315-383). -/
def inplacenextcolumnBody (ISSPECIAL : Uchar → Bool) (lci : Limdfsconstinfo)
    (dbchar : Uchar) (i : Nat) (st : Inplacestate) : Inplacestate :=
  let s := st.buf
  let nw := st.nw
  let west := cellAt s.cells i
  let repcell :=
    if nw.bestcell > 0 then
      addLong nw.bestcell
        (REPLACEMENTSCORE ISSPECIAL lci dbchar (lci.query.getD (i - 1) 0))
    else MINUSINFTY
  let inscell :=
    if west.inscell > 0 then
      if west.bestcell > 0 then
        max2 (addLong west.inscell lci.scorevalues.gapextend)
          (addLong (addLong west.bestcell lci.scorevalues.gapstart)
            lci.scorevalues.gapextend)
      else addLong west.inscell lci.scorevalues.gapextend
    else
      if west.bestcell > 0 then
        addLong (addLong west.bestcell lci.scorevalues.gapstart)
          lci.scorevalues.gapextend
      else MINUSINFTY
  let delcell :=
    if (cellAt s.cells (i - 1)).delcell > 0 then
      if (cellAt s.cells (i - 1)).bestcell > 0 then
        max2 (addLong (cellAt s.cells (i - 1)).delcell lci.scorevalues.gapextend)
          (addLong (addLong (cellAt s.cells (i - 1)).bestcell lci.scorevalues.gapstart)
            lci.scorevalues.gapextend)
      else addLong (cellAt s.cells (i - 1)).delcell lci.scorevalues.gapextend
    else
      if (cellAt s.cells (i - 1)).bestcell > 0 then
        addLong (addLong (cellAt s.cells (i - 1)).bestcell lci.scorevalues.gapstart)
          lci.scorevalues.gapextend
      else MINUSINFTY
  let nw := west
  let bestcell := max3 repcell inscell delcell
  let cells := s.cells.set i ⟨repcell, inscell, delcell, bestcell⟩
  if bestcell > 0 ∧ bestcell > (s.maxvalue : Int) then
    { buf := { cells := cells, maxvalue := bestcell.toNat, pprefixlen := i },
      nw := nw }
  else
    { buf := { s with cells := cells }, nw := nw }

/-- `inplacenextcolumn`: the column after `column`, written over `column`
itself. -/
def inplacenextcolumn (ISSPECIAL : Uchar → Bool) (lci : Limdfsconstinfo)
    (dbchar : Uchar) (column : Column) : Option Column :=
  match column.colvalues with
  | none => none
  | some cells =>
    if cells.length < lci.querylength + 1 then none
    else
      let c0 := firstcell lci (cellAt cells 0)
      let cells := cells.set 0 c0
      let nw := cellAt cells 0
      let st := forUpTo lci.querylength
        (inplacenextcolumnBody ISSPECIAL lci dbchar)
        { buf := { cells := cells, maxvalue := (max2 0 c0.bestcell).toNat,
                   pprefixlen := 0 },
          nw := nw }
      some { column with
             colvalues := some st.buf.cells
             maxvalue := st.buf.maxvalue
             pprefixlen := st.buf.pprefixlen }

/-- `locali_allocatedfsconstinfo`: only `maxcollen` is initialised, the other
fields keep the indeterminate contents `raw` of the allocation. -/
def locali_allocatedfsconstinfo (raw : Limdfsconstinfo) (_alphasize : Nat) :
    Limdfsconstinfo :=
  { raw with maxcollen := 0 }

/-- `locali_initdfsconstinfo`; the variadic arguments are listed in the order
in which `va_arg` reads them. -/
def locali_initdfsconstinfo (lci : Limdfsconstinfo) (_alphasize : Nat)
    (matchscore mismatchscore gapstart gapextend : Int) (threshold : Nat)
    (query : List Uchar) (querylength : Nat) : Limdfsconstinfo :=
  let lci : Limdfsconstinfo :=
    { lci with
      scorevalues := ⟨matchscore, mismatchscore, gapstart, gapextend⟩
      threshold := threshold
      query := query
      querylength := querylength }
  if lci.maxcollen < lci.querylength + 1 then
    { lci with maxcollen := lci.querylength + 1 }
  else lci

/-- `locali_initrootLimdfsstate`. -/
def locali_initrootLimdfsstate (fresh : Nat → Matrixvalue) (column : Column)
    (lci : Limdfsconstinfo) : Column :=
  if column.lenval < lci.maxcollen then
    { column with
      colvalues := gt_realloc fresh column.colvalues lci.maxcollen
      lenval := lci.maxcollen }
  else column

/-- `locali_initLimdfsstackelem`: the two bookkeeping fields are not
written. -/
def locali_initLimdfsstackelem (column : Column) : Column :=
  { column with colvalues := none, lenval := 0 }

/-- `locali_freeLimdfsstackelem`. -/
def locali_freeLimdfsstackelem (column : Column) : Column :=
  if column.colvalues ≠ none then
    { column with colvalues := none, lenval := 0 }
  else column

/-- Body of the loop of `locali_copyLimdfsstate` (line 495). -/
def copyBody (srccells : List Matrixvalue) (idx : Nat) (cells : List Matrixvalue) :
    List Matrixvalue :=
  cells.set idx (cellAt srccells idx)

/-- `locali_copyLimdfsstate`; `none` stands for `exit(EXIT_FAILURE)` as well.
The loop starts at index 0: round 0 is followed by the rounds
`1..querylength`. -/
def locali_copyLimdfsstate (fresh : Nat → Matrixvalue) (destcol srccol : Column)
    (lci : Limdfsconstinfo) : Option Column :=
  if srccol.colvalues ≠ none then
    let destcol : Column :=
      if destcol.lenval < lci.maxcollen then
        { destcol with
          colvalues := gt_realloc fresh destcol.colvalues lci.maxcollen
          lenval := lci.maxcollen }
      else destcol
    if destcol.lenval < lci.querylength + 1 then none
    else if srccol.lenval < lci.querylength + 1 then none
    else
      match destcol.colvalues, srccol.colvalues with
      | some cells, some srccells =>
        if cells.length < lci.querylength + 1 ∨
            srccells.length < lci.querylength + 1 then none
        else
          let cells := forUpTo lci.querylength (copyBody srccells)
            (copyBody srccells 0 cells)
          some { destcol with
                 colvalues := some cells
                 maxvalue := srccol.maxvalue
                 pprefixlen := srccol.pprefixlen }
      | _, _ => none
  else
    some { destcol with
           maxvalue := srccol.maxvalue
           pprefixlen := srccol.pprefixlen }

/-- `locali_fullmatchLimdfsstate`.  The state is handed over by a non-const
pointer, so it is returned next to the result; the bounds, the width and the
depth are unused. -/
def locali_fullmatchLimdfsstate (limdfsresult : Limdfsresult) (column : Column)
    (_leftbound _rightbound _width : Nat) (_currentdepth : Nat)
    (lci : Limdfsconstinfo) : Column × Limdfsresult :=
  if column.colvalues ≠ none then
    if column.maxvalue ≥ lci.threshold then
      (column, { limdfsresult with
                 status := Limdfsstatus.Limdfssuccess
                 distance := column.maxvalue
                 pprefixlen := column.pprefixlen })
    else
      if column.maxvalue > 0 then
        (column, { limdfsresult with status := Limdfsstatus.Limdfscontinue })
      else
        (column, { limdfsresult with status := Limdfsstatus.Limdfsstop })
  else
    (column, { limdfsresult with status := Limdfsstatus.Limdfscontinue })

/-- `locali_nextLimdfsstate`. -/
def locali_nextLimdfsstate (ISSPECIAL : Uchar → Bool) (fresh : Nat → Matrixvalue)
    (lci : Limdfsconstinfo) (outcol : Column) (currentdepth : Nat)
    (currentchar : Uchar) (incol : Column) : Option Column :=
  if currentdepth > 1 then
    nextcolumn ISSPECIAL fresh lci outcol currentchar incol
  else
    secondcolumn ISSPECIAL fresh lci outcol currentchar

/-- `locali_inplacenextLimdfsstate`. -/
def locali_inplacenextLimdfsstate (ISSPECIAL : Uchar → Bool)
    (fresh : Nat → Matrixvalue) (lci : Limdfsconstinfo) (column : Column)
    (currentdepth : Nat) (currentchar : Uchar) : Option Column :=
  if currentdepth > 1 then
    inplacenextcolumn ISSPECIAL lci currentchar column
  else
    secondcolumn ISSPECIAL fresh lci column currentchar

/-! ## Vocabulary of the statements -/

/-- The sign conditions that the comments of `struct Scorevalues` demand. -/
def Scorevalues.valid (sv : Scorevalues) : Prop :=
  0 < sv.matchscore ∧ sv.mismatchscore < 0 ∧ sv.gapstart < 0 ∧ sv.gapextend < 0

instance (sv : Scorevalues) : Decidable sv.valid := by
  unfold Scorevalues.valid; infer_instance

/-- The sum `gapstart + gapextend` is a value of a `long`: it does not fall
below `LONG_MIN`. -/
def Scorevalues.gapfits (sv : Scorevalues) : Prop :=
  LONG_MIN ≤ sv.gapstart + sv.gapextend

instance (sv : Scorevalues) : Decidable sv.gapfits := by
  unfold Scorevalues.gapfits; infer_instance

/-- The match score and the mismatch score are values of a `long`.  (Together
with `valid` and `gapfits` this places all four scores in
`LONG_MIN..LONG_MAX`.) -/
def Scorevalues.isLong (sv : Scorevalues) : Prop :=
  sv.matchscore ≤ LONG_MAX ∧ LONG_MIN ≤ sv.mismatchscore

instance (sv : Scorevalues) : Decidable sv.isLong := by
  unfold Scorevalues.isLong; infer_instance

/-- The field `lenval` tells the truth about the allocation: it is 0 for
`NULL` and the number of allocated cells otherwise. -/
def Column.wf (column : Column) : Prop :=
  match column.colvalues with
  | none => column.lenval = 0
  | some cells => cells.length = column.lenval

instance (column : Column) : Decidable column.wf := by
  unfold Column.wf; split <;> infer_instance

/-- The verdict of `locali_fullmatchLimdfsstate` on a column; the result
record handed in and the unused arguments do not influence it. -/
def classify (column : Column) (currentdepth : Nat) (lci : Limdfsconstinfo) :
    Limdfsstatus :=
  (locali_fullmatchLimdfsstate ⟨Limdfsstatus.Limdfscontinue, 0, 0⟩ column 0 0 0
    currentdepth lci).2.status

/-- Two columns agree on the cells `0..querylength` and on the two
bookkeeping fields. -/
def sameActive (lci : Limdfsconstinfo) (a b : Column) : Prop :=
  (∀ i, i ≤ lci.querylength → a.cell i = b.cell i) ∧
    a.maxvalue = b.maxvalue ∧ a.pprefixlen = b.pprefixlen

/-- The substitution score in the words of the specification: the match score
when the two symbols are equal and neither is special, the mismatch score
otherwise. -/
def substScore (ISSPECIAL : Uchar → Bool) (lci : Limdfsconstinfo) (c q : Uchar) :
    Int :=
  if c = q ∧ ISSPECIAL c = false ∧ ISSPECIAL q = false then
    lci.scorevalues.matchscore
  else lci.scorevalues.mismatchscore

/-- The greatest of 0 and the best scores of the cells `0..n` of a column. -/
def maxBestUpTo (column : Column) : Nat → Int
  | 0 => max 0 (column.cell 0).bestcell
  | n + 1 => max (maxBestUpTo column n) (column.cell (n + 1)).bestcell

/-- One extension of a node state, as the traversal requests it: into a
destination state (`locali_nextLimdfsstate`) or over the state itself
(`locali_inplacenextLimdfsstate`). -/
inductive Ext where
  | branch (dst : Column) (ch : Uchar)
  | inplace (ch : Uchar)
deriving DecidableEq, Repr

/-- The engine call for one extension at depth `depth`. -/
def applyExt (ISSPECIAL : Uchar → Bool) (fresh : Nat → Matrixvalue)
    (lci : Limdfsconstinfo) (depth : Nat) (col : Column) : Ext → Option Column
  | Ext.branch dst ch => locali_nextLimdfsstate ISSPECIAL fresh lci dst depth ch col
  | Ext.inplace ch => locali_inplacenextLimdfsstate ISSPECIAL fresh lci col depth ch

/-- A sequence of extensions at the depths `depth`, `depth + 1`, ... -/
def extend (ISSPECIAL : Uchar → Bool) (fresh : Nat → Matrixvalue)
    (lci : Limdfsconstinfo) : Nat → Column → List Ext → Option Column
  | _, col, [] => some col
  | depth, col, e :: es =>
    (applyExt ISSPECIAL fresh lci depth col e).bind
      (fun c => extend ISSPECIAL fresh lci (depth + 1) c es)

/-- The state of the root: a stack element initialised by
`locali_initLimdfsstackelem` and then by `locali_initrootLimdfsstate`; `raw` is
the indeterminate content of the element before. -/
def rootstate (fresh : Nat → Matrixvalue) (lci : Limdfsconstinfo) (raw : Column) :
    Column :=
  locali_initrootLimdfsstate fresh (locali_initLimdfsstackelem raw) lci

/-! ## Capacity and alignments -/

/-- The destination of `locali_copyLimdfsstate` after its resize step
(lines 473-480). -/
def copyResized (fresh : Nat → Matrixvalue) (destcol : Column)
    (lci : Limdfsconstinfo) : Column :=
  if destcol.lenval < lci.maxcollen then
    { destcol with
      colvalues := gt_realloc fresh destcol.colvalues lci.maxcollen
      lenval := lci.maxcollen }
  else destcol

/-- The destination of `nextcolumn` after its resize step (lines 162-169). -/
def nextcolumnResized (fresh : Nat → Matrixvalue) (outcol : Column)
    (lci : Limdfsconstinfo) : Column :=
  if outcol.lenval < lci.querylength + 1 then
    { outcol with
      colvalues := gt_realloc fresh outcol.colvalues lci.maxcollen
      lenval := lci.maxcollen }
  else outcol

/-- The node states that the functions of the file produce under the
parameters `lci`: a stack element initialised by `locali_initLimdfsstackelem`,
and what `locali_initrootLimdfsstate`, `locali_freeLimdfsstackelem`,
`locali_nextLimdfsstate`, `locali_inplacenextLimdfsstate` and
`locali_copyLimdfsstate` return for such states. -/
inductive EngineState (lci : Limdfsconstinfo) : Column → Prop where
  | new (raw : Column) : EngineState lci (locali_initLimdfsstackelem raw)
  | root (fresh : Nat → Matrixvalue) (c : Column) :
      EngineState lci c → EngineState lci (locali_initrootLimdfsstate fresh c lci)
  | free (c : Column) : EngineState lci c → EngineState lci (locali_freeLimdfsstackelem c)
  | next (ISSPECIAL : Uchar → Bool) (fresh : Nat → Matrixvalue) (dst parent r : Column)
      (depth : Nat) (ch : Uchar) :
      EngineState lci dst → EngineState lci parent →
      locali_nextLimdfsstate ISSPECIAL fresh lci dst depth ch parent = some r →
      EngineState lci r
  | inplace (ISSPECIAL : Uchar → Bool) (fresh : Nat → Matrixvalue) (c r : Column)
      (depth : Nat) (ch : Uchar) :
      EngineState lci c →
      locali_inplacenextLimdfsstate ISSPECIAL fresh lci c depth ch = some r →
      EngineState lci r
  | copy (fresh : Nat → Matrixvalue) (dst src r : Column) :
      EngineState lci dst → EngineState lci src →
      locali_copyLimdfsstate fresh dst src lci = some r → EngineState lci r

/-- A step of an alignment: a substitution consumes one path character and one
query symbol, an insertion one path character, a deletion one query symbol. -/
inductive AlignOp where
  | sub
  | ins
  | del
deriving DecidableEq, Repr

/-- What an alignment has reached: the number of path characters consumed, the
query offset, the kind of the last step and the score. -/
structure AlignState where
  pathpos : Nat
  querypos : Nat
  last : Option AlignOp
  score : Int
deriving DecidableEq, Repr

/-- The affine-gap score of one more step on the path `w`: the substitution
score of the two symbols consumed; for a gap position `gapextend` if the step
before is of the same kind, `gapstart + gapextend` if it opens a gap. -/
def alignStep (ISSPECIAL : Uchar → Bool) (lci : Limdfsconstinfo) (w : List Uchar)
    (st : AlignState) : AlignOp → AlignState
  | AlignOp.sub =>
    ⟨st.pathpos + 1, st.querypos + 1, some AlignOp.sub,
      st.score + substScore ISSPECIAL lci (w.getD st.pathpos 0)
        (lci.query.getD st.querypos 0)⟩
  | AlignOp.ins =>
    ⟨st.pathpos + 1, st.querypos, some AlignOp.ins,
      st.score + (if st.last = some AlignOp.ins then lci.scorevalues.gapextend
        else lci.scorevalues.gapstart + lci.scorevalues.gapextend)⟩
  | AlignOp.del =>
    ⟨st.pathpos, st.querypos + 1, some AlignOp.del,
      st.score + (if st.last = some AlignOp.del then lci.scorevalues.gapextend
        else lci.scorevalues.gapstart + lci.scorevalues.gapextend)⟩

/-- The alignment `a`, started at the first path character and at the query
offset `k0`. -/
def runAlignment (ISSPECIAL : Uchar → Bool) (lci : Limdfsconstinfo) (w : List Uchar)
    (k0 : Nat) (a : List AlignOp) : AlignState :=
  a.foldl (alignStep ISSPECIAL lci w) ⟨0, k0, none, 0⟩

/-! ## Node states in memory

To speak about the sharing of buffers, the node states are placed in a memory:
the structs lie on the stack of the driver and are named by their index, the
buffers lie on the heap and are named by their address.  A function of the
engine reads the states it gets pointers to and writes its result into the one
state it gets a non-const pointer to, and into the buffer of that state. -/

/-- `struct Column` as it lies in memory: `colvalues` is the address of the
buffer, `none` is `NULL`. -/
structure ColumnRef where
  colvalues : Option Nat
  lenval : Nat
  pprefixlen : Nat
  maxvalue : Nat
deriving DecidableEq, Repr

/-- The memory of a traversal: the node states by their index, the buffers by
their address. -/
structure Memory where
  states : Nat → ColumnRef
  heap : Nat → Option (List Matrixvalue)

/-- The column that the state `i` denotes: its fields, with the buffer found
at its address. -/
def Memory.column (m : Memory) (i : Nat) : Column :=
  ⟨(m.states i).colvalues.bind m.heap, (m.states i).lenval, (m.states i).pprefixlen,
    (m.states i).maxvalue⟩

/-- The memory after a function has written the column `r` into the state `i`.
When the function has called `gt_realloc` (`moved`), the buffer lies at the
address `newaddr` that the allocator returned, and the old block is released
unless it is that address; otherwise the buffer stays where it was. -/
def Memory.store (m : Memory) (i : Nat) (newaddr : Nat) (moved : Bool) (r : Column) :
    Memory :=
  { states := fun j =>
      if j = i then
        ⟨if moved = true then some newaddr else (m.states i).colvalues, r.lenval,
          r.pprefixlen, r.maxvalue⟩
      else m.states j
    heap := fun x =>
      if some x = (if moved = true then some newaddr else (m.states i).colvalues) then
        r.colvalues
      else if moved = true ∧ some x = (m.states i).colvalues then none
      else m.heap x }

/-- `locali_copyLimdfsstate` on the states `dst` and `src` in memory;
`gt_realloc` is called when the source has a buffer and
`destcol->lenval < maxcollen`. -/
def copyMem (fresh : Nat → Matrixvalue) (newaddr : Nat) (m : Memory) (dst src : Nat)
    (lci : Limdfsconstinfo) : Option Memory :=
  (locali_copyLimdfsstate fresh (m.column dst) (m.column src) lci).map
    (m.store dst newaddr
      (decide ((m.column src).colvalues ≠ none ∧ (m.states dst).lenval < lci.maxcollen)))

/-- `locali_inplacenextLimdfsstate` on the state `i` in memory; `gt_realloc` is
called only by `secondcolumn`, when `lenval < maxcollen`. -/
def inplaceMem (ISSPECIAL : Uchar → Bool) (fresh : Nat → Matrixvalue) (newaddr : Nat)
    (lci : Limdfsconstinfo) (m : Memory) (i : Nat) (currentdepth : Nat)
    (currentchar : Uchar) : Option Memory :=
  (locali_inplacenextLimdfsstate ISSPECIAL fresh lci (m.column i) currentdepth
      currentchar).map
    (m.store i newaddr
      (decide (¬ currentdepth > 1 ∧ (m.states i).lenval < lci.maxcollen)))

/-- `locali_nextLimdfsstate` with the state `out` as destination and the state
`inn` as parent.  The two assertions of `nextcolumn` on the pointers fail when
the two states are the same struct or hold the same address; `gt_realloc` is
called by `nextcolumn` when `lenval < querylength + 1` and by `secondcolumn`
when `lenval < maxcollen`. -/
def nextMem (ISSPECIAL : Uchar → Bool) (fresh : Nat → Matrixvalue) (newaddr : Nat)
    (lci : Limdfsconstinfo) (m : Memory) (out : Nat) (currentdepth : Nat)
    (currentchar : Uchar) (inn : Nat) : Option Memory :=
  if currentdepth > 1 ∧
      (out = inn ∨ (m.states out).colvalues = (m.states inn).colvalues) then none
  else
    (locali_nextLimdfsstate ISSPECIAL fresh lci (m.column out) currentdepth currentchar
        (m.column inn)).map
      (m.store out newaddr
        (decide (if currentdepth > 1 then (m.states out).lenval < lci.querylength + 1
          else (m.states out).lenval < lci.maxcollen)))

/-- One extension that writes into a given state: in place, or with the state
as destination and the state `parent` as parent; `newaddr` is the address the
allocator returns if it is called. -/
inductive MemStep where
  | inplace (newaddr : Nat) (ch : Uchar)
  | dest (newaddr : Nat) (parent : Nat) (ch : Uchar)
deriving DecidableEq, Repr

/-- The address the allocator returns in a step. -/
def MemStep.newaddr : MemStep → Nat
  | MemStep.inplace a _ => a
  | MemStep.dest a _ _ => a

/-- The engine call for one step that writes into the state `dst`. -/
def applyMemStep (ISSPECIAL : Uchar → Bool) (fresh : Nat → Matrixvalue)
    (lci : Limdfsconstinfo) (depth : Nat) (m : Memory) (dst : Nat) :
    MemStep → Option Memory
  | MemStep.inplace a ch => inplaceMem ISSPECIAL fresh a lci m dst depth ch
  | MemStep.dest a parent ch => nextMem ISSPECIAL fresh a lci m dst depth ch parent

/-- A sequence of steps that write into the state `dst`, at the depths
`depth`, `depth + 1`, ... -/
def runMem (ISSPECIAL : Uchar → Bool) (fresh : Nat → Matrixvalue)
    (lci : Limdfsconstinfo) (dst : Nat) : Nat → Memory → List MemStep → Option Memory
  | _, m, [] => some m
  | depth, m, st :: sts =>
    (applyMemStep ISSPECIAL fresh lci depth m dst st).bind
      (fun m' => runMem ISSPECIAL fresh lci dst (depth + 1) m' sts)

/-- The state `src` and its buffer are in `m'` what they are in `m`, and the
state `dst` of `m'` does not hold the address of that buffer. -/
def SrcKept (m m' : Memory) (dst src : Nat) : Prop :=
  m'.states src = m.states src ∧
    (∀ a, (m.states src).colvalues = some a → m'.heap a = m.heap a) ∧
    (∀ a, (m.states src).colvalues = some a → (m'.states dst).colvalues ≠ some a)

/-! ## Concrete inputs -/

/-- No symbol is special. -/
def noSpecial : Uchar → Bool := fun _ => false

/-- Newly allocated cells hold zeros. -/
def zeroFresh : Nat → Matrixvalue := fun _ => ⟨0, 0, 0, 0⟩

/-- A stack element before `locali_initLimdfsstackelem`. -/
def rawColumn : Column := ⟨none, 0, 0, 0⟩

/-- The parameters of the scenarios of the specification: scores 2, -1, -3, -1,
threshold 4 and the query `ACGT`, encoded as `[0, 1, 2, 3]`, initialised by
`locali_initdfsconstinfo`. -/
def scenarioParams : Limdfsconstinfo :=
  locali_initdfsconstinfo
    (locali_allocatedfsconstinfo ⟨⟨0, 0, 0, 0⟩, [], 0, 0, 0⟩ 4) 4 2 (-1) (-3) (-1) 4
    [0, 1, 2, 3] 4

/-- The same scores with the one-symbol query `[0]`. -/
def smallParams : Limdfsconstinfo :=
  locali_initdfsconstinfo
    (locali_allocatedfsconstinfo ⟨⟨0, 0, 0, 0⟩, [], 0, 0, 0⟩ 4) 4 2 (-1) (-3) (-1) 4
    [0] 1

/-- The same scores with a query of `n` equal symbols `0`. -/
def repeatParams (n : Nat) : Limdfsconstinfo :=
  locali_initdfsconstinfo
    (locali_allocatedfsconstinfo ⟨⟨0, 0, 0, 0⟩, [], 0, 0, 0⟩ 4) 4 2 (-1) (-3) (-1) 4
    (List.replicate n 0) n

/-- Sign-valid scores whose gap costs do not add up within a `long`: 2, -1,
`LONG_MIN`, -1, with the threshold 4 and the one-symbol query `[0]`. -/
def wrapParams : Limdfsconstinfo :=
  locali_initdfsconstinfo
    (locali_allocatedfsconstinfo ⟨⟨0, 0, 0, 0⟩, [], 0, 0, 0⟩ 4) 4 2 (-1)
    (-9223372036854775808) (-1) 4 [0] 1

/-- Sign-valid scores with the gap costs `LONG_MIN` and `-(2^62 - 1)`, the
threshold 4 and the one-symbol query `[0]`. -/
def deepgapParams : Limdfsconstinfo :=
  locali_initdfsconstinfo
    (locali_allocatedfsconstinfo ⟨⟨0, 0, 0, 0⟩, [], 0, 0, 0⟩ 4) 4 2 (-1)
    (-9223372036854775808) (-4611686018427387903) 4 [0] 1

/-- Sign-valid scores with the match score `2^62`: 2^62, -1, -3, -1, with the
threshold 4 and the query `[0, 0]`. -/
def wideParams : Limdfsconstinfo :=
  locali_initdfsconstinfo
    (locali_allocatedfsconstinfo ⟨⟨0, 0, 0, 0⟩, [], 0, 0, 0⟩ 4) 4 4611686018427387904 (-1)
    (-3) (-1) 4 [0, 0] 2

/-- A column from its cells, each given as (rep, ins, del, best), and its two
bookkeeping fields. -/
def mkColumn (cells : List (Int × Int × Int × Int)) (pprefixlen maxvalue : Nat) :
    Column :=
  ⟨some (cells.map (fun c => ⟨c.1, c.2.1, c.2.2.1, c.2.2.2⟩)), cells.length,
    pprefixlen, maxvalue⟩

/-- A memory with the depth-2 column of scenario A as state 0, its buffer at
the address 100, and states without buffer elsewhere. -/
def exampleMemory : Memory :=
  { states := fun i => if i = 0 then ⟨some 100, 5, 2, 4⟩ else ⟨none, 0, 0, 0⟩
    heap := fun x =>
      if x = 100 then
        some [⟨-1, -1, -1, -1⟩, ⟨-1, -2, -1, -1⟩, ⟨4, -1, -1, 4⟩, ⟨-1, -1, 0, 0⟩,
          ⟨-1, -1, -1, -1⟩]
      else none }

/-! ## The recurrence in closed form (used by the proofs) -/

/-- The gap rule of lines 172-196, 212-236 and 237-261: the score of a gap
ending here, from the gap score `g` and the best score `b` of the source
cell. -/
def gapscore (lci : Limdfsconstinfo) (g b : Int) : Int :=
  if g > 0 then
    if b > 0 then
      max2 (addLong g lci.scorevalues.gapextend)
        (addLong (addLong b lci.scorevalues.gapstart)
          lci.scorevalues.gapextend)
    else addLong g lci.scorevalues.gapextend
  else
    if b > 0 then addLong (addLong b lci.scorevalues.gapstart)
      lci.scorevalues.gapextend
    else MINUSINFTY

/-- The cell that one round of the loops writes, from the best score `nwbest`
of the north-west cell, the cell `west` of the parent at the same index and the
cell `north` just written at the previous index. -/
def gencell (ISSPECIAL : Uchar → Bool) (lci : Limdfsconstinfo) (dbchar q : Uchar)
    (nwbest : Int) (west north : Matrixvalue) : Matrixvalue :=
  let repcell :=
    if nwbest > 0 then addLong nwbest
      (REPLACEMENTSCORE ISSPECIAL lci dbchar q)
    else MINUSINFTY
  let inscell := gapscore lci west.inscell west.bestcell
  let delcell := gapscore lci north.delcell north.bestcell
  ⟨repcell, inscell, delcell, max3 repcell inscell delcell⟩

/-- One round of bookkeeping: the cell `c` is written at index `i` and the
maximum is updated (lines 265-270). -/
def writeTrack (c : Matrixvalue) (i : Nat) (s : Colbuf) : Colbuf :=
  if c.bestcell > 0 ∧ c.bestcell > (s.maxvalue : Int) then
    { cells := s.cells.set i c, maxvalue := c.bestcell.toNat, pprefixlen := i }
  else
    { s with cells := s.cells.set i c }

/-- The child column as a function of the index; `nw0` is the best score used
as north-west value at index 1. -/
def speccell (ISSPECIAL : Uchar → Bool) (lci : Limdfsconstinfo) (dbchar : Uchar)
    (P : List Matrixvalue) (nw0 : Int) : Nat → Matrixvalue
  | 0 => firstcell lci (cellAt P 0)
  | i + 1 =>
    gencell ISSPECIAL lci dbchar (lci.query.getD i 0)
      (if i = 0 then nw0 else (cellAt P i).bestcell) (cellAt P (i + 1))
      (speccell ISSPECIAL lci dbchar P nw0 i)

/-- The cells of the first column as a function of the index. -/
def secondcell (ISSPECIAL : Uchar → Bool) (lci : Limdfsconstinfo) (dbchar : Uchar) :
    Nat → Matrixvalue
  | 0 => ⟨MINUSINFTY, addLong lci.scorevalues.gapstart lci.scorevalues.gapextend,
          MINUSINFTY, MINUSINFTY⟩
  | i + 1 =>
    ⟨REPLACEMENTSCORE ISSPECIAL lci dbchar (lci.query.getD i 0), MINUSINFTY,
     MINUSINFTY,
     max2 MINUSINFTY (REPLACEMENTSCORE ISSPECIAL lci dbchar (lci.query.getD i 0))⟩

/-- The bookkeeping of the loops: the pair `(maxvalue, pprefixlen)` after the
rounds `1..n` over the cells `f`, started at `(m0, 0)`. -/
def trackmax (f : Nat → Matrixvalue) (m0 : Nat) : Nat → Nat × Nat
  | 0 => (m0, 0)
  | n + 1 =>
    if (f (n + 1)).bestcell > 0 ∧
        (f (n + 1)).bestcell > ((trackmax f m0 n).1 : Int) then
      ((f (n + 1)).bestcell.toNat, n + 1)
    else trackmax f m0 n

/-- What a column function establishes for its result `r`: the buffer is
consistent and long enough, the cells `0..querylength` are those of `f`, and
the bookkeeping fields are those of `trackmax f m0`. -/
def IsChild (lci : Limdfsconstinfo) (f : Nat → Matrixvalue) (m0 : Nat) (r : Column) :
    Prop :=
  r.wf ∧ lci.querylength + 1 ≤ r.lenval ∧
    (∀ j, j ≤ lci.querylength → r.cell j = f j) ∧
    (r.maxvalue, r.pprefixlen) = trackmax f m0 lci.querylength

/-- The character of an extension. -/
def Ext.char : Ext → Uchar
  | Ext.branch _ ch => ch
  | Ext.inplace ch => ch

/-- The destination of an extension, if it has one, satisfies `Column.wf`. -/
def Ext.dstWf : Ext → Prop
  | Ext.branch dst _ => dst.wf
  | Ext.inplace _ => True

instance (e : Ext) : Decidable e.dstWf := by
  cases e <;> unfold Ext.dstWf <;> infer_instance

/-- Invariant of the columns below the root: a consistent buffer of at least
`querylength + 1` cells, a dead cell 0, no insertion score that is positive
without the best score being so, and no best score above `maxvalue`. -/
def ChainInv (lci : Limdfsconstinfo) (col : Column) : Prop :=
  col.wf ∧ lci.querylength + 1 ≤ col.lenval ∧
    (col.cell 0).inscell ≤ 0 ∧ (col.cell 0).bestcell ≤ 0 ∧
    (∀ i, i ≤ lci.querylength →
      (col.cell i).inscell ≤ 0 ∨ (col.cell i).inscell ≤ (col.cell i).bestcell) ∧
    (∀ i, i ≤ lci.querylength → (col.cell i).bestcell ≤ (col.maxvalue : Int))

/-- Two states at depth `depth - 1` from which the same extensions lead to the
same columns. -/
def StartOk (lci : Limdfsconstinfo) (depth : Nat) (a b : Column) : Prop :=
  sameActive lci a b ∧ a.wf ∧ b.wf ∧ (depth > 1 → ChainInv lci a ∧ ChainInv lci b)

/-- A state whose capacity is in order: the field `lenval` tells the truth, and
a state with a buffer has at least `querylength + 1` cells. -/
def CapOk (lci : Limdfsconstinfo) (c : Column) : Prop :=
  c.wf ∧ (c.colvalues ≠ none → lci.querylength + 1 ≤ c.lenval)

/-- Some alignment consumes `d` path characters and the query symbols from some
offset up to `i`, ends in a step of kind `last` and has the score `s`. -/
def Reach (ISSPECIAL : Uchar → Bool) (lci : Limdfsconstinfo) (w : List Uchar)
    (d i : Nat) (last : AlignOp) (s : Int) : Prop :=
  ∃ k0 a, k0 ≤ i ∧ runAlignment ISSPECIAL lci w k0 a = ⟨d, i, some last, s⟩

/-- The positive scores of the cell `c` at depth `d` and index `i` are scores of
alignments, and the best score is the greatest of the three. -/
def CellReal (ISSPECIAL : Uchar → Bool) (lci : Limdfsconstinfo) (w : List Uchar)
    (d i : Nat) (c : Matrixvalue) : Prop :=
  (c.repcell > 0 → Reach ISSPECIAL lci w d i AlignOp.sub c.repcell) ∧
  (c.inscell > 0 → Reach ISSPECIAL lci w d i AlignOp.ins c.inscell) ∧
  (c.delcell > 0 → Reach ISSPECIAL lci w d i AlignOp.del c.delcell) ∧
  c.bestcell = max (max c.repcell c.inscell) c.delcell

/-- The bound of a column at depth `d`: the best score of the cell `i` is at
most `min d i` match scores. -/
def ScoreBound (lci : Limdfsconstinfo) (d : Nat) (col : Column) : Prop :=
  ∀ i, i ≤ lci.querylength →
    (col.cell i).bestcell ≤ ((min d i : Nat) : Int) * lci.scorevalues.matchscore

/-- No score of the cell `c` exceeds `LONG_MAX`. -/
def CellLong (c : Matrixvalue) : Prop :=
  c.repcell ≤ LONG_MAX ∧ c.inscell ≤ LONG_MAX ∧ c.delcell ≤ LONG_MAX ∧
    c.bestcell ≤ LONG_MAX

/-- The bookkeeping of a column names the first cell with the greatest best
score: `pprefixlen ≤ querylength`, it is 0 if `maxvalue` is 0, and if
`maxvalue > 0` the cell `pprefixlen` has the best score `maxvalue` and every
cell before it a smaller one. -/
def TieInv (lci : Limdfsconstinfo) (col : Column) : Prop :=
  col.pprefixlen ≤ lci.querylength ∧
  (col.maxvalue = 0 → col.pprefixlen = 0) ∧
  (0 < col.maxvalue →
    (col.cell col.pprefixlen).bestcell = (col.maxvalue : Int) ∧
    ∀ i, i < col.pprefixlen → (col.cell i).bestcell < (col.maxvalue : Int))

end Idxlocalidp

namespace GtSeedExtend

/-- `GtRange`; the field `end` is named `end_`. -/
structure GtRange where
  start : Nat
  end_ : Nat
deriving DecidableEq, Repr

/-- Modelled from the spec: the macro `MIN` of `core/minmax.h` is not among the
sources; the smaller of its two arguments. -/
def MIN (a b : Nat) : Nat :=
  if a < b then a else b

/-- What `gt_seed_extend_compute_parts` leaves behind: the array `seqranges`,
`*numseqranges`, the error object (`none` is "not set") and the return
value. -/
structure PartsResult where
  seqranges : List GtRange
  numseqranges : Nat
  err : Option String
  had_err : Int
deriving DecidableEq, Repr

/-- The loop of lines 542-548, entered with the current `seqnum`,
`*numseqranges` and array.  The arithmetic of `GtUword` is modulo
`GT_UWORD_MAX + 1`.  `none` is a failed `gt_assert` or a write past the end of
the array.  Each round increments `*numseqranges`, and the assertion stops the
loop when it reaches `numparts`; `fuel` counts the rounds that are left until
then. -/
def partsLoop (GT_UWORD_MAX maxseqnum partsize numparts : Nat) :
    Nat → Nat → Nat → List GtRange → Option (List GtRange × Nat)
  | fuel, seqnum, numseqranges, seqranges =>
    if seqnum ≤ maxseqnum then
      if ¬ numseqranges < numparts then none
      else if seqranges.length ≤ numseqranges then none
      else
        match fuel with
        | 0 => none
        | fuel + 1 =>
          partsLoop GT_UWORD_MAX maxseqnum partsize numparts fuel
            ((seqnum + partsize) % (GT_UWORD_MAX + 1))
            ((numseqranges + 1) % (GT_UWORD_MAX + 1))
            (seqranges.set numseqranges
              ⟨seqnum,
               MIN (((seqnum + partsize) % (GT_UWORD_MAX + 1) + GT_UWORD_MAX) %
                 (GT_UWORD_MAX + 1)) maxseqnum⟩)
    else some (seqranges, numseqranges)

/-- `gt_seed_extend_compute_parts`.  `GT_UWORD_MAX` (`core/types_api.h`) is
not among the sources and is a parameter; `num_of_sequences` is what
`gt_encseq_num_of_sequences(encseq)` returns; `numseqranges` is the value of
`*numseqranges` at the call, `seqranges` the array handed in and `err` the
error object.  `none` is a failed `gt_assert`, a division by zero or a write
past the end of the array. -/
def gt_seed_extend_compute_parts (GT_UWORD_MAX : Nat) (seqranges : List GtRange)
    (numseqranges : Nat) (num_of_sequences : Nat) (pick_value : Nat)
    (err : Option String) : Option PartsResult :=
  let numparts := numseqranges
  let maxseqnum := (num_of_sequences + GT_UWORD_MAX) % (GT_UWORD_MAX + 1)
  if numparts = 0 then none
  else
    let partsize := (maxseqnum / numparts + 1) % (GT_UWORD_MAX + 1)
    if pick_value = GT_UWORD_MAX then
      match partsLoop GT_UWORD_MAX maxseqnum partsize numparts numparts 0 0 seqranges with
      | none => none
      | some (seqranges, numseqranges) =>
        if ¬ numseqranges > 0 then none
        else some ⟨seqranges, numseqranges, err, 0⟩
    else if pick_value > numparts then
      some ⟨seqranges, 0,
        some ("arguments to option -pick must not exceed " ++ toString numparts ++
          " (number of parts)"), -1⟩
    else if pick_value < 1 then
      some ⟨seqranges, 0, some "arguments to option -pick must be at least 1", -1⟩
    else
      match seqranges with
      | [] => none
      | _ :: rest =>
        some ⟨⟨((pick_value + GT_UWORD_MAX) % (GT_UWORD_MAX + 1) * partsize) %
                 (GT_UWORD_MAX + 1),
               MIN ((pick_value * partsize % (GT_UWORD_MAX + 1) + GT_UWORD_MAX) %
                 (GT_UWORD_MAX + 1)) maxseqnum⟩ :: rest, 1, err, 0⟩

/-- The range at index `i` of the array. -/
def rangeAt (seqranges : List GtRange) (i : Nat) : GtRange :=
  seqranges.getD i ⟨0, 0⟩

end GtSeedExtend

namespace SsplicedAlignment

/-- `GT_Range`; the field `end` is named `end_`. -/
structure GT_Range where
  start : Nat
  end_ : Nat
deriving DecidableEq, Repr

/-- `range_compare_long_first`; `none` is the failed `assert`. -/
def range_compare_long_first (range_a range_b : GT_Range) : Option Int :=
  if ¬ (range_a.start ≤ range_a.end_ ∧ range_b.start ≤ range_b.end_) then none
  else if range_a.start = range_b.start ∧ range_a.end_ = range_b.end_ then some 0
  else if range_a.start < range_b.start ∨
      (range_a.start = range_b.start ∧ range_a.end_ > range_b.end_) then some (-1)
  else some 1

end SsplicedAlignment

namespace Idxlocalidp

/-! ## Lemmas about buffers and loops -/

theorem cellAt_set_eq (cells : List Matrixvalue) (i : Nat) (c : Matrixvalue)
    (h : i < cells.length) : cellAt (cells.set i c) i = c := by
  simp [cellAt, List.getD_eq_getElem?_getD, List.getElem?_set, h]

theorem cellAt_set_ne (cells : List Matrixvalue) (i j : Nat) (c : Matrixvalue)
    (h : i ≠ j) : cellAt (cells.set i c) j = cellAt cells j := by
  simp [cellAt, List.getD_eq_getElem?_getD, List.getElem?_set, h]

theorem nextcolumnBody_eq (ISSPECIAL : Uchar → Bool) (lci : Limdfsconstinfo)
    (dbchar : Uchar) (incells : List Matrixvalue) (i : Nat) (s : Colbuf) :
    nextcolumnBody ISSPECIAL lci dbchar incells i s =
      writeTrack (gencell ISSPECIAL lci dbchar (lci.query.getD (i - 1) 0)
        (cellAt incells (i - 1)).bestcell (cellAt incells i)
        (cellAt s.cells (i - 1))) i s := rfl

theorem secondcolumnBody_eq (ISSPECIAL : Uchar → Bool) (lci : Limdfsconstinfo)
    (dbchar : Uchar) (i : Nat) (s : Colbuf) :
    secondcolumnBody ISSPECIAL lci dbchar (i + 1) s =
      writeTrack (secondcell ISSPECIAL lci dbchar (i + 1)) (i + 1) s := rfl

theorem inplacenextcolumnBody_eq (ISSPECIAL : Uchar → Bool) (lci : Limdfsconstinfo)
    (dbchar : Uchar) (i : Nat) (st : Inplacestate) :
    inplacenextcolumnBody ISSPECIAL lci dbchar i st =
      { buf := writeTrack (gencell ISSPECIAL lci dbchar (lci.query.getD (i - 1) 0)
          st.nw.bestcell (cellAt st.buf.cells i) (cellAt st.buf.cells (i - 1))) i st.buf,
        nw := cellAt st.buf.cells i } := by
  unfold inplacenextcolumnBody writeTrack
  exact (apply_ite (fun b => (⟨b, cellAt st.buf.cells i⟩ : Inplacestate)) _ _ _).symm

theorem writeTrack_cells (c : Matrixvalue) (i : Nat) (s : Colbuf) :
    (writeTrack c i s).cells = s.cells.set i c := by
  unfold writeTrack; split <;> rfl

/-- Generic loop lemma. -/
theorem forUpTo_writeTrack (body : Nat → Colbuf → Colbuf)
    (g : Nat → Matrixvalue → Matrixvalue) (f : Nat → Matrixvalue)
    (hbody : ∀ i s, body (i + 1) s = writeTrack (g (i + 1) (cellAt s.cells i)) (i + 1) s)
    (hf : ∀ i, f (i + 1) = g (i + 1) (f i))
    (cells0 : List Matrixvalue) (m0 : Nat) (h0 : cellAt cells0 0 = f 0) (n : Nat)
    (hn : n < cells0.length) :
    (forUpTo n body ⟨cells0, m0, 0⟩).cells.length = cells0.length ∧
    (∀ j, j ≤ n → cellAt (forUpTo n body ⟨cells0, m0, 0⟩).cells j = f j) ∧
    (∀ j, n < j → cellAt (forUpTo n body ⟨cells0, m0, 0⟩).cells j = cellAt cells0 j) ∧
    ((forUpTo n body ⟨cells0, m0, 0⟩).maxvalue,
      (forUpTo n body ⟨cells0, m0, 0⟩).pprefixlen) = trackmax f m0 n := by
  induction n with
  | zero =>
    refine ⟨rfl, ?_, fun j _ => rfl, rfl⟩
    intro j hj
    have : j = 0 := by omega
    subst this
    exact h0
  | succ k ih =>
    obtain ⟨ihl, ihc, ihr, iht⟩ := ih (by omega)
    have hstep : forUpTo (k + 1) body ⟨cells0, m0, 0⟩ =
        writeTrack (f (k + 1)) (k + 1) (forUpTo k body ⟨cells0, m0, 0⟩) := by
      show body (k + 1) (forUpTo k body ⟨cells0, m0, 0⟩) = _
      rw [hbody, ihc k (le_refl k), hf]
    rw [hstep]
    refine ⟨?_, ?_, ?_, ?_⟩
    · rw [writeTrack_cells, List.length_set, ihl]
    · intro j hj
      rw [writeTrack_cells]
      by_cases hjk : j = k + 1
      · subst hjk
        exact cellAt_set_eq _ _ _ (by omega)
      · rw [cellAt_set_ne _ _ _ _ (fun h => hjk h.symm)]
        exact ihc j (by omega)
    · intro j hj
      rw [writeTrack_cells, cellAt_set_ne _ _ _ _ (by omega)]
      exact ihr j (by omega)
    · have h1 : (forUpTo k body ⟨cells0, m0, 0⟩).maxvalue = (trackmax f m0 k).1 := by
        rw [← iht]
      have h2 : (forUpTo k body ⟨cells0, m0, 0⟩).pprefixlen = (trackmax f m0 k).2 := by
        rw [← iht]
      unfold writeTrack
      rw [trackmax, h1]
      split
      · rfl
      · simp only [h1, h2]

theorem gt_realloc_length (fresh : Nat → Matrixvalue) (ptr : Option (List Matrixvalue))
    (n : Nat) : ∃ cells, gt_realloc fresh ptr n = some cells ∧ cells.length = n :=
  ⟨_, rfl, by simp⟩

theorem secondcolumn_spec (ISSPECIAL : Uchar → Bool) (fresh : Nat → Matrixvalue)
    (lci : Limdfsconstinfo) (outcol : Column) (dbchar : Uchar)
    (hwf : outcol.wf) (hcap : lci.querylength + 1 ≤ lci.maxcollen) :
    ∃ r, secondcolumn ISSPECIAL fresh lci outcol dbchar = some r ∧
      IsChild lci (secondcell ISSPECIAL lci dbchar) 0 r ∧
      r.lenval = max outcol.lenval lci.maxcollen := by
  -- the column after the resize step
  obtain ⟨oc, cells, hoc, hcells, hlen, hlv⟩ : ∃ (oc : Column) (cells : List Matrixvalue),
      (if outcol.lenval < lci.maxcollen then
        ({ outcol with
          colvalues := gt_realloc fresh outcol.colvalues lci.maxcollen
          lenval := lci.maxcollen } : Column)
       else outcol) = oc ∧ oc.colvalues = some cells ∧ cells.length = oc.lenval ∧
       oc.lenval = max outcol.lenval lci.maxcollen := by
    by_cases h : outcol.lenval < lci.maxcollen
    · obtain ⟨cells, hc, hl⟩ := gt_realloc_length fresh outcol.colvalues lci.maxcollen
      refine ⟨_, cells, if_pos h, hc, hl, ?_⟩
      simp only []
      omega
    · have hpos : 0 < outcol.lenval := by omega
      unfold Column.wf at hwf
      cases hcv : outcol.colvalues with
      | none => rw [hcv] at hwf; simp only [] at hwf; omega
      | some cells =>
        rw [hcv] at hwf
        refine ⟨_, cells, if_neg h, hcv, hwf, ?_⟩
        omega
  have hL : lci.querylength + 1 ≤ cells.length := by omega
  have h0 : 0 < cells.length := by omega
  have hloop := forUpTo_writeTrack (secondcolumnBody ISSPECIAL lci dbchar)
    (fun i _ => secondcell ISSPECIAL lci dbchar i) (secondcell ISSPECIAL lci dbchar)
    (fun i s => secondcolumnBody_eq ISSPECIAL lci dbchar i s) (fun _ => rfl)
    (cells.set 0 ⟨MINUSINFTY, addLong lci.scorevalues.gapstart lci.scorevalues.gapextend,
         MINUSINFTY, MINUSINFTY⟩) 0 (cellAt_set_eq _ _ _ h0) lci.querylength
    (by rw [List.length_set]; omega)
  obtain ⟨hl, hc, _, ht⟩ := hloop
  have hres : secondcolumn ISSPECIAL fresh lci outcol dbchar = some
      { oc with
        colvalues := some (forUpTo lci.querylength (secondcolumnBody ISSPECIAL lci dbchar)
          { cells := cells.set 0 ⟨MINUSINFTY,
              addLong lci.scorevalues.gapstart lci.scorevalues.gapextend, MINUSINFTY,
              MINUSINFTY⟩,
            maxvalue := 0, pprefixlen := 0 }).cells
        maxvalue := (forUpTo lci.querylength (secondcolumnBody ISSPECIAL lci dbchar)
          { cells := cells.set 0 ⟨MINUSINFTY,
              addLong lci.scorevalues.gapstart lci.scorevalues.gapextend, MINUSINFTY,
              MINUSINFTY⟩,
            maxvalue := 0, pprefixlen := 0 }).maxvalue
        pprefixlen := (forUpTo lci.querylength (secondcolumnBody ISSPECIAL lci dbchar)
          { cells := cells.set 0 ⟨MINUSINFTY,
              addLong lci.scorevalues.gapstart lci.scorevalues.gapextend, MINUSINFTY,
              MINUSINFTY⟩,
            maxvalue := 0, pprefixlen := 0 }).pprefixlen } := by
    unfold secondcolumn
    simp only [hoc, hcells]
    rw [if_neg (by omega)]
  refine ⟨_, hres, ⟨?_, ?_, ?_, ?_⟩, ?_⟩
  · show List.length _ = oc.lenval
    rw [hl, List.length_set, hlen]
  · show _ ≤ oc.lenval
    omega
  · exact hc
  · exact ht
  · exact hlv

theorem speccell_succ_self (ISSPECIAL : Uchar → Bool) (lci : Limdfsconstinfo)
    (dbchar : Uchar) (P : List Matrixvalue) (i : Nat) :
    speccell ISSPECIAL lci dbchar P (cellAt P 0).bestcell (i + 1) =
      gencell ISSPECIAL lci dbchar (lci.query.getD i 0) (cellAt P i).bestcell
        (cellAt P (i + 1)) (speccell ISSPECIAL lci dbchar P (cellAt P 0).bestcell i) := by
  cases i with
  | zero => rfl
  | succ k => rfl

theorem nextcolumn_spec (ISSPECIAL : Uchar → Bool) (fresh : Nat → Matrixvalue)
    (lci : Limdfsconstinfo) (outcol : Column) (dbchar : Uchar) (incol : Column)
    (hwfo : outcol.wf) (hwfi : incol.wf) (hin : lci.querylength + 1 ≤ incol.lenval)
    (hout : lci.querylength + 1 ≤ outcol.lenval ∨ lci.querylength + 1 ≤ lci.maxcollen) :
    ∃ r, nextcolumn ISSPECIAL fresh lci outcol dbchar incol = some r ∧
      IsChild lci
        (speccell ISSPECIAL lci dbchar (incol.colvalues.getD []) (incol.cell 0).bestcell)
        (max2 0 (firstcell lci (incol.cell 0)).bestcell).toNat r ∧
      r.lenval = if outcol.lenval < lci.querylength + 1 then lci.maxcollen
        else outcol.lenval := by
  -- the parent has a buffer
  obtain ⟨incells, hincv, hinlen⟩ : ∃ incells, incol.colvalues = some incells ∧
      incells.length = incol.lenval := by
    unfold Column.wf at hwfi
    cases hcv : incol.colvalues with
    | none => rw [hcv] at hwfi; simp only [] at hwfi; omega
    | some cells => rw [hcv] at hwfi; exact ⟨cells, rfl, hwfi⟩
  -- the destination after the resize step
  obtain ⟨oc, cells, hoc, hcells, hlen, hlv⟩ : ∃ (oc : Column) (cells : List Matrixvalue),
      (if outcol.lenval < lci.querylength + 1 then
        ({ outcol with
          colvalues := gt_realloc fresh outcol.colvalues lci.maxcollen
          lenval := lci.maxcollen } : Column)
       else outcol) = oc ∧ oc.colvalues = some cells ∧ cells.length = oc.lenval ∧
       oc.lenval = if outcol.lenval < lci.querylength + 1 then lci.maxcollen
        else outcol.lenval := by
    by_cases h : outcol.lenval < lci.querylength + 1
    · obtain ⟨cells, hc, hl⟩ := gt_realloc_length fresh outcol.colvalues lci.maxcollen
      refine ⟨_, cells, if_pos h, hc, hl, ?_⟩
      rw [if_pos h]
    · unfold Column.wf at hwfo
      cases hcv : outcol.colvalues with
      | none => rw [hcv] at hwfo; simp only [] at hwfo; omega
      | some cells =>
        rw [hcv] at hwfo
        refine ⟨_, cells, if_neg h, hcv, hwfo, ?_⟩
        rw [if_neg h]
  have hocL : lci.querylength + 1 ≤ oc.lenval := by
    rw [hlv]; split <;> omega
  have h0 : 0 < cells.length := by omega
  have hP : incol.colvalues.getD [] = incells := by rw [hincv]; rfl
  have hcell : ∀ j, incol.cell j = cellAt incells j := by
    intro j; unfold Column.cell; rw [hP]
  have hloop := forUpTo_writeTrack (nextcolumnBody ISSPECIAL lci dbchar incells)
    (fun i north => gencell ISSPECIAL lci dbchar (lci.query.getD (i - 1) 0)
        (cellAt incells (i - 1)).bestcell (cellAt incells i) north)
    (speccell ISSPECIAL lci dbchar incells (cellAt incells 0).bestcell)
    (fun i s => nextcolumnBody_eq ISSPECIAL lci dbchar incells (i + 1) s)
    (fun i => speccell_succ_self ISSPECIAL lci dbchar incells i)
    (cells.set 0 (firstcell lci (cellAt incells 0)))
    (max2 0 (firstcell lci (cellAt incells 0)).bestcell).toNat
    (cellAt_set_eq _ _ _ h0) lci.querylength
    (by rw [List.length_set]; omega)
  obtain ⟨hl, hc, _, ht⟩ := hloop
  have hres : nextcolumn ISSPECIAL fresh lci outcol dbchar incol = some
      { oc with
        colvalues := some (forUpTo lci.querylength
          (nextcolumnBody ISSPECIAL lci dbchar incells)
          { cells := cells.set 0 (firstcell lci (cellAt incells 0)),
            maxvalue := (max2 0 (firstcell lci (cellAt incells 0)).bestcell).toNat,
            pprefixlen := 0 }).cells
        maxvalue := (forUpTo lci.querylength
          (nextcolumnBody ISSPECIAL lci dbchar incells)
          { cells := cells.set 0 (firstcell lci (cellAt incells 0)),
            maxvalue := (max2 0 (firstcell lci (cellAt incells 0)).bestcell).toNat,
            pprefixlen := 0 }).maxvalue
        pprefixlen := (forUpTo lci.querylength
          (nextcolumnBody ISSPECIAL lci dbchar incells)
          { cells := cells.set 0 (firstcell lci (cellAt incells 0)),
            maxvalue := (max2 0 (firstcell lci (cellAt incells 0)).bestcell).toNat,
            pprefixlen := 0 }).pprefixlen } := by
    unfold nextcolumn
    rw [if_neg (by rw [hincv]; simp), if_neg (by omega)]
    simp only [hoc, hcells, hincv]
    rw [if_neg (by omega), if_neg (by omega)]
  refine ⟨_, hres, ⟨?_, ?_, ?_, ?_⟩, ?_⟩
  · show List.length _ = oc.lenval
    rw [hl, List.length_set, hlen]
  · exact hocL
  · intro j hj
    rw [hP, hcell]
    exact hc j hj
  · rw [hP, hcell]
    exact ht
  · exact hlv

/-- Invariant of the loop of `inplacenextcolumn`. -/
theorem forUpTo_inplace (ISSPECIAL : Uchar → Bool) (lci : Limdfsconstinfo)
    (dbchar : Uchar) (P : List Matrixvalue) (m0 : Nat) (n : Nat) (hn : n < P.length) :
    let c0 := firstcell lci (cellAt P 0)
    let st := forUpTo n (inplacenextcolumnBody ISSPECIAL lci dbchar)
      { buf := { cells := P.set 0 c0, maxvalue := m0, pprefixlen := 0 }, nw := c0 }
    let f := speccell ISSPECIAL lci dbchar P c0.bestcell
    st.buf.cells.length = P.length ∧
    (∀ j, j ≤ n → cellAt st.buf.cells j = f j) ∧
    (∀ j, n < j → cellAt st.buf.cells j = cellAt P j) ∧
    (st.buf.maxvalue, st.buf.pprefixlen) = trackmax f m0 n ∧
    st.nw = if n = 0 then c0 else cellAt P n := by
  intro c0 st f
  induction n with
  | zero =>
    refine ⟨by simp [st, forUpTo], ?_, ?_, rfl, rfl⟩
    · intro j hj
      have : j = 0 := by omega
      subst this
      exact cellAt_set_eq _ _ _ hn
    · intro j hj
      exact cellAt_set_ne _ _ _ _ (by omega)
  | succ k ih =>
    obtain ⟨ihl, ihc, ihr, iht, ihnw⟩ := ih (by omega)
    have hstep : st = inplacenextcolumnBody ISSPECIAL lci dbchar (k + 1)
        (forUpTo k (inplacenextcolumnBody ISSPECIAL lci dbchar)
          { buf := { cells := P.set 0 c0, maxvalue := m0, pprefixlen := 0 }, nw := c0 }) := rfl
    rw [inplacenextcolumnBody_eq] at hstep
    rw [ihr (k + 1) (by omega)] at hstep
    have hnwb : (forUpTo k (inplacenextcolumnBody ISSPECIAL lci dbchar)
          { buf := { cells := P.set 0 c0, maxvalue := m0, pprefixlen := 0 },
            nw := c0 }).nw.bestcell =
        (if k = 0 then c0.bestcell else (cellAt P k).bestcell) := by
      rw [ihnw]; split <;> rfl
    rw [hnwb] at hstep
    simp only [Nat.add_sub_cancel] at hstep
    rw [ihc k (le_refl k)] at hstep
    have hf : f (k + 1) = gencell ISSPECIAL lci dbchar (lci.query.getD k 0)
        (if k = 0 then c0.bestcell else (cellAt P k).bestcell) (cellAt P (k + 1)) (f k) := rfl
    rw [← hf] at hstep
    rw [hstep]
    refine ⟨?_, ?_, ?_, ?_, ?_⟩
    · rw [writeTrack_cells, List.length_set, ihl]
    · intro j hj
      rw [writeTrack_cells]
      by_cases hjk : j = k + 1
      · subst hjk
        exact cellAt_set_eq _ _ _ (by omega)
      · rw [cellAt_set_ne _ _ _ _ (fun h => hjk h.symm)]
        exact ihc j (by omega)
    · intro j hj
      rw [writeTrack_cells, cellAt_set_ne _ _ _ _ (by omega)]
      exact ihr j (by omega)
    · have h1 := congrArg Prod.fst iht
      have h2 := congrArg Prod.snd iht
      simp only [] at h1 h2
      unfold writeTrack
      rw [trackmax, h1]
      split
      · rfl
      · simp only [h1, h2]
    · simp

theorem inplacenextcolumn_spec (ISSPECIAL : Uchar → Bool)
    (lci : Limdfsconstinfo) (dbchar : Uchar) (column : Column)
    (hwf : column.wf) (hlen : lci.querylength + 1 ≤ column.lenval) :
    ∃ r, inplacenextcolumn ISSPECIAL lci dbchar column = some r ∧
      IsChild lci
        (speccell ISSPECIAL lci dbchar (column.colvalues.getD [])
          (firstcell lci (column.cell 0)).bestcell)
        (max2 0 (firstcell lci (column.cell 0)).bestcell).toNat r ∧
      r.lenval = column.lenval := by
  obtain ⟨P, hcv, hPlen⟩ : ∃ P, column.colvalues = some P ∧
      P.length = column.lenval := by
    unfold Column.wf at hwf
    cases hcv : column.colvalues with
    | none => rw [hcv] at hwf; simp only [] at hwf; omega
    | some cells => rw [hcv] at hwf; exact ⟨cells, rfl, hwf⟩
  have h0 : 0 < P.length := by omega
  have hP : column.colvalues.getD [] = P := by rw [hcv]; rfl
  have hcell : ∀ j, column.cell j = cellAt P j := by
    intro j; unfold Column.cell; rw [hP]
  obtain ⟨hl, hc, _, ht, _⟩ := forUpTo_inplace ISSPECIAL lci dbchar P
    (max2 0 (firstcell lci (cellAt P 0)).bestcell).toNat lci.querylength (by omega)
  have hres : inplacenextcolumn ISSPECIAL lci dbchar column = some
      { column with
        colvalues := some (forUpTo lci.querylength
          (inplacenextcolumnBody ISSPECIAL lci dbchar)
          { buf := { cells := P.set 0 (firstcell lci (cellAt P 0)),
                     maxvalue := (max2 0 (firstcell lci (cellAt P 0)).bestcell).toNat,
                     pprefixlen := 0 },
            nw := firstcell lci (cellAt P 0) }).buf.cells
        maxvalue := (forUpTo lci.querylength
          (inplacenextcolumnBody ISSPECIAL lci dbchar)
          { buf := { cells := P.set 0 (firstcell lci (cellAt P 0)),
                     maxvalue := (max2 0 (firstcell lci (cellAt P 0)).bestcell).toNat,
                     pprefixlen := 0 },
            nw := firstcell lci (cellAt P 0) }).buf.maxvalue
        pprefixlen := (forUpTo lci.querylength
          (inplacenextcolumnBody ISSPECIAL lci dbchar)
          { buf := { cells := P.set 0 (firstcell lci (cellAt P 0)),
                     maxvalue := (max2 0 (firstcell lci (cellAt P 0)).bestcell).toNat,
                     pprefixlen := 0 },
            nw := firstcell lci (cellAt P 0) }).buf.pprefixlen } := by
    unfold inplacenextcolumn
    simp only [hcv]
    rw [if_neg (by omega), cellAt_set_eq _ _ _ h0]
  refine ⟨_, hres, ⟨?_, ?_, ?_, ?_⟩, rfl⟩
  · show List.length _ = column.lenval
    rw [hl, hPlen]
  · exact hlen
  · intro j hj
    rw [hP, hcell]
    exact hc j hj
  · rw [hP, hcell]
    exact ht

/-! ### Arithmetic of the recurrence -/

theorem wrapLong_range (x : Int) : LONG_MIN ≤ wrapLong x ∧ wrapLong x ≤ LONG_MAX := by
  unfold wrapLong LONG_MIN LONG_MAX
  omega

theorem wrapLong_eq (x : Int) (h1 : LONG_MIN ≤ x) (h2 : x ≤ LONG_MAX) : wrapLong x = x := by
  unfold wrapLong
  unfold LONG_MIN at h1
  unfold LONG_MAX at h2
  omega

theorem addLong_eq (a b : Int) (h1 : LONG_MIN ≤ a + b) (h2 : a + b ≤ LONG_MAX) :
    addLong a b = a + b :=
  wrapLong_eq (a + b) h1 h2

theorem addLong_range (a b : Int) : LONG_MIN ≤ addLong a b ∧ addLong a b ≤ LONG_MAX :=
  wrapLong_range (a + b)

/-- A sum of two `long` that does not fall below `LONG_MIN` is either exact or
wraps to a negative value. -/
theorem addLong_cases (a b : Int) (ha : a ≤ LONG_MAX) (hb : b ≤ LONG_MAX)
    (hlow : LONG_MIN ≤ a + b) :
    addLong a b = a + b ∨ (LONG_MAX < a + b ∧ addLong a b < 0) := by
  unfold addLong wrapLong
  unfold LONG_MAX at ha hb ⊢
  unfold LONG_MIN at hlow
  omega

/-- A sum of two `long` that does not fall below `LONG_MIN` leaves at most its
value. -/
theorem addLong_le (a b : Int) (h : LONG_MIN ≤ a + b) : addLong a b ≤ a + b := by
  unfold addLong wrapLong
  unfold LONG_MIN at h
  omega

theorem gapfits_sum (lci : Limdfsconstinfo) (hv : lci.scorevalues.valid)
    (hg : lci.scorevalues.gapfits) :
    addLong lci.scorevalues.gapstart lci.scorevalues.gapextend =
        lci.scorevalues.gapstart + lci.scorevalues.gapextend ∧
      lci.scorevalues.gapstart + lci.scorevalues.gapextend ≤ -2 := by
  obtain ⟨_, _, hgs, hge⟩ := hv
  have h2 : lci.scorevalues.gapstart + lci.scorevalues.gapextend ≤ -2 := by omega
  refine ⟨addLong_eq _ _ hg ?_, h2⟩
  unfold LONG_MAX
  omega

/-- Under valid gap costs whose sum fits, one more gap position after a positive
`long` score is an exact sum. -/
theorem addLong_gapextend (lci : Limdfsconstinfo) (hv : lci.scorevalues.valid)
    (hf : lci.scorevalues.gapfits) (g : Int) (h0 : 0 < g) (h1 : g ≤ LONG_MAX) :
    addLong g lci.scorevalues.gapextend = g + lci.scorevalues.gapextend := by
  obtain ⟨_, _, hgs, hge⟩ := hv
  unfold Scorevalues.gapfits LONG_MIN at hf
  unfold LONG_MAX at h1
  unfold addLong wrapLong
  omega

/-- Under valid gap costs whose sum fits, a gap opened after a positive `long`
score is an exact sum. -/
theorem addLong_gapopen (lci : Limdfsconstinfo) (hv : lci.scorevalues.valid)
    (hf : lci.scorevalues.gapfits) (b : Int) (h0 : 0 < b) (h1 : b ≤ LONG_MAX) :
    addLong (addLong b lci.scorevalues.gapstart) lci.scorevalues.gapextend =
      b + lci.scorevalues.gapstart + lci.scorevalues.gapextend := by
  obtain ⟨_, _, hgs, hge⟩ := hv
  unfold Scorevalues.gapfits LONG_MIN at hf
  unfold LONG_MAX at h1
  unfold addLong wrapLong
  omega

theorem max3_ge_mid (a b c : Int) : b ≤ max3 a b c := by
  unfold max3
  simp only []
  split_ifs <;> omega

theorem max3_le (a b c m : Int) (ha : a ≤ m) (hb : b ≤ m) (hc : c ≤ m) :
    max3 a b c ≤ m := by
  unfold max3
  simp only []
  split_ifs <;> omega

theorem gapscore_dead (lci : Limdfsconstinfo) (g b : Int) (hg : g ≤ 0) (hb : b ≤ 0) :
    gapscore lci g b = MINUSINFTY := by
  unfold gapscore
  rw [if_neg (by omega), if_neg (by omega)]

theorem firstcell_dead (lci : Limdfsconstinfo) (c0 : Matrixvalue)
    (hi : c0.inscell ≤ 0) (hb : c0.bestcell ≤ 0) :
    firstcell lci c0 = ⟨MINUSINFTY, MINUSINFTY, MINUSINFTY, MINUSINFTY⟩ := by
  unfold firstcell
  simp only []
  rw [if_neg (by omega), if_neg (by omega)]
  rfl

theorem max2_le (a b m : Int) (ha : a ≤ m) (hb : b ≤ m) : max2 a b ≤ m := by
  unfold max2
  split_ifs <;> omega

theorem gapscore_long (lci : Limdfsconstinfo) (g b : Int) :
    gapscore lci g b ≤ LONG_MAX := by
  have h1 := (addLong_range g lci.scorevalues.gapextend).2
  have h2 := (addLong_range (addLong b lci.scorevalues.gapstart)
    lci.scorevalues.gapextend).2
  unfold gapscore
  split_ifs
  · exact max2_le _ _ _ h1 h2
  · exact h1
  · exact h2
  · unfold MINUSINFTY LONG_MAX
    omega

theorem firstcell_long (lci : Limdfsconstinfo) (c0 : Matrixvalue) :
    CellLong (firstcell lci c0) := by
  have hm : MINUSINFTY ≤ LONG_MAX := by unfold MINUSINFTY LONG_MAX; omega
  have hi : (firstcell lci c0).inscell ≤ LONG_MAX := gapscore_long lci _ _
  exact ⟨hm, hi, hm, max3_le _ _ _ _ hm hi hm⟩

theorem gencell_long (ISSPECIAL : Uchar → Bool) (lci : Limdfsconstinfo) (dbchar q : Uchar)
    (nw : Int) (west north : Matrixvalue) :
    CellLong (gencell ISSPECIAL lci dbchar q nw west north) := by
  have hm : MINUSINFTY ≤ LONG_MAX := by unfold MINUSINFTY LONG_MAX; omega
  have hr : (gencell ISSPECIAL lci dbchar q nw west north).repcell ≤ LONG_MAX := by
    unfold gencell
    simp only []
    split_ifs
    · exact (addLong_range _ _).2
    · exact hm
  have hi : (gencell ISSPECIAL lci dbchar q nw west north).inscell ≤ LONG_MAX :=
    gapscore_long lci _ _
  have hd : (gencell ISSPECIAL lci dbchar q nw west north).delcell ≤ LONG_MAX :=
    gapscore_long lci _ _
  exact ⟨hr, hi, hd, max3_le _ _ _ _ hr hi hd⟩

theorem speccell_long (ISSPECIAL : Uchar → Bool) (lci : Limdfsconstinfo) (dbchar : Uchar)
    (P : List Matrixvalue) (nw : Int) (j : Nat) :
    CellLong (speccell ISSPECIAL lci dbchar P nw j) := by
  cases j with
  | zero => exact firstcell_long lci _
  | succ k => exact gencell_long ISSPECIAL lci _ _ _ _ _

/-- The substitution scores are values of a `long`. -/
theorem REPLACEMENTSCORE_long (ISSPECIAL : Uchar → Bool) (lci : Limdfsconstinfo)
    (hv : lci.scorevalues.valid) (hL : lci.scorevalues.isLong) (A B : Uchar) :
    LONG_MIN ≤ REPLACEMENTSCORE ISSPECIAL lci A B ∧
      REPLACEMENTSCORE ISSPECIAL lci A B ≤ LONG_MAX := by
  obtain ⟨h1, h2, _, _⟩ := hv
  obtain ⟨h3, h4⟩ := hL
  unfold LONG_MAX at h3 ⊢
  unfold LONG_MIN at h4 ⊢
  unfold REPLACEMENTSCORE
  split <;> omega

theorem secondcell_long (ISSPECIAL : Uchar → Bool) (lci : Limdfsconstinfo)
    (dbchar : Uchar) (hv : lci.scorevalues.valid) (hL : lci.scorevalues.isLong) (j : Nat) :
    CellLong (secondcell ISSPECIAL lci dbchar j) := by
  have hm : MINUSINFTY ≤ LONG_MAX := by unfold MINUSINFTY LONG_MAX; omega
  cases j with
  | zero => exact ⟨hm, (addLong_range _ _).2, hm, hm⟩
  | succ k =>
    have hr := (REPLACEMENTSCORE_long ISSPECIAL lci hv hL dbchar (lci.query.getD k 0)).2
    exact ⟨hr, hm, hm, max2_le _ _ _ hm hr⟩

theorem gencell_nw (ISSPECIAL : Uchar → Bool) (lci : Limdfsconstinfo) (dbchar q : Uchar)
    (nw : Int) (west north : Matrixvalue) (h : nw ≤ 0) :
    gencell ISSPECIAL lci dbchar q nw west north =
      gencell ISSPECIAL lci dbchar q MINUSINFTY west north := by
  unfold gencell
  simp only []
  rw [if_neg (by omega), if_neg (by unfold MINUSINFTY; omega)]

theorem speccell_nw (ISSPECIAL : Uchar → Bool) (lci : Limdfsconstinfo) (dbchar : Uchar)
    (P : List Matrixvalue) (nw : Int) (h : nw ≤ 0) (j : Nat) :
    speccell ISSPECIAL lci dbchar P nw j =
      speccell ISSPECIAL lci dbchar P MINUSINFTY j := by
  induction j with
  | zero => rfl
  | succ k ih =>
    unfold speccell
    rw [ih]
    by_cases hk : k = 0
    · rw [if_pos hk, if_pos hk]
      exact gencell_nw ISSPECIAL lci dbchar _ nw _ _ h
    · rw [if_neg hk, if_neg hk]

theorem speccell_congr (ISSPECIAL : Uchar → Bool) (lci : Limdfsconstinfo) (dbchar : Uchar)
    (P Q : List Matrixvalue) (nw : Int) (n : Nat)
    (h : ∀ j, j ≤ n → cellAt P j = cellAt Q j) (j : Nat) (hj : j ≤ n) :
    speccell ISSPECIAL lci dbchar P nw j = speccell ISSPECIAL lci dbchar Q nw j := by
  induction j with
  | zero =>
    unfold speccell
    rw [h 0 (by omega)]
  | succ k ih =>
    unfold speccell
    rw [ih (by omega), h k (by omega), h (k + 1) hj]

theorem trackmax_congr (f g : Nat → Matrixvalue) (m0 n : Nat)
    (h : ∀ j, j ≤ n → f j = g j) : trackmax f m0 n = trackmax g m0 n := by
  induction n with
  | zero => rfl
  | succ k ih =>
    unfold trackmax
    rw [ih (fun j hj => h j (by omega)), h (k + 1) (le_refl _)]

theorem trackmax_mono (f : Nat → Matrixvalue) (m0 n : Nat) :
    m0 ≤ (trackmax f m0 n).1 := by
  induction n with
  | zero => exact le_refl _
  | succ k ih =>
    unfold trackmax
    split
    · rename_i hc
      show m0 ≤ (f (k + 1)).bestcell.toNat
      omega
    · exact ih

theorem trackmax_ge (f : Nat → Matrixvalue) (m0 n : Nat) (j : Nat) (hj1 : 1 ≤ j)
    (hj : j ≤ n) : (f j).bestcell ≤ ((trackmax f m0 n).1 : Int) := by
  induction n with
  | zero => omega
  | succ k ih =>
    unfold trackmax
    by_cases hjk : j = k + 1
    · subst hjk
      split
      · rename_i hc
        show _ ≤ (((f (k + 1)).bestcell.toNat : Nat) : Int)
        omega
      · rename_i hc
        rw [not_and_or] at hc
        rcases hc with hc | hc <;> omega
    · have ih1 := ih (by omega)
      split
      · rename_i hc
        show _ ≤ (((f (k + 1)).bestcell.toNat : Nat) : Int)
        omega
      · exact ih1

theorem trackmax_dead (f : Nat → Matrixvalue) (m0 n : Nat)
    (h : ∀ j, 1 ≤ j → j ≤ n → (f j).bestcell ≤ 0) : trackmax f m0 n = (m0, 0) := by
  induction n with
  | zero => rfl
  | succ k ih =>
    unfold trackmax
    rw [if_neg (by have := h (k + 1) (by omega) (le_refl _); omega)]
    exact ih (fun j h1 h2 => h j h1 (by omega))

/-- A positive tracked maximum is the best score of the cell at the tracked
index. -/
theorem trackmax_pos (f : Nat → Matrixvalue) (m0 n : Nat)
    (hm : m0 = 0 ∨ m0 = (max2 0 (f 0).bestcell).toNat)
    (hpos : 0 < (trackmax f m0 n).1) :
    (trackmax f m0 n).2 ≤ n ∧
      (f (trackmax f m0 n).2).bestcell = ((trackmax f m0 n).1 : Int) := by
  induction n with
  | zero =>
    have h0 : trackmax f m0 0 = (m0, 0) := rfl
    rw [h0] at hpos ⊢
    refine ⟨le_refl _, ?_⟩
    simp only [] at hpos ⊢
    rcases hm with hm | hm
    · omega
    · rw [hm] at hpos ⊢
      unfold max2 at hpos ⊢
      split_ifs at hpos ⊢ with h
      · omega
      · simp at hpos
  | succ k ih =>
    unfold trackmax at hpos ⊢
    split_ifs at hpos ⊢ with hc
    · refine ⟨le_refl _, ?_⟩
      show (f (k + 1)).bestcell = (((f (k + 1)).bestcell.toNat : Nat) : Int)
      omega
    · obtain ⟨h1, h2⟩ := ih hpos
      exact ⟨by omega, h2⟩

/-! ### One extension -/

theorem applyExt_first (ISSPECIAL : Uchar → Bool) (fresh : Nat → Matrixvalue)
    (lci : Limdfsconstinfo) (depth : Nat) (col : Column) (e : Ext)
    (hd : ¬ depth > 1) (hcap : lci.querylength + 1 ≤ lci.maxcollen)
    (he : e.dstWf) (hwf : col.wf) :
    ∃ r, applyExt ISSPECIAL fresh lci depth col e = some r ∧
      IsChild lci (secondcell ISSPECIAL lci e.char) 0 r := by
  cases e with
  | branch dst ch =>
    obtain ⟨r, h1, h2, _⟩ := secondcolumn_spec ISSPECIAL fresh lci dst ch he hcap
    refine ⟨r, ?_, h2⟩
    show locali_nextLimdfsstate ISSPECIAL fresh lci dst depth ch col = some r
    unfold locali_nextLimdfsstate
    rw [if_neg hd, h1]
  | inplace ch =>
    obtain ⟨r, h1, h2, _⟩ := secondcolumn_spec ISSPECIAL fresh lci col ch hwf hcap
    refine ⟨r, ?_, h2⟩
    show locali_inplacenextLimdfsstate ISSPECIAL fresh lci col depth ch = some r
    unfold locali_inplacenextLimdfsstate
    rw [if_neg hd, h1]

theorem applyExt_next (ISSPECIAL : Uchar → Bool) (fresh : Nat → Matrixvalue)
    (lci : Limdfsconstinfo) (depth : Nat) (col : Column) (e : Ext)
    (hd : depth > 1) (hcap : lci.querylength + 1 ≤ lci.maxcollen)
    (he : e.dstWf) (hwf : col.wf) (hlen : lci.querylength + 1 ≤ col.lenval)
    (hi : (col.cell 0).inscell ≤ 0) (hb : (col.cell 0).bestcell ≤ 0) :
    ∃ r, applyExt ISSPECIAL fresh lci depth col e = some r ∧
      IsChild lci
        (speccell ISSPECIAL lci e.char (col.colvalues.getD []) MINUSINFTY) 0 r := by
  have hfc := firstcell_dead lci (col.cell 0) hi hb
  have hm0 : (max2 0 (firstcell lci (col.cell 0)).bestcell).toNat = 0 := by
    rw [hfc]; rfl
  cases e with
  | branch dst ch =>
    obtain ⟨r, h1, ⟨hw, hl, hc, ht⟩, _⟩ :=
      nextcolumn_spec ISSPECIAL fresh lci dst ch col he hwf hlen (Or.inr hcap)
    refine ⟨r, ?_, hw, hl, ?_, ?_⟩
    · show locali_nextLimdfsstate ISSPECIAL fresh lci dst depth ch col = some r
      unfold locali_nextLimdfsstate
      rw [if_pos hd, h1]
    · intro j hj
      rw [hc j hj]
      exact speccell_nw ISSPECIAL lci ch _ _ hb j
    · rw [ht, hm0]
      exact trackmax_congr _ _ _ _ (fun j _ => speccell_nw ISSPECIAL lci ch _ _ hb j)
  | inplace ch =>
    obtain ⟨r, h1, ⟨hw, hl, hc, ht⟩, _⟩ :=
      inplacenextcolumn_spec ISSPECIAL lci ch col hwf hlen
    have hnw : (firstcell lci (col.cell 0)).bestcell ≤ 0 := by
      rw [hfc]; show MINUSINFTY ≤ 0; unfold MINUSINFTY; omega
    refine ⟨r, ?_, hw, hl, ?_, ?_⟩
    · show locali_inplacenextLimdfsstate ISSPECIAL fresh lci col depth ch = some r
      unfold locali_inplacenextLimdfsstate
      rw [if_pos hd, h1]
    · intro j hj
      rw [hc j hj]
      exact speccell_nw ISSPECIAL lci ch _ _ hnw j
    · rw [ht, hm0]
      exact trackmax_congr _ _ _ _ (fun j _ => speccell_nw ISSPECIAL lci ch _ _ hnw j)

theorem IsChild_sameActive (lci : Limdfsconstinfo) (f g : Nat → Matrixvalue) (m0 : Nat)
    (r1 r2 : Column) (h1 : IsChild lci f m0 r1) (h2 : IsChild lci g m0 r2)
    (hfg : ∀ j, j ≤ lci.querylength → f j = g j) : sameActive lci r1 r2 := by
  obtain ⟨_, _, hc1, ht1⟩ := h1
  obtain ⟨_, _, hc2, ht2⟩ := h2
  have ht : (r1.maxvalue, r1.pprefixlen) = (r2.maxvalue, r2.pprefixlen) := by
    rw [ht1, ht2]
    exact trackmax_congr f g m0 _ hfg
  refine ⟨fun j hj => ?_, congrArg Prod.fst ht, congrArg Prod.snd ht⟩
  rw [hc1 j hj, hc2 j hj, hfg j hj]

theorem IsChild_ChainInv (lci : Limdfsconstinfo) (f : Nat → Matrixvalue) (r : Column)
    (h : IsChild lci f 0 r) (hi0 : (f 0).inscell ≤ 0) (hb0 : (f 0).bestcell ≤ 0)
    (hins : ∀ j, 1 ≤ j → j ≤ lci.querylength →
      (f j).inscell ≤ 0 ∨ (f j).inscell ≤ (f j).bestcell) : ChainInv lci r := by
  obtain ⟨hw, hl, hc, ht⟩ := h
  have hmax : r.maxvalue = (trackmax f 0 lci.querylength).1 := congrArg Prod.fst ht
  refine ⟨hw, hl, ?_, ?_, ?_, ?_⟩
  · rw [hc 0 (Nat.zero_le _)]; exact hi0
  · rw [hc 0 (Nat.zero_le _)]; exact hb0
  · intro i hi
    rw [hc i hi]
    by_cases h0 : i = 0
    · subst h0; exact Or.inl hi0
    · exact hins i (by omega) hi
  · intro i hi
    rw [hc i hi, hmax]
    by_cases h0 : i = 0
    · subst h0; omega
    · exact trackmax_ge f 0 _ i (by omega) hi

theorem secondcell_inv (ISSPECIAL : Uchar → Bool) (lci : Limdfsconstinfo) (ch : Uchar)
    (hv : lci.scorevalues.valid)
    (hf : lci.scorevalues.gapfits) :
    (secondcell ISSPECIAL lci ch 0).inscell ≤ 0 ∧
    (secondcell ISSPECIAL lci ch 0).bestcell ≤ 0 ∧
    ∀ j, 1 ≤ j → (secondcell ISSPECIAL lci ch j).inscell ≤ 0 := by
  obtain ⟨hsum, hle⟩ := gapfits_sum lci hv hf
  refine ⟨?_, ?_, ?_⟩
  · show addLong lci.scorevalues.gapstart lci.scorevalues.gapextend ≤ 0
    omega
  · show MINUSINFTY ≤ 0
    unfold MINUSINFTY; omega
  · intro j hj
    cases j with
    | zero => omega
    | succ k =>
      show MINUSINFTY ≤ 0
      unfold MINUSINFTY; omega

theorem speccell_ins_le_best (ISSPECIAL : Uchar → Bool) (lci : Limdfsconstinfo)
    (dbchar : Uchar) (P : List Matrixvalue) (nw : Int) (j : Nat) (hj : 1 ≤ j) :
    (speccell ISSPECIAL lci dbchar P nw j).inscell ≤
      (speccell ISSPECIAL lci dbchar P nw j).bestcell := by
  cases j with
  | zero => omega
  | succ k =>
    unfold speccell gencell
    exact max3_ge_mid _ _ _

/-- The step of the chain: from two comparable states, two extensions by the
same character give comparable states. -/
theorem applyExt_StartOk (ISSPECIAL : Uchar → Bool) (fresh : Nat → Matrixvalue)
    (lci : Limdfsconstinfo) (depth : Nat) (a b : Column) (e1 e2 : Ext)
    (hv : lci.scorevalues.valid)
    (hf : lci.scorevalues.gapfits) (hcap : lci.querylength + 1 ≤ lci.maxcollen)
    (h1 : e1.dstWf) (h2 : e2.dstWf) (hch : e1.char = e2.char)
    (hs : StartOk lci depth a b) :
    ∃ r1 r2, applyExt ISSPECIAL fresh lci depth a e1 = some r1 ∧
      applyExt ISSPECIAL fresh lci depth b e2 = some r2 ∧
      ChainInv lci r1 ∧ ChainInv lci r2 ∧ sameActive lci r1 r2 := by
  obtain ⟨hsame, hwa, hwb, hinv⟩ := hs
  by_cases hd : depth > 1
  · obtain ⟨⟨_, hla, hia, hba, _, _⟩, ⟨_, hlb, hib, hbb, _, _⟩⟩ := hinv hd
    obtain ⟨r1, hr1, hc1⟩ :=
      applyExt_next ISSPECIAL fresh lci depth a e1 hd hcap h1 hwa hla hia hba
    obtain ⟨r2, hr2, hc2⟩ :=
      applyExt_next ISSPECIAL fresh lci depth b e2 hd hcap h2 hwb hlb hib hbb
    have hdead : ∀ (P : List Matrixvalue) (c : Uchar),
        (cellAt P 0).inscell ≤ 0 → (cellAt P 0).bestcell ≤ 0 →
        (speccell ISSPECIAL lci c P MINUSINFTY 0).inscell ≤ 0 ∧
        (speccell ISSPECIAL lci c P MINUSINFTY 0).bestcell ≤ 0 := by
      intro P c hi hb
      have : speccell ISSPECIAL lci c P MINUSINFTY 0 = firstcell lci (cellAt P 0) := rfl
      rw [this, firstcell_dead lci _ hi hb]
      exact ⟨by show MINUSINFTY ≤ 0; unfold MINUSINFTY; omega,
        by show MINUSINFTY ≤ 0; unfold MINUSINFTY; omega⟩
    refine ⟨r1, r2, hr1, hr2, ?_, ?_, ?_⟩
    · exact IsChild_ChainInv lci _ r1 hc1 (hdead _ _ hia hba).1 (hdead _ _ hia hba).2
        (fun j hj _ => Or.inr (speccell_ins_le_best ISSPECIAL lci _ _ _ j hj))
    · exact IsChild_ChainInv lci _ r2 hc2 (hdead _ _ hib hbb).1 (hdead _ _ hib hbb).2
        (fun j hj _ => Or.inr (speccell_ins_le_best ISSPECIAL lci _ _ _ j hj))
    · refine IsChild_sameActive lci _ _ 0 r1 r2 hc1 hc2 ?_
      intro j hj
      rw [hch]
      exact speccell_congr ISSPECIAL lci e2.char _ _ MINUSINFTY lci.querylength
        hsame.1 j hj
  · obtain ⟨r1, hr1, hc1⟩ := applyExt_first ISSPECIAL fresh lci depth a e1 hd hcap h1 hwa
    obtain ⟨r2, hr2, hc2⟩ := applyExt_first ISSPECIAL fresh lci depth b e2 hd hcap h2 hwb
    refine ⟨r1, r2, hr1, hr2, ?_, ?_, ?_⟩
    · obtain ⟨hi0, hb0, hins⟩ := secondcell_inv ISSPECIAL lci e1.char hv hf
      exact IsChild_ChainInv lci _ r1 hc1 hi0 hb0 (fun j hj _ => Or.inl (hins j hj))
    · obtain ⟨hi0, hb0, hins⟩ := secondcell_inv ISSPECIAL lci e2.char hv hf
      exact IsChild_ChainInv lci _ r2 hc2 hi0 hb0 (fun j hj _ => Or.inl (hins j hj))
    · refine IsChild_sameActive lci _ _ 0 r1 r2 hc1 hc2 ?_
      intro j _
      rw [hch]

/-! ### Chains of extensions -/

theorem extend_StartOk (ISSPECIAL : Uchar → Bool) (fresh : Nat → Matrixvalue)
    (lci : Limdfsconstinfo) (hv : lci.scorevalues.valid)
    (hf : lci.scorevalues.gapfits)
    (hcap : lci.querylength + 1 ≤ lci.maxcollen) (s1 : List Ext) :
    ∀ (s2 : List Ext) (depth : Nat) (a b : Column),
      (∀ e ∈ s1, Ext.dstWf e) → (∀ e ∈ s2, Ext.dstWf e) →
      s1.map Ext.char = s2.map Ext.char → StartOk lci depth a b →
      ∃ r1 r2, extend ISSPECIAL fresh lci depth a s1 = some r1 ∧
        extend ISSPECIAL fresh lci depth b s2 = some r2 ∧
        StartOk lci (depth + s1.length) r1 r2 := by
  induction s1 with
  | nil =>
    intro s2 depth a b _ _ hmap hs
    cases s2 with
    | nil => exact ⟨a, b, rfl, rfl, hs⟩
    | cons e2 t2 => simp at hmap
  | cons e1 t1 ih =>
    intro s2 depth a b hw1 hw2 hmap hs
    cases s2 with
    | nil => simp at hmap
    | cons e2 t2 =>
      simp only [List.map_cons, List.cons.injEq] at hmap
      obtain ⟨r1, r2, hr1, hr2, hi1, hi2, hsame⟩ :=
        applyExt_StartOk ISSPECIAL fresh lci depth a b e1 e2 hv hf hcap
          (hw1 e1 (List.mem_cons_self _ _)) (hw2 e2 (List.mem_cons_self _ _)) hmap.1 hs
      have hs' : StartOk lci (depth + 1) r1 r2 := ⟨hsame, hi1.1, hi2.1, fun _ => ⟨hi1, hi2⟩⟩
      obtain ⟨q1, q2, hq1, hq2, hq⟩ := ih t2 (depth + 1) r1 r2
        (fun e he => hw1 e (List.mem_cons_of_mem _ he))
        (fun e he => hw2 e (List.mem_cons_of_mem _ he)) hmap.2 hs'
      refine ⟨q1, q2, ?_, ?_, ?_⟩
      · show (applyExt ISSPECIAL fresh lci depth a e1).bind _ = some q1
        rw [hr1]; exact hq1
      · show (applyExt ISSPECIAL fresh lci depth b e2).bind _ = some q2
        rw [hr2]; exact hq2
      · have : depth + (e1 :: t1).length = depth + 1 + t1.length := by
          simp only [List.length_cons]; omega
        rw [this]; exact hq

theorem sameActive_refl (lci : Limdfsconstinfo) (a : Column) : sameActive lci a a :=
  ⟨fun _ _ => rfl, rfl, rfl⟩

theorem rootstate_wf (fresh : Nat → Matrixvalue) (lci : Limdfsconstinfo) (raw : Column) :
    (rootstate fresh lci raw).wf := by
  unfold rootstate locali_initrootLimdfsstate locali_initLimdfsstackelem
  split
  · unfold Column.wf gt_realloc
    simp
  · rfl

/-- The capacity hypothesis of the statements below is what
`locali_initdfsconstinfo` establishes. -/
theorem initdfsconstinfo_cap (lci : Limdfsconstinfo) (alphasize : Nat)
    (matchscore mismatchscore gapstart gapextend : Int) (threshold : Nat)
    (query : List Uchar) (querylength : Nat) :
    (locali_initdfsconstinfo lci alphasize matchscore mismatchscore gapstart gapextend
        threshold query querylength).querylength + 1 ≤
      (locali_initdfsconstinfo lci alphasize matchscore mismatchscore gapstart gapextend
        threshold query querylength).maxcollen := by
  unfold locali_initdfsconstinfo
  simp only []
  split
  · exact le_refl _
  · rename_i h
    exact Nat.le_of_not_lt h

theorem ChainInv_dead (lci : Limdfsconstinfo) (col : Column) (h : ChainInv lci col)
    (hm : col.maxvalue = 0) :
    ∀ i, i ≤ lci.querylength →
      (col.cell i).inscell ≤ 0 ∧ (col.cell i).bestcell ≤ 0 := by
  obtain ⟨_, _, _, _, hins, hbest⟩ := h
  intro i hi
  have hb := hbest i hi
  rw [hm] at hb
  have hb' : (col.cell i).bestcell ≤ 0 := by simpa using hb
  rcases hins i hi with h1 | h1
  · exact ⟨h1, hb'⟩
  · exact ⟨by omega, hb'⟩

theorem speccell_dead (ISSPECIAL : Uchar → Bool) (lci : Limdfsconstinfo) (dbchar : Uchar)
    (P : List Matrixvalue) (n : Nat)
    (h : ∀ i, i ≤ n → (cellAt P i).inscell ≤ 0 ∧ (cellAt P i).bestcell ≤ 0)
    (j : Nat) (hj : j ≤ n) :
    speccell ISSPECIAL lci dbchar P MINUSINFTY j =
      ⟨MINUSINFTY, MINUSINFTY, MINUSINFTY, MINUSINFTY⟩ := by
  induction j with
  | zero => exact firstcell_dead lci _ (h 0 hj).1 (h 0 hj).2
  | succ k ih =>
    unfold speccell
    rw [ih (by omega)]
    unfold gencell
    simp only []
    have hnw : ¬ (if k = 0 then MINUSINFTY else (cellAt P k).bestcell) > 0 := by
      split
      · unfold MINUSINFTY; omega
      · have := (h k (by omega)).2; omega
    rw [if_neg hnw, gapscore_dead lci _ _ (h (k + 1) hj).1 (h (k + 1) hj).2,
      gapscore_dead lci MINUSINFTY MINUSINFTY (by unfold MINUSINFTY; omega)
        (by unfold MINUSINFTY; omega)]
    rfl

theorem applyExt_dead (ISSPECIAL : Uchar → Bool) (fresh : Nat → Matrixvalue)
    (lci : Limdfsconstinfo) (depth : Nat) (col : Column) (e : Ext)
    (hd : depth > 1) (hcap : lci.querylength + 1 ≤ lci.maxcollen)
    (he : e.dstWf) (hinv : ChainInv lci col) (hm : col.maxvalue = 0) :
    ∃ r, applyExt ISSPECIAL fresh lci depth col e = some r ∧
      ChainInv lci r ∧ r.maxvalue = 0 := by
  have hdead := ChainInv_dead lci col hinv hm
  obtain ⟨hw, hl, hi0, hb0, _, _⟩ := hinv
  obtain ⟨r, hr, hc⟩ := applyExt_next ISSPECIAL fresh lci depth col e hd hcap he hw hl hi0 hb0
  have hcells := speccell_dead ISSPECIAL lci e.char (col.colvalues.getD [])
    lci.querylength hdead
  have hneg : MINUSINFTY ≤ 0 := by unfold MINUSINFTY; omega
  refine ⟨r, hr, ?_, ?_⟩
  · refine IsChild_ChainInv lci _ r hc ?_ ?_ ?_
    · rw [hcells 0 (Nat.zero_le _)]; exact hneg
    · rw [hcells 0 (Nat.zero_le _)]; exact hneg
    · intro j _ hj
      rw [hcells j hj]; exact Or.inl hneg
  · obtain ⟨_, _, _, ht⟩ := hc
    have h1 : r.maxvalue = (trackmax _ 0 lci.querylength).1 := congrArg Prod.fst ht
    rw [h1, trackmax_dead _ 0 lci.querylength (fun j _ hj => by rw [hcells j hj]; exact hneg)]

theorem extend_dead (ISSPECIAL : Uchar → Bool) (fresh : Nat → Matrixvalue)
    (lci : Limdfsconstinfo) (hcap : lci.querylength + 1 ≤ lci.maxcollen)
    (steps : List Ext) :
    ∀ (depth : Nat) (col : Column), depth > 1 → (∀ e ∈ steps, Ext.dstWf e) →
      ChainInv lci col → col.maxvalue = 0 →
      ∃ r, extend ISSPECIAL fresh lci depth col steps = some r ∧
        ChainInv lci r ∧ r.maxvalue = 0 := by
  induction steps with
  | nil =>
    intro depth col _ _ hinv hm
    exact ⟨col, rfl, hinv, hm⟩
  | cons e t ih =>
    intro depth col hd hw hinv hm
    obtain ⟨r, hr, hri, hrm⟩ := applyExt_dead ISSPECIAL fresh lci depth col e hd hcap
      (hw e (List.mem_cons_self _ _)) hinv hm
    obtain ⟨q, hq, hqi, hqm⟩ := ih (depth + 1) r (by omega)
      (fun e he => hw e (List.mem_cons_of_mem _ he)) hri hrm
    refine ⟨q, ?_, hqi, hqm⟩
    show (applyExt ISSPECIAL fresh lci depth col e).bind _ = some q
    rw [hr]; exact hq

/-! ### The verdict -/

theorem classify_eq (column : Column) (d : Nat) (lci : Limdfsconstinfo) :
    classify column d lci =
      if column.colvalues ≠ none then
        if column.maxvalue ≥ lci.threshold then Limdfsstatus.Limdfssuccess
        else if column.maxvalue > 0 then Limdfsstatus.Limdfscontinue
        else Limdfsstatus.Limdfsstop
      else Limdfsstatus.Limdfscontinue := by
  unfold classify locali_fullmatchLimdfsstate
  split_ifs <;> rfl

theorem classify_success_cases (column : Column) (d : Nat) (lci : Limdfsconstinfo) :
    classify column d lci = Limdfsstatus.Limdfssuccess ↔
      column.colvalues ≠ none ∧ column.maxvalue ≥ lci.threshold := by
  rw [classify_eq]
  split_ifs <;> simp_all
  omega

theorem REPLACEMENTSCORE_eq_substScore (ISSPECIAL : Uchar → Bool) (lci : Limdfsconstinfo)
    (c q : Uchar) :
    REPLACEMENTSCORE ISSPECIAL lci c q = substScore ISSPECIAL lci c q := by
  unfold REPLACEMENTSCORE substScore
  by_cases h : c = q
  · subst h
    cases hs : ISSPECIAL c <;> simp
  · simp [h]

theorem zipWith_branch_dstWf (dsts : List Column) :
    ∀ (cs : List Uchar), (∀ d ∈ dsts, Column.wf d) →
      ∀ e ∈ List.zipWith Ext.branch dsts cs, Ext.dstWf e := by
  induction dsts with
  | nil => intro cs _ e he; simp at he
  | cons d t ih =>
    intro cs hw e he
    cases cs with
    | nil => simp at he
    | cons c cs' =>
      simp only [List.zipWith_cons_cons, List.mem_cons] at he
      rcases he with he | he
      · subst he
        exact hw d (List.mem_cons_self _ _)
      · exact ih cs' (fun d' hd' => hw d' (List.mem_cons_of_mem _ hd')) e he

theorem zipWith_branch_char (dsts : List Column) :
    ∀ (cs : List Uchar), dsts.length = cs.length →
      (List.zipWith Ext.branch dsts cs).map Ext.char = cs := by
  induction dsts with
  | nil =>
    intro cs h
    cases cs with
    | nil => rfl
    | cons c t => simp at h
  | cons d t ih =>
    intro cs h
    cases cs with
    | nil => simp at h
    | cons c cs' =>
      simp only [List.length_cons, Nat.add_right_cancel_iff] at h
      simp only [List.zipWith_cons_cons, List.map_cons, ih cs' h]
      rfl

theorem map_inplace_char (cs : List Uchar) : (cs.map Ext.inplace).map Ext.char = cs := by
  induction cs with
  | nil => rfl
  | cons c t ih => simp only [List.map_cons, ih]; rfl

theorem map_inplace_dstWf (cs : List Uchar) : ∀ e ∈ cs.map Ext.inplace, Ext.dstWf e := by
  intro e he
  simp only [List.mem_map] at he
  obtain ⟨c, _, rfl⟩ := he
  exact True.intro

/-- The general form of one extension. -/
theorem applyExt_spec (ISSPECIAL : Uchar → Bool) (fresh : Nat → Matrixvalue)
    (lci : Limdfsconstinfo) (depth : Nat) (col : Column) (e : Ext)
    (hcap : lci.querylength + 1 ≤ lci.maxcollen)
    (he : e.dstWf) (hwf : col.wf) (hlen : depth > 1 → lci.querylength + 1 ≤ col.lenval) :
    ∃ r f m0, applyExt ISSPECIAL fresh lci depth col e = some r ∧
      IsChild lci f m0 r ∧ (m0 = 0 ∨ m0 = (max2 0 (f 0).bestcell).toNat) := by
  by_cases hd : depth > 1
  · cases e with
    | branch dst ch =>
      obtain ⟨r, h1, h2, _⟩ :=
        nextcolumn_spec ISSPECIAL fresh lci dst ch col he hwf (hlen hd) (Or.inr hcap)
      refine ⟨r, _, _, ?_, h2, Or.inr rfl⟩
      show locali_nextLimdfsstate ISSPECIAL fresh lci dst depth ch col = some r
      unfold locali_nextLimdfsstate
      rw [if_pos hd, h1]
    | inplace ch =>
      obtain ⟨r, h1, h2, _⟩ := inplacenextcolumn_spec ISSPECIAL lci ch col hwf (hlen hd)
      refine ⟨r, _, _, ?_, h2, Or.inr rfl⟩
      show locali_inplacenextLimdfsstate ISSPECIAL fresh lci col depth ch = some r
      unfold locali_inplacenextLimdfsstate
      rw [if_pos hd, h1]
  · obtain ⟨r, h1, h2⟩ := applyExt_first ISSPECIAL fresh lci depth col e hd hcap he hwf
    exact ⟨r, _, 0, h1, h2, Or.inl rfl⟩

theorem IsChild_colvalues (lci : Limdfsconstinfo) (f : Nat → Matrixvalue) (m0 : Nat)
    (r : Column) (h : IsChild lci f m0 r) : r.colvalues ≠ none := by
  obtain ⟨hw, hl, _, _⟩ := h
  intro hn
  unfold Column.wf at hw
  rw [hn] at hw
  simp only [] at hw
  omega

/-! ## Branching and in-place extension from the root -/

/-- C1 fails as stated: the scores 2, -1, `LONG_MIN`, -1 are valid, and the sum
`gapstart + gapextend` of line 130 leaves `LONG_MAX` in the `long` of cell 0.
With the query `[0]` and the characters `1`, `1`, the chain of
`locali_nextLimdfsstate` calls and the chain of `locali_inplacenextLimdfsstate`
calls both return a column at depth 2, and the two columns differ in cell 1:
the substitution score is the sentinel in the first and `LONG_MAX - 2` in the
second. -/
theorem branching_inplace_equivalence_counterexample :
    wrapParams.scorevalues.valid ∧
    extend noSpecial zeroFresh wrapParams 1 (rootstate zeroFresh wrapParams rawColumn)
        ((List.zipWith Ext.branch [rawColumn, rawColumn] [1, 1]).take 2) =
      some (mkColumn [(-1, 9223372036854775806, -1, 9223372036854775806),
        (-1, -1, -3, -1)] 0 9223372036854775806) ∧
    extend noSpecial zeroFresh wrapParams 1 (rootstate zeroFresh wrapParams rawColumn)
        (([1, 1].map Ext.inplace).take 2) =
      some (mkColumn [(-1, 9223372036854775806, -1, 9223372036854775806),
        (9223372036854775805, -1, -3, 9223372036854775805)] 0 9223372036854775806) ∧
    ¬ sameActive wrapParams
      (mkColumn [(-1, 9223372036854775806, -1, 9223372036854775806),
        (-1, -1, -3, -1)] 0 9223372036854775806)
      (mkColumn [(-1, 9223372036854775806, -1, 9223372036854775806),
        (9223372036854775805, -1, -3, 9223372036854775805)] 0 9223372036854775806) :=
  ⟨by decide, by decide, by decide, fun h => absurd (h.1 1 (by decide)) (by decide)⟩

/-- C1, amended: under valid score values whose gap costs add up within a
`long` (`LONG_MIN ≤ gapstart + gapextend`), for every query, every character
sequence `cs` and every `k ≤ cs.length`, the chain of `locali_nextLimdfsstate`
calls at the depths `1..k` (into arbitrary consistent destination states) and
the chain of `locali_inplacenextLimdfsstate` calls at the depths `1..k` both
return a column, and the two columns have the same cells `0..querylength`, the
same `maxvalue` and the same `pprefixlen`. -/
theorem branching_inplace_equivalence (ISSPECIAL : Uchar → Bool)
    (fresh : Nat → Matrixvalue) (lci : Limdfsconstinfo) (raw : Column)
    (hv : lci.scorevalues.valid)
    (hf : lci.scorevalues.gapfits) (hcap : lci.querylength + 1 ≤ lci.maxcollen)
    (cs : List Uchar) (dsts : List Column) (hlen : dsts.length = cs.length)
    (hwf : ∀ d ∈ dsts, Column.wf d) (k : Nat) (hk : k ≤ cs.length) :
    ∃ a b,
      extend ISSPECIAL fresh lci 1 (rootstate fresh lci raw)
        ((List.zipWith Ext.branch dsts cs).take k) = some a ∧
      extend ISSPECIAL fresh lci 1 (rootstate fresh lci raw)
        ((cs.map Ext.inplace).take k) = some b ∧
      sameActive lci a b := by
  have _ := hk
  obtain ⟨a, b, ha, hb, hs⟩ := extend_StartOk ISSPECIAL fresh lci hv hf hcap
    ((List.zipWith Ext.branch dsts cs).take k) ((cs.map Ext.inplace).take k) 1
    (rootstate fresh lci raw) (rootstate fresh lci raw)
    (fun e he => zipWith_branch_dstWf dsts cs hwf e (List.mem_of_mem_take he))
    (fun e he => map_inplace_dstWf cs e (List.mem_of_mem_take he))
    (by rw [List.map_take, List.map_take, zipWith_branch_char dsts cs hlen,
          map_inplace_char])
    ⟨sameActive_refl lci _, rootstate_wf fresh lci raw, rootstate_wf fresh lci raw,
      fun h => absurd h (by omega)⟩
  exact ⟨a, b, ha, hb, hs.1⟩

/-- Witness of C1: the scenario parameters and the characters `[0, 1, 2]`,
both chains to depth 2. -/
theorem branching_inplace_equivalence_witness :
    scenarioParams.scorevalues.valid ∧ scenarioParams.scorevalues.gapfits ∧
    scenarioParams.querylength + 1 ≤ scenarioParams.maxcollen ∧
    ∃ a b,
      extend noSpecial zeroFresh scenarioParams 1
        (rootstate zeroFresh scenarioParams rawColumn)
        ((List.zipWith Ext.branch [rawColumn, rawColumn, rawColumn] [0, 1, 2]).take 2) =
          some a ∧
      extend noSpecial zeroFresh scenarioParams 1
        (rootstate zeroFresh scenarioParams rawColumn)
        (([0, 1, 2].map Ext.inplace).take 2) = some b ∧
      sameActive scenarioParams a b :=
  ⟨by decide, by decide, by decide,
    branching_inplace_equivalence noSpecial zeroFresh scenarioParams rawColumn
      (by decide) (by decide) (by decide) [0, 1, 2] [rawColumn, rawColumn, rawColumn] rfl
      (by decide) 2 (by decide)⟩

/-! ## Pruning -/

/-- C2 fails as stated: with the valid scores 2, -1, `LONG_MIN`, -1 and the
query `[0]`, the column at depth 1 after the character `1` has `maxvalue = 0`
and the verdict `Limdfsstop`, but its cell 0 holds the insertion score
`LONG_MAX`, the `long` that the sum `gapstart + gapextend` of line 130 leaves.
One more extension returns a column whose cell 0 has the best score
`LONG_MAX - 1` and whose `maxvalue` is `LONG_MAX - 1`; the verdict on it is
`Limdfssuccess`. -/
theorem pruning_sound_counterexample :
    wrapParams.scorevalues.valid ∧
    extend noSpecial zeroFresh wrapParams 1 (rootstate zeroFresh wrapParams rawColumn)
        [Ext.branch rawColumn 1] =
      some (mkColumn [(-1, 9223372036854775807, -1, -1), (-1, -1, -1, -1)] 0 0) ∧
    classify (mkColumn [(-1, 9223372036854775807, -1, -1), (-1, -1, -1, -1)] 0 0) 1
        wrapParams = Limdfsstatus.Limdfsstop ∧
    extend noSpecial zeroFresh wrapParams 2
        (mkColumn [(-1, 9223372036854775807, -1, -1), (-1, -1, -1, -1)] 0 0)
        [Ext.branch rawColumn 1] =
      some (mkColumn [(-1, 9223372036854775806, -1, 9223372036854775806),
        (-1, -1, -3, -1)] 0 9223372036854775806) ∧
    ¬ ((mkColumn [(-1, 9223372036854775806, -1, 9223372036854775806),
        (-1, -1, -3, -1)] 0 9223372036854775806).cell 0).bestcell ≤ 0 ∧
    (mkColumn [(-1, 9223372036854775806, -1, 9223372036854775806),
        (-1, -1, -3, -1)] 0 9223372036854775806).maxvalue ≠ 0 ∧
    classify (mkColumn [(-1, 9223372036854775806, -1, 9223372036854775806),
        (-1, -1, -3, -1)] 0 9223372036854775806) 2 wrapParams =
      Limdfsstatus.Limdfssuccess := by
  decide

/-- C2, amended: under valid score values whose gap costs add up within a
`long` (`LONG_MIN ≤ gapstart + gapextend`), if `locali_fullmatchLimdfsstate`
answers `Limdfsstop` on a column reached from the root by a non-empty sequence
of extensions, then every further sequence of extensions at the following
depths returns a column in which the best score of every cell `0..querylength`
is at most 0 and `maxvalue` is 0. -/
theorem pruning_sound (ISSPECIAL : Uchar → Bool) (fresh : Nat → Matrixvalue)
    (lci : Limdfsconstinfo) (raw : Column) (steps further : List Ext) (col : Column)
    (hv : lci.scorevalues.valid)
    (hf : lci.scorevalues.gapfits) (hcap : lci.querylength + 1 ≤ lci.maxcollen)
    (hne : steps ≠ []) (hw1 : ∀ e ∈ steps, Ext.dstWf e)
    (hw2 : ∀ e ∈ further, Ext.dstWf e)
    (hreach : extend ISSPECIAL fresh lci 1 (rootstate fresh lci raw) steps = some col)
    (hprune : classify col steps.length lci = Limdfsstatus.Limdfsstop) :
    ∃ col', extend ISSPECIAL fresh lci (steps.length + 1) col further = some col' ∧
      (∀ i, i ≤ lci.querylength → (col'.cell i).bestcell ≤ 0) ∧
      col'.maxvalue = 0 := by
  obtain ⟨a, b, ha, _, hs⟩ := extend_StartOk ISSPECIAL fresh lci hv hf hcap steps steps 1
    (rootstate fresh lci raw) (rootstate fresh lci raw) hw1 hw1 rfl
    ⟨sameActive_refl lci _, rootstate_wf fresh lci raw, rootstate_wf fresh lci raw,
      fun h => absurd h (by omega)⟩
  rw [hreach] at ha
  cases ha
  have hpos : 0 < steps.length := List.length_pos.mpr hne
  have hinv : ChainInv lci col := (hs.2.2.2 (by omega)).1
  have hm : col.maxvalue = 0 := by
    rw [classify_eq] at hprune
    split_ifs at hprune
    omega
  obtain ⟨r, hr, hri, hrm⟩ := extend_dead ISSPECIAL fresh lci hcap further
    (steps.length + 1) col (by omega) hw2 hinv hm
  exact ⟨r, hr, fun i hi => (ChainInv_dead lci r hri hrm i hi).2, hrm⟩

/-- Witness of C2: query `[0]`; the first character `1` does not match, the
column is pruned at depth 1 and then extended by two more characters. -/
theorem pruning_sound_witness :
    extend noSpecial zeroFresh smallParams 1 (rootstate zeroFresh smallParams rawColumn)
      [Ext.inplace 1] =
        some ⟨some [⟨-1, -4, -1, -1⟩, ⟨-1, -1, -1, -1⟩], 2, 0, 0⟩ ∧
    classify ⟨some [⟨-1, -4, -1, -1⟩, ⟨-1, -1, -1, -1⟩], 2, 0, 0⟩ 1 smallParams =
      Limdfsstatus.Limdfsstop ∧
    ∃ col',
      extend noSpecial zeroFresh smallParams 2
        ⟨some [⟨-1, -4, -1, -1⟩, ⟨-1, -1, -1, -1⟩], 2, 0, 0⟩
        [Ext.inplace 0, Ext.branch rawColumn 0] = some col' ∧
      (∀ i, i ≤ 1 → (col'.cell i).bestcell ≤ 0) ∧ col'.maxvalue = 0 :=
  ⟨by decide, by decide,
    pruning_sound noSpecial zeroFresh smallParams rawColumn [Ext.inplace 1]
      [Ext.inplace 0, Ext.branch rawColumn 0]
      ⟨some [⟨-1, -4, -1, -1⟩, ⟨-1, -1, -1, -1⟩], 2, 0, 0⟩
      (by decide) (by decide) (by decide) (by decide) (by decide) (by decide)
      (by decide) (by decide)⟩

/-! ## The verdict of `locali_fullmatchLimdfsstate` -/

/-- C3 fails as stated: on a state without buffer, as
`locali_initLimdfsstackelem` leaves it, `maxvalue ≥ threshold` holds for the
threshold 0 and the verdict is `Limdfscontinue`, not `Limdfssuccess`. -/
theorem success_iff_counterexample :
    (locali_initLimdfsstackelem rawColumn).maxvalue ≥
        ({ scenarioParams with threshold := 0 } : Limdfsconstinfo).threshold ∧
      classify (locali_initLimdfsstackelem rawColumn) 1
        { scenarioParams with threshold := 0 } = Limdfsstatus.Limdfscontinue := by
  decide

/-- C3, amended: the verdict is `Limdfssuccess` if and only if the state has a
buffer and `maxvalue ≥ threshold`. -/
theorem success_iff (column : Column) (currentdepth : Nat) (lci : Limdfsconstinfo) :
    classify column currentdepth lci = Limdfsstatus.Limdfssuccess ↔
      column.colvalues ≠ none ∧ column.maxvalue ≥ lci.threshold :=
  classify_success_cases column currentdepth lci

/-- C4 fails as stated: with the threshold 0, a state with a buffer and
`maxvalue = 0` gets `Limdfssuccess`, not `Limdfsstop`. -/
theorem prune_counterexample :
    (⟨some [⟨-1, -4, -1, -1⟩, ⟨-1, -1, -1, -1⟩], 2, 0, 0⟩ : Column).colvalues ≠ none ∧
      (⟨some [⟨-1, -4, -1, -1⟩, ⟨-1, -1, -1, -1⟩], 2, 0, 0⟩ : Column).maxvalue = 0 ∧
      classify ⟨some [⟨-1, -4, -1, -1⟩, ⟨-1, -1, -1, -1⟩], 2, 0, 0⟩ 1
        { smallParams with threshold := 0 } = Limdfsstatus.Limdfssuccess := by
  decide

/-- C4, amended: for every positive threshold, a state that has a buffer and
`maxvalue = 0` gets `Limdfsstop`. -/
theorem prune_of_maxvalue_zero (column : Column) (currentdepth : Nat)
    (lci : Limdfsconstinfo) (hbuf : column.colvalues ≠ none)
    (hmax : column.maxvalue = 0) (hthr : 0 < lci.threshold) :
    classify column currentdepth lci = Limdfsstatus.Limdfsstop := by
  rw [classify_eq, if_pos hbuf, if_neg (by omega), if_neg (by omega)]

/-- Witness of C4 (amended): the pruned depth-1 column of the query `[0]`
under the threshold 4. -/
theorem prune_of_maxvalue_zero_witness :
    0 < smallParams.threshold ∧
      classify ⟨some [⟨-1, -4, -1, -1⟩, ⟨-1, -1, -1, -1⟩], 2, 0, 0⟩ 1 smallParams =
        Limdfsstatus.Limdfsstop :=
  ⟨by decide,
    prune_of_maxvalue_zero ⟨some [⟨-1, -4, -1, -1⟩, ⟨-1, -1, -1, -1⟩], 2, 0, 0⟩ 1
      smallParams (by decide) (by decide) (by decide)⟩

/-- C5 fails as stated: the verdict on a state fresh from
`locali_initLimdfsstackelem` is `Limdfscontinue`, which is not `Limdfsstop`. -/
theorem nobuffer_counterexample :
    (locali_initLimdfsstackelem rawColumn).colvalues = none ∧
      classify (locali_initLimdfsstackelem rawColumn) 1 scenarioParams ≠
        Limdfsstatus.Limdfsstop := by
  decide

/-- C5, amended: the verdict on a state without buffer is `Limdfscontinue`;
this holds for every state left by `locali_initLimdfsstackelem` or by
`locali_freeLimdfsstackelem` and for every state whose `colvalues` is `NULL`. -/
theorem nobuffer_continue (column : Column) (currentdepth : Nat)
    (lci : Limdfsconstinfo) :
    classify (locali_initLimdfsstackelem column) currentdepth lci =
        Limdfsstatus.Limdfscontinue ∧
      classify (locali_freeLimdfsstackelem column) currentdepth lci =
        Limdfsstatus.Limdfscontinue ∧
      classify { column with colvalues := none } currentdepth lci =
        Limdfsstatus.Limdfscontinue := by
  refine ⟨?_, ?_, ?_⟩
  · rw [classify_eq]
    exact if_neg (fun h => h rfl)
  · rw [classify_eq]
    unfold locali_freeLimdfsstackelem
    by_cases h : column.colvalues ≠ none
    · rw [if_pos h]
      exact if_neg (fun h => h rfl)
    · rw [if_neg h]
      exact if_neg h
  · rw [classify_eq]
    exact if_neg (fun h => h rfl)

/-- C6: a state with `0 < maxvalue < threshold` gets `Limdfscontinue`; and
every extension of a consistent state returns a column on which the verdict
`Limdfscontinue` implies that some cell `i ≤ querylength` has a positive best
score. -/
theorem continue_verdict :
    (∀ (column : Column) (currentdepth : Nat) (lci : Limdfsconstinfo),
      0 < column.maxvalue → column.maxvalue < lci.threshold →
      classify column currentdepth lci = Limdfsstatus.Limdfscontinue) ∧
    (∀ (ISSPECIAL : Uchar → Bool) (fresh : Nat → Matrixvalue) (lci : Limdfsconstinfo)
      (depth : Nat) (col : Column) (e : Ext),
      lci.querylength + 1 ≤ lci.maxcollen → e.dstWf → col.wf →
      (depth > 1 → lci.querylength + 1 ≤ col.lenval) →
      ∃ r, applyExt ISSPECIAL fresh lci depth col e = some r ∧
        (classify r depth lci = Limdfsstatus.Limdfscontinue →
          ∃ i, i ≤ lci.querylength ∧ 0 < (r.cell i).bestcell)) := by
  constructor
  · intro column d lci h1 h2
    rw [classify_eq]
    split_ifs with h3 h4 <;> first | rfl | omega
  · intro ISSPECIAL fresh lci depth col e hcap he hwf hlen
    obtain ⟨r, f, m0, hr, hc, hm0⟩ :=
      applyExt_spec ISSPECIAL fresh lci depth col e hcap he hwf hlen
    refine ⟨r, hr, ?_⟩
    intro hcont
    have hbuf := IsChild_colvalues lci f m0 r hc
    have hpos : 0 < r.maxvalue := by
      rw [classify_eq, if_pos hbuf] at hcont
      split_ifs at hcont with h1 h2
      exact h2
    obtain ⟨_, _, hcells, ht⟩ := hc
    have h1 : r.maxvalue = (trackmax f m0 lci.querylength).1 := congrArg Prod.fst ht
    obtain ⟨hle, hbest⟩ := trackmax_pos f m0 lci.querylength hm0 (by omega)
    refine ⟨(trackmax f m0 lci.querylength).2, hle, ?_⟩
    rw [hcells _ hle, hbest]
    omega

/-- Witness of C6: the state `maxvalue = 2` under the threshold 4, and the
first extension of the root by the matching character `0`. -/
theorem continue_verdict_witness :
    classify ⟨some [⟨-1, -4, -1, -1⟩, ⟨2, -1, -1, 2⟩], 2, 1, 2⟩ 1 smallParams =
        Limdfsstatus.Limdfscontinue ∧
    ∃ r, applyExt noSpecial zeroFresh smallParams 1
        (rootstate zeroFresh smallParams rawColumn) (Ext.inplace 0) = some r ∧
      (classify r 1 smallParams = Limdfsstatus.Limdfscontinue →
        ∃ i, i ≤ smallParams.querylength ∧ 0 < (r.cell i).bestcell) :=
  ⟨continue_verdict.1 ⟨some [⟨-1, -4, -1, -1⟩, ⟨2, -1, -1, 2⟩], 2, 1, 2⟩ 1 smallParams
      (by decide) (by decide),
    continue_verdict.2 noSpecial zeroFresh smallParams 1
      (rootstate zeroFresh smallParams rawColumn) (Ext.inplace 0)
      (by decide) (by decide) (by decide) (by decide)⟩

/-- C7: `locali_fullmatchLimdfsstate` returns the column as it received it,
and when the status it writes is `Limdfssuccess`, the `distance` it writes is
the column's `maxvalue` and the `pprefixlen` it writes is the column's
`pprefixlen`. -/
theorem success_reports (limdfsresult : Limdfsresult) (column : Column)
    (leftbound rightbound width currentdepth : Nat) (lci : Limdfsconstinfo) :
    (locali_fullmatchLimdfsstate limdfsresult column leftbound rightbound width
        currentdepth lci).1 = column ∧
      ((locali_fullmatchLimdfsstate limdfsresult column leftbound rightbound width
          currentdepth lci).2.status = Limdfsstatus.Limdfssuccess →
        (locali_fullmatchLimdfsstate limdfsresult column leftbound rightbound width
            currentdepth lci).2.distance = column.maxvalue ∧
        (locali_fullmatchLimdfsstate limdfsresult column leftbound rightbound width
            currentdepth lci).2.pprefixlen = column.pprefixlen) := by
  unfold locali_fullmatchLimdfsstate
  split_ifs <;> simp

/-- Witness of C7: a column with `maxvalue = 4` and `pprefixlen = 1` under the
threshold 4; the result record handed in held other values. -/
theorem success_reports_witness :
    (locali_fullmatchLimdfsstate ⟨Limdfsstatus.Limdfsstop, 9, 9⟩
        ⟨some [⟨-1, -1, -1, -1⟩, ⟨4, -1, -1, 4⟩], 2, 1, 4⟩ 0 0 0 2 smallParams).2.status =
          Limdfsstatus.Limdfssuccess ∧
      (locali_fullmatchLimdfsstate ⟨Limdfsstatus.Limdfsstop, 9, 9⟩
        ⟨some [⟨-1, -1, -1, -1⟩, ⟨4, -1, -1, 4⟩], 2, 1, 4⟩ 0 0 0 2 smallParams).2.distance =
          4 ∧
      (locali_fullmatchLimdfsstate ⟨Limdfsstatus.Limdfsstop, 9, 9⟩
        ⟨some [⟨-1, -1, -1, -1⟩, ⟨4, -1, -1, 4⟩], 2, 1, 4⟩ 0 0 0 2
          smallParams).2.pprefixlen = 1 :=
  ⟨by decide,
    (success_reports ⟨Limdfsstatus.Limdfsstop, 9, 9⟩
      ⟨some [⟨-1, -1, -1, -1⟩, ⟨4, -1, -1, 4⟩], 2, 1, 4⟩ 0 0 0 2 smallParams).2
      (by decide)⟩

/-- C8: if the verdict on a state is `Limdfssuccess`, then the verdict on the
same state with the threshold replaced by `maxvalue + 1` is `Limdfscontinue`
or `Limdfsstop`, and not `Limdfssuccess`. -/
theorem threshold_flip (column : Column) (currentdepth : Nat) (lci : Limdfsconstinfo)
    (h : classify column currentdepth lci = Limdfsstatus.Limdfssuccess) :
    (classify column currentdepth { lci with threshold := column.maxvalue + 1 } =
        Limdfsstatus.Limdfscontinue ∨
      classify column currentdepth { lci with threshold := column.maxvalue + 1 } =
        Limdfsstatus.Limdfsstop) ∧
    classify column currentdepth { lci with threshold := column.maxvalue + 1 } ≠
      Limdfsstatus.Limdfssuccess := by
  have hbuf : column.colvalues ≠ none := ((classify_success_cases column currentdepth lci).1 h).1
  rw [classify_eq, if_pos hbuf, if_neg (by simp)]
  split_ifs <;> simp

/-- Witness of C8: a column with `maxvalue = 4` under the threshold 4. -/
theorem threshold_flip_witness :
    classify ⟨some [⟨-1, -1, -1, -1⟩, ⟨4, -1, -1, 4⟩], 2, 1, 4⟩ 2 smallParams =
        Limdfsstatus.Limdfssuccess ∧
      classify ⟨some [⟨-1, -1, -1, -1⟩, ⟨4, -1, -1, 4⟩], 2, 1, 4⟩ 2
        { smallParams with threshold := 5 } = Limdfsstatus.Limdfscontinue :=
  ⟨by decide,
    ((threshold_flip ⟨some [⟨-1, -1, -1, -1⟩, ⟨4, -1, -1, 4⟩], 2, 1, 4⟩ 2 smallParams
      (by decide)).1).resolve_right (by decide)⟩

/-! ## One step: in place against branching -/

/-- C9, the code at the failing input: the valid scores 2, -1, `LONG_MIN`, -1
and the query `[0]`.  The first extension from the root, by the character `1`,
returns the column whose cell 0 holds the insertion score `LONG_MAX`, the
`long` that the sum `gapstart + gapextend` of line 130 leaves.  On this column
at depth 2 with the character `1`, both functions write the best score
`LONG_MAX - 1` into cell 0.  `locali_nextLimdfsstate`, with the column as
parent, takes the best score of the parent's cell 0, which is the sentinel, and
writes the sentinel as substitution score of cell 1;
`locali_inplacenextLimdfsstate` takes `nw` at line 312, after cell 0 has been
overwritten, and writes the substitution score `LONG_MAX - 2` into cell 1. -/
theorem inplace_differs_at_alive_cell0 :
    wrapParams.scorevalues.valid ∧
    extend noSpecial zeroFresh wrapParams 1 (rootstate zeroFresh wrapParams rawColumn)
        [Ext.inplace 1] =
      some (mkColumn [(-1, 9223372036854775807, -1, -1), (-1, -1, -1, -1)] 0 0) ∧
    locali_nextLimdfsstate noSpecial zeroFresh wrapParams rawColumn 2 1
        (mkColumn [(-1, 9223372036854775807, -1, -1), (-1, -1, -1, -1)] 0 0) =
      some (mkColumn [(-1, 9223372036854775806, -1, 9223372036854775806),
        (-1, -1, -3, -1)] 0 9223372036854775806) ∧
    locali_inplacenextLimdfsstate noSpecial zeroFresh wrapParams
        (mkColumn [(-1, 9223372036854775807, -1, -1), (-1, -1, -1, -1)] 0 0) 2 1 =
      some (mkColumn [(-1, 9223372036854775806, -1, 9223372036854775806),
        (9223372036854775805, -1, -3, 9223372036854775805)] 0 9223372036854775806) ∧
    ((mkColumn [(-1, 9223372036854775806, -1, 9223372036854775806),
        (-1, -1, -3, -1)] 0 9223372036854775806).cell 1) ≠
      ((mkColumn [(-1, 9223372036854775806, -1, 9223372036854775806),
        (9223372036854775805, -1, -3, 9223372036854775805)] 0
          9223372036854775806).cell 1) := by
  decide

/-! ## The substitution step -/

/-- The step of the chain with two allocators: at depth 1 nothing is asked of
the stored scores of the two states. -/
theorem applyExt_agree (ISSPECIAL : Uchar → Bool) (fresh1 fresh2 : Nat → Matrixvalue)
    (lci : Limdfsconstinfo) (depth : Nat) (a b : Column) (e1 e2 : Ext)
    (hv : lci.scorevalues.valid)
    (hf : lci.scorevalues.gapfits) (hcap : lci.querylength + 1 ≤ lci.maxcollen)
    (h1 : e1.dstWf) (h2 : e2.dstWf) (hch : e1.char = e2.char)
    (hwa : a.wf) (hwb : b.wf)
    (hdeep : depth > 1 → ChainInv lci a ∧ ChainInv lci b ∧ sameActive lci a b) :
    ∃ r1 r2, applyExt ISSPECIAL fresh1 lci depth a e1 = some r1 ∧
      applyExt ISSPECIAL fresh2 lci depth b e2 = some r2 ∧
      ChainInv lci r1 ∧ ChainInv lci r2 ∧ sameActive lci r1 r2 := by
  by_cases hd : depth > 1
  · obtain ⟨⟨_, hla, hia, hba, _, _⟩, ⟨_, hlb, hib, hbb, _, _⟩, hsame⟩ := hdeep hd
    obtain ⟨r1, hr1, hc1⟩ :=
      applyExt_next ISSPECIAL fresh1 lci depth a e1 hd hcap h1 hwa hla hia hba
    obtain ⟨r2, hr2, hc2⟩ :=
      applyExt_next ISSPECIAL fresh2 lci depth b e2 hd hcap h2 hwb hlb hib hbb
    have hdead : ∀ (P : List Matrixvalue) (c : Uchar),
        (cellAt P 0).inscell ≤ 0 → (cellAt P 0).bestcell ≤ 0 →
        (speccell ISSPECIAL lci c P MINUSINFTY 0).inscell ≤ 0 ∧
        (speccell ISSPECIAL lci c P MINUSINFTY 0).bestcell ≤ 0 := by
      intro P c hi hb
      have : speccell ISSPECIAL lci c P MINUSINFTY 0 = firstcell lci (cellAt P 0) := rfl
      rw [this, firstcell_dead lci _ hi hb]
      exact ⟨by show MINUSINFTY ≤ 0; unfold MINUSINFTY; omega,
        by show MINUSINFTY ≤ 0; unfold MINUSINFTY; omega⟩
    refine ⟨r1, r2, hr1, hr2, ?_, ?_, ?_⟩
    · exact IsChild_ChainInv lci _ r1 hc1 (hdead _ _ hia hba).1 (hdead _ _ hia hba).2
        (fun j hj _ => Or.inr (speccell_ins_le_best ISSPECIAL lci _ _ _ j hj))
    · exact IsChild_ChainInv lci _ r2 hc2 (hdead _ _ hib hbb).1 (hdead _ _ hib hbb).2
        (fun j hj _ => Or.inr (speccell_ins_le_best ISSPECIAL lci _ _ _ j hj))
    · refine IsChild_sameActive lci _ _ 0 r1 r2 hc1 hc2 ?_
      intro j hj
      rw [hch]
      exact speccell_congr ISSPECIAL lci e2.char _ _ MINUSINFTY lci.querylength
        hsame.1 j hj
  · obtain ⟨r1, hr1, hc1⟩ := applyExt_first ISSPECIAL fresh1 lci depth a e1 hd hcap h1 hwa
    obtain ⟨r2, hr2, hc2⟩ := applyExt_first ISSPECIAL fresh2 lci depth b e2 hd hcap h2 hwb
    refine ⟨r1, r2, hr1, hr2, ?_, ?_, ?_⟩
    · obtain ⟨hi0, hb0, hins⟩ := secondcell_inv ISSPECIAL lci e1.char hv hf
      exact IsChild_ChainInv lci _ r1 hc1 hi0 hb0 (fun j hj _ => Or.inl (hins j hj))
    · obtain ⟨hi0, hb0, hins⟩ := secondcell_inv ISSPECIAL lci e2.char hv hf
      exact IsChild_ChainInv lci _ r2 hc2 hi0 hb0 (fun j hj _ => Or.inl (hins j hj))
    · refine IsChild_sameActive lci _ _ 0 r1 r2 hc1 hc2 ?_
      intro j _
      rw [hch]

/-- Two non-empty runs over the same characters agree on the active part of
their last column, whatever the allocators return and whatever the two start
states held, when the first step is at depth 1. -/
theorem extend_agree (ISSPECIAL : Uchar → Bool) (fresh1 fresh2 : Nat → Matrixvalue)
    (lci : Limdfsconstinfo) (hv : lci.scorevalues.valid)
    (hf : lci.scorevalues.gapfits)
    (hcap : lci.querylength + 1 ≤ lci.maxcollen) (s1 : List Ext) :
    ∀ (s2 : List Ext) (depth : Nat) (a b : Column),
      s1 ≠ [] → (∀ e ∈ s1, Ext.dstWf e) → (∀ e ∈ s2, Ext.dstWf e) →
      s1.map Ext.char = s2.map Ext.char → a.wf → b.wf →
      (depth > 1 → ChainInv lci a ∧ ChainInv lci b ∧ sameActive lci a b) →
      ∃ r1 r2, extend ISSPECIAL fresh1 lci depth a s1 = some r1 ∧
        extend ISSPECIAL fresh2 lci depth b s2 = some r2 ∧
        ChainInv lci r1 ∧ ChainInv lci r2 ∧ sameActive lci r1 r2 := by
  induction s1 with
  | nil => intro s2 depth a b hne; exact absurd rfl hne
  | cons e1 t1 ih =>
    intro s2 depth a b _ hw1 hw2 hmap hwa hwb hdeep
    cases s2 with
    | nil => simp at hmap
    | cons e2 t2 =>
      simp only [List.map_cons, List.cons.injEq] at hmap
      obtain ⟨q1, q2, hq1, hq2, hi1, hi2, hsame⟩ :=
        applyExt_agree ISSPECIAL fresh1 fresh2 lci depth a b e1 e2 hv hf hcap
          (hw1 e1 (List.mem_cons_self _ _)) (hw2 e2 (List.mem_cons_self _ _)) hmap.1
          hwa hwb hdeep
      have hx1 : extend ISSPECIAL fresh1 lci depth a (e1 :: t1) =
          extend ISSPECIAL fresh1 lci (depth + 1) q1 t1 := by
        show (applyExt ISSPECIAL fresh1 lci depth a e1).bind _ = _
        rw [hq1]; rfl
      have hx2 : extend ISSPECIAL fresh2 lci depth b (e2 :: t2) =
          extend ISSPECIAL fresh2 lci (depth + 1) q2 t2 := by
        show (applyExt ISSPECIAL fresh2 lci depth b e2).bind _ = _
        rw [hq2]; rfl
      rw [hx1, hx2]
      cases t1 with
      | nil =>
        cases t2 with
        | nil => exact ⟨q1, q2, rfl, rfl, hi1, hi2, hsame⟩
        | cons e3 t3 => simp at hmap
      | cons e3 t3 =>
        exact ih t2 (depth + 1) q1 q2 (List.cons_ne_nil _ _)
          (fun e he => hw1 e (List.mem_cons_of_mem _ he))
          (fun e he => hw2 e (List.mem_cons_of_mem _ he)) hmap.2 hi1.1 hi2.1
          (fun _ => ⟨hi1, hi2, hsame⟩)

/-! ### The special symbols matter only at the characters fed -/

theorem REPLACEMENTSCORE_congr (I1 I2 : Uchar → Bool) (lci : Limdfsconstinfo)
    (A B : Uchar) (h : I1 A = I2 A) :
    REPLACEMENTSCORE I1 lci A B = REPLACEMENTSCORE I2 lci A B := by
  unfold REPLACEMENTSCORE
  rw [h]

theorem applyExt_congr (I1 I2 : Uchar → Bool) (fresh : Nat → Matrixvalue)
    (lci : Limdfsconstinfo) (depth : Nat) (col : Column) (e : Ext)
    (h : I1 e.char = I2 e.char) :
    applyExt I1 fresh lci depth col e = applyExt I2 fresh lci depth col e := by
  have hsec : ∀ c, I1 c = I2 c →
      secondcolumnBody I1 lci c = secondcolumnBody I2 lci c := by
    intro c hc
    funext i s
    unfold secondcolumnBody
    rw [REPLACEMENTSCORE_congr I1 I2 lci c _ hc]
  have hnext : ∀ c P, I1 c = I2 c →
      nextcolumnBody I1 lci c P = nextcolumnBody I2 lci c P := by
    intro c P hc
    funext i s
    unfold nextcolumnBody
    rw [REPLACEMENTSCORE_congr I1 I2 lci c _ hc]
  have hinp : ∀ c, I1 c = I2 c →
      inplacenextcolumnBody I1 lci c = inplacenextcolumnBody I2 lci c := by
    intro c hc
    funext i s
    unfold inplacenextcolumnBody
    rw [REPLACEMENTSCORE_congr I1 I2 lci c _ hc]
  cases e with
  | branch dst ch =>
    show locali_nextLimdfsstate I1 fresh lci dst depth ch col =
      locali_nextLimdfsstate I2 fresh lci dst depth ch col
    unfold locali_nextLimdfsstate nextcolumn secondcolumn
    rw [hsec ch h]
    simp only [hnext ch _ h]
  | inplace ch =>
    show locali_inplacenextLimdfsstate I1 fresh lci col depth ch =
      locali_inplacenextLimdfsstate I2 fresh lci col depth ch
    unfold locali_inplacenextLimdfsstate inplacenextcolumn secondcolumn
    rw [hsec ch h, hinp ch h]

theorem extend_congr (I1 I2 : Uchar → Bool) (fresh : Nat → Matrixvalue)
    (lci : Limdfsconstinfo) (steps : List Ext) :
    ∀ (depth : Nat) (col : Column), (∀ e ∈ steps, I1 (Ext.char e) = I2 (Ext.char e)) →
      extend I1 fresh lci depth col steps = extend I2 fresh lci depth col steps := by
  induction steps with
  | nil => intro depth col _; rfl
  | cons e t ih =>
    intro depth col h
    show (applyExt I1 fresh lci depth col e).bind _ =
      (applyExt I2 fresh lci depth col e).bind _
    rw [applyExt_congr I1 I2 fresh lci depth col e (h e (List.mem_cons_self _ _))]
    congr 1
    funext c
    exact ih (depth + 1) c (fun e he => h e (List.mem_cons_of_mem _ he))

theorem extend_append (ISSPECIAL : Uchar → Bool) (fresh : Nat → Matrixvalue)
    (lci : Limdfsconstinfo) (s1 s2 : List Ext) :
    ∀ (depth : Nat) (col : Column),
      extend ISSPECIAL fresh lci depth col (s1 ++ s2) =
        (extend ISSPECIAL fresh lci depth col s1).bind
          (fun c => extend ISSPECIAL fresh lci (depth + s1.length) c s2) := by
  induction s1 with
  | nil => intro depth col; rfl
  | cons e t ih =>
    intro depth col
    show (applyExt ISSPECIAL fresh lci depth col e).bind _ = _
    cases h : applyExt ISSPECIAL fresh lci depth col e with
    | none =>
      show none = (extend ISSPECIAL fresh lci depth col (e :: t)).bind _
      have : extend ISSPECIAL fresh lci depth col (e :: t) = none := by
        show (applyExt ISSPECIAL fresh lci depth col e).bind _ = none
        rw [h]; rfl
      rw [this]; rfl
    | some q =>
      have : extend ISSPECIAL fresh lci depth col (e :: t) =
          extend ISSPECIAL fresh lci (depth + 1) q t := by
        show (applyExt ISSPECIAL fresh lci depth col e).bind _ = _
        rw [h]; rfl
      rw [this]
      show extend ISSPECIAL fresh lci (depth + 1) q (t ++ s2) = _
      rw [ih (depth + 1) q]
      have hl : depth + 1 + t.length = depth + (e :: t).length := by
        simp only [List.length_cons]; omega
      rw [hl]

/-! ### Bookkeeping as a maximum -/

theorem trackmax_eq_maxBest (r : Column) (f : Nat → Matrixvalue) (m0 n : Nat)
    (hcells : ∀ j, j ≤ n → r.cell j = f j)
    (hm0 : (m0 : Int) = max 0 (f 0).bestcell) :
    ((trackmax f m0 n).1 : Int) = maxBestUpTo r n := by
  induction n with
  | zero =>
    show (m0 : Int) = max 0 (r.cell 0).bestcell
    rw [hcells 0 (le_refl _)]
    exact hm0
  | succ k ih =>
    have ih1 := ih (fun j hj => hcells j (by omega))
    unfold trackmax maxBestUpTo
    rw [← ih1, hcells (k + 1) (le_refl _)]
    split
    · rename_i hc
      show (((f (k + 1)).bestcell.toNat : Nat) : Int) = _
      rw [max_eq_right (by omega)]
      omega
    · rename_i hc
      rw [not_and_or] at hc
      rw [max_eq_left]
      rcases hc with hc | hc <;> omega

/-- The general form of one extension, with the start value of the
bookkeeping as a maximum. -/
theorem applyExt_spec_max (ISSPECIAL : Uchar → Bool) (fresh : Nat → Matrixvalue)
    (lci : Limdfsconstinfo) (depth : Nat) (col : Column) (e : Ext)
    (hcap : lci.querylength + 1 ≤ lci.maxcollen)
    (he : e.dstWf) (hwf : col.wf) (hlen : depth > 1 → lci.querylength + 1 ≤ col.lenval) :
    ∃ r f m0, applyExt ISSPECIAL fresh lci depth col e = some r ∧
      IsChild lci f m0 r ∧ (m0 : Int) = max 0 (f 0).bestcell := by
  have hmax : ∀ b : Int, (((max2 0 b).toNat : Nat) : Int) = max 0 b := by
    intro b
    unfold max2
    split
    · rw [max_eq_right (by omega)]; omega
    · rw [max_eq_left (by omega)]; rfl
  by_cases hd : depth > 1
  · cases e with
    | branch dst ch =>
      obtain ⟨r, h1, h2, _⟩ :=
        nextcolumn_spec ISSPECIAL fresh lci dst ch col he hwf (hlen hd) (Or.inr hcap)
      refine ⟨r, _, _, ?_, h2, hmax _⟩
      show locali_nextLimdfsstate ISSPECIAL fresh lci dst depth ch col = some r
      unfold locali_nextLimdfsstate
      rw [if_pos hd, h1]
    | inplace ch =>
      obtain ⟨r, h1, h2, _⟩ := inplacenextcolumn_spec ISSPECIAL lci ch col hwf (hlen hd)
      refine ⟨r, _, _, ?_, h2, hmax _⟩
      show locali_inplacenextLimdfsstate ISSPECIAL fresh lci col depth ch = some r
      unfold locali_inplacenextLimdfsstate
      rw [if_pos hd, h1]
  · obtain ⟨r, h1, h2⟩ := applyExt_first ISSPECIAL fresh lci depth col e hd hcap he hwf
    refine ⟨r, _, 0, h1, h2, ?_⟩
    show ((0 : Nat) : Int) = max 0 MINUSINFTY
    unfold MINUSINFTY
    rfl

theorem ChainInv_colvalues (lci : Limdfsconstinfo) (col : Column)
    (h : ChainInv lci col) : col.colvalues ≠ none := by
  obtain ⟨hw, hl, _⟩ := h
  intro hn
  unfold Column.wf at hw
  rw [hn] at hw
  simp only [] at hw
  omega

/-- A run from the root against a reference run: the special symbols agree at
the characters fed, the allocator and the root may differ. -/
theorem extend_reference (I I0 : Uchar → Bool) (fresh fresh0 : Nat → Matrixvalue)
    (lci : Limdfsconstinfo) (raw raw0 : Column) (steps : List Ext) (cs : List Uchar)
    (X : Column) (hv : lci.scorevalues.valid)
    (hf : lci.scorevalues.gapfits)
    (hcap : lci.querylength + 1 ≤ lci.maxcollen) (hne : steps ≠ [])
    (hw : ∀ e ∈ steps, Ext.dstWf e) (hch : steps.map Ext.char = cs)
    (hI : ∀ c ∈ cs, I c = I0 c)
    (href : extend I0 fresh0 lci 1 (rootstate fresh0 lci raw0) (cs.map Ext.inplace) =
      some X) :
    ∃ col, extend I fresh lci 1 (rootstate fresh lci raw) steps = some col ∧
      ChainInv lci col ∧ sameActive lci col X := by
  obtain ⟨r1, r2, h1, h2, hi1, _, hsame⟩ :=
    extend_agree I fresh fresh0 lci hv hf hcap steps (cs.map Ext.inplace) 1
      (rootstate fresh lci raw) (rootstate fresh0 lci raw0) hne hw
      (map_inplace_dstWf cs) (by rw [hch, map_inplace_char])
      (rootstate_wf fresh lci raw) (rootstate_wf fresh0 lci raw0)
      (fun h => absurd h (by omega))
  have hc : extend I fresh0 lci 1 (rootstate fresh0 lci raw0) (cs.map Ext.inplace) =
      extend I0 fresh0 lci 1 (rootstate fresh0 lci raw0) (cs.map Ext.inplace) := by
    apply extend_congr
    intro e he
    simp only [List.mem_map] at he
    obtain ⟨c, hc, rfl⟩ := he
    exact hI c hc
  rw [hc, href] at h2
  cases h2
  exact ⟨r1, h1, hi1, hsame⟩

/-- The verdict on a column below the root is read off its `maxvalue`. -/
theorem classify_of_ChainInv (lci : Limdfsconstinfo) (col : Column) (d : Nat)
    (h : ChainInv lci col) :
    classify col d lci =
      if col.maxvalue ≥ lci.threshold then Limdfsstatus.Limdfssuccess
      else if col.maxvalue > 0 then Limdfsstatus.Limdfscontinue
      else Limdfsstatus.Limdfsstop := by
  rw [classify_eq, if_pos (ChainInv_colvalues lci col h)]

/-! ### Copying -/

theorem forUpTo_copyBody (srccells cells : List Matrixvalue) (n : Nat)
    (hn : n < cells.length) :
    (forUpTo n (copyBody srccells) (copyBody srccells 0 cells)).length = cells.length ∧
    (∀ j, j ≤ n →
      cellAt (forUpTo n (copyBody srccells) (copyBody srccells 0 cells)) j =
        cellAt srccells j) ∧
    (∀ j, n < j →
      cellAt (forUpTo n (copyBody srccells) (copyBody srccells 0 cells)) j =
        cellAt cells j) := by
  induction n with
  | zero =>
    refine ⟨by simp [forUpTo, copyBody], ?_, ?_⟩
    · intro j hj
      have : j = 0 := by omega
      subst this
      exact cellAt_set_eq _ _ _ hn
    · intro j hj
      exact cellAt_set_ne _ _ _ _ (by omega)
  | succ k ih =>
    obtain ⟨ihl, ihc, ihr⟩ := ih (by omega)
    have hstep : forUpTo (k + 1) (copyBody srccells) (copyBody srccells 0 cells) =
        (forUpTo k (copyBody srccells) (copyBody srccells 0 cells)).set (k + 1)
          (cellAt srccells (k + 1)) := rfl
    rw [hstep]
    refine ⟨?_, ?_, ?_⟩
    · rw [List.length_set, ihl]
    · intro j hj
      by_cases hjk : j = k + 1
      · subst hjk
        exact cellAt_set_eq _ _ _ (by omega)
      · rw [cellAt_set_ne _ _ _ _ (fun h => hjk h.symm)]
        exact ihc j (by omega)
    · intro j hj
      rw [cellAt_set_ne _ _ _ _ (by omega)]
      exact ihr j (by omega)

theorem copy_spec (fresh : Nat → Matrixvalue) (destcol srccol : Column)
    (lci : Limdfsconstinfo) (hcap : lci.querylength + 1 ≤ lci.maxcollen)
    (hwd : destcol.wf) (hws : srccol.wf) (hlen : lci.querylength + 1 ≤ srccol.lenval) :
    ∃ r, locali_copyLimdfsstate fresh destcol srccol lci = some r ∧
      r.wf ∧ r.lenval = max destcol.lenval lci.maxcollen ∧ sameActive lci r srccol := by
  obtain ⟨srccells, hscv, hslen⟩ : ∃ srccells, srccol.colvalues = some srccells ∧
      srccells.length = srccol.lenval := by
    unfold Column.wf at hws
    cases hcv : srccol.colvalues with
    | none => rw [hcv] at hws; simp only [] at hws; omega
    | some cells => rw [hcv] at hws; exact ⟨cells, rfl, hws⟩
  obtain ⟨dc, cells, hdc, hcells, hclen, hlv⟩ : ∃ (dc : Column) (cells : List Matrixvalue),
      (if destcol.lenval < lci.maxcollen then
        ({ destcol with
          colvalues := gt_realloc fresh destcol.colvalues lci.maxcollen
          lenval := lci.maxcollen } : Column)
       else destcol) = dc ∧ dc.colvalues = some cells ∧ cells.length = dc.lenval ∧
       dc.lenval = max destcol.lenval lci.maxcollen := by
    by_cases h : destcol.lenval < lci.maxcollen
    · obtain ⟨cells, hc, hl⟩ := gt_realloc_length fresh destcol.colvalues lci.maxcollen
      refine ⟨_, cells, if_pos h, hc, hl, ?_⟩
      simp only []
      omega
    · have hpos : 0 < destcol.lenval := by omega
      unfold Column.wf at hwd
      cases hcv : destcol.colvalues with
      | none => rw [hcv] at hwd; simp only [] at hwd; omega
      | some cells =>
        rw [hcv] at hwd
        refine ⟨_, cells, if_neg h, hcv, hwd, ?_⟩
        omega
  obtain ⟨hl, hc, _⟩ := forUpTo_copyBody srccells cells lci.querylength (by omega)
  have hres : locali_copyLimdfsstate fresh destcol srccol lci = some
      { dc with
        colvalues := some (forUpTo lci.querylength (copyBody srccells)
          (copyBody srccells 0 cells))
        maxvalue := srccol.maxvalue
        pprefixlen := srccol.pprefixlen } := by
    unfold locali_copyLimdfsstate
    rw [if_pos (by rw [hscv]; simp)]
    simp only [hdc]
    rw [if_neg (by omega), if_neg (by omega)]
    simp only [hcells, hscv]
    rw [if_neg (by omega)]
  refine ⟨_, hres, ?_, hlv, ⟨?_, rfl, rfl⟩⟩
  · show List.length _ = dc.lenval
    rw [hl, hclen]
  · intro j hj
    show cellAt _ j = cellAt (srccol.colvalues.getD []) j
    rw [hscv]
    exact hc j hj

theorem max2_eq_max (a b : Int) : max2 a b = max a b := by
  unfold max2
  split
  · rw [max_eq_right (by omega)]
  · rw [max_eq_left (by omega)]

theorem firstcell_inscell (lci : Limdfsconstinfo) (c0 : Matrixvalue) :
    (firstcell lci c0).inscell = gapscore lci c0.inscell c0.bestcell := rfl

/-- C13: every extension of a consistent state (first column,
`locali_nextLimdfsstate` or `locali_inplacenextLimdfsstate`) returns a column
whose `maxvalue` is the greatest of 0 and the best scores of the cells
`0..querylength`, and if `maxvalue > 0` then `pprefixlen ≤ querylength` and the
cell at index `pprefixlen` has the best score `maxvalue`. -/
theorem column_bookkeeping (ISSPECIAL : Uchar → Bool) (fresh : Nat → Matrixvalue)
    (lci : Limdfsconstinfo) (depth : Nat) (col : Column) (e : Ext)
    (hcap : lci.querylength + 1 ≤ lci.maxcollen) (he : e.dstWf) (hwf : col.wf)
    (hlen : depth > 1 → lci.querylength + 1 ≤ col.lenval) :
    ∃ r, applyExt ISSPECIAL fresh lci depth col e = some r ∧
      (r.maxvalue : Int) = maxBestUpTo r lci.querylength ∧
      (0 < r.maxvalue → r.pprefixlen ≤ lci.querylength ∧
        (r.cell r.pprefixlen).bestcell = (r.maxvalue : Int)) := by
  obtain ⟨r, f, m0, hr, hc, hm0⟩ :=
    applyExt_spec_max ISSPECIAL fresh lci depth col e hcap he hwf hlen
  obtain ⟨_, _, hcells, ht⟩ := hc
  have h1 : r.maxvalue = (trackmax f m0 lci.querylength).1 := congrArg Prod.fst ht
  have h2 : r.pprefixlen = (trackmax f m0 lci.querylength).2 := congrArg Prod.snd ht
  refine ⟨r, hr, ?_, ?_⟩
  · rw [h1]
    exact trackmax_eq_maxBest r f m0 lci.querylength hcells hm0
  · intro hpos
    have hm : m0 = 0 ∨ m0 = (max2 0 (f 0).bestcell).toNat := by
      rw [max2_eq_max]
      omega
    obtain ⟨hle, hbest⟩ := trackmax_pos f m0 lci.querylength hm (by omega)
    rw [h2, h1]
    exact ⟨hle, by rw [hcells _ hle, hbest]⟩

/-- Witness of C13: the second extension, in place, of scenario A (query
`ACGT`, characters `A` then `C`). -/
theorem column_bookkeeping_witness :
    ∃ r, applyExt noSpecial zeroFresh scenarioParams 2
        (mkColumn [(-1, -4, -1, -1), (2, -1, -1, 2), (-1, -1, -1, -1), (-1, -1, -1, -1),
          (-1, -1, -1, -1)] 1 2) (Ext.inplace 1) = some r ∧
      (r.maxvalue : Int) = maxBestUpTo r scenarioParams.querylength ∧
      (0 < r.maxvalue → r.pprefixlen ≤ scenarioParams.querylength ∧
        (r.cell r.pprefixlen).bestcell = (r.maxvalue : Int)) :=
  column_bookkeeping noSpecial zeroFresh scenarioParams 2
    (mkColumn [(-1, -4, -1, -1), (2, -1, -1, 2), (-1, -1, -1, -1), (-1, -1, -1, -1),
      (-1, -1, -1, -1)] 1 2) (Ext.inplace 1)
    (by decide) (by decide) (by decide) (by decide)

/-! ## The first extension -/

/-- A run of the scenario parameters from the root, read off a reference run
with `noSpecial`, `zeroFresh` and in-place steps. -/
theorem scenario_column (I : Uchar → Bool) (fresh : Nat → Matrixvalue) (raw : Column)
    (steps : List Ext) (cs : List Uchar) (X : Column) (hne : cs ≠ [])
    (hI : ∀ c ∈ cs, I c = false) (hch : steps.map Ext.char = cs)
    (hw : ∀ e ∈ steps, Ext.dstWf e)
    (href : extend noSpecial zeroFresh scenarioParams 1
      (rootstate zeroFresh scenarioParams rawColumn) (cs.map Ext.inplace) = some X) :
    ∃ col, extend I fresh scenarioParams 1 (rootstate fresh scenarioParams raw) steps =
        some col ∧
      ChainInv scenarioParams col ∧ col.maxvalue = X.maxvalue ∧
      col.pprefixlen = X.pprefixlen := by
  obtain ⟨col, h1, h2, h3⟩ := extend_reference I noSpecial fresh zeroFresh scenarioParams
    raw rawColumn steps cs X (by decide) (by decide) (by decide)
    (fun h => hne (by rw [← hch, h]; rfl)) hw hch (fun c hc => by rw [hI c hc]; rfl) href
  exact ⟨col, h1, h2, h3.2.1, h3.2.2⟩

/-- C15: scenario A.  With the scores 2, -1, -3, -1, the threshold 4 and the
query `ACGT`, every run from the root that feeds `A`, `C`, `G`, `T` (none of
them special) returns at depth 4 a column with `maxvalue ≥ 4` (it is 8) and
`pprefixlen = 4`, on which the verdict is `Limdfssuccess`. -/
theorem scenarioA_depth4 (I : Uchar → Bool) (fresh : Nat → Matrixvalue) (raw : Column)
    (steps : List Ext)
    (hI : I 0 = false ∧ I 1 = false ∧ I 2 = false ∧ I 3 = false)
    (hch : steps.map Ext.char = [0, 1, 2, 3]) (hw : ∀ e ∈ steps, Ext.dstWf e) :
    ∃ col, extend I fresh scenarioParams 1 (rootstate fresh scenarioParams raw) steps =
        some col ∧
      col.maxvalue ≥ 4 ∧ col.maxvalue = 8 ∧ col.pprefixlen = 4 ∧
      classify col 4 scenarioParams = Limdfsstatus.Limdfssuccess := by
  obtain ⟨col, h1, h2, h3, h4⟩ := scenario_column I fresh raw steps [0, 1, 2, 3]
    (mkColumn [(-1, -1, -1, -1), (-1, -1, -1, -1), (-1, -1, -1, -1), (-1, 2, -1, 2),
      (8, -2, -2, 8)] 4 8) (by decide)
    (by
      intro c hc
      simp only [List.mem_cons, List.mem_singleton, List.not_mem_nil, or_false] at hc
      rcases hc with rfl | rfl | rfl | rfl
      · exact hI.1
      · exact hI.2.1
      · exact hI.2.2.1
      · exact hI.2.2.2)
    hch hw (by decide)
  have hm : col.maxvalue = 8 := h3
  refine ⟨col, h1, by omega, hm, h4, ?_⟩
  rw [classify_of_ChainInv scenarioParams col 4 h2, hm]
  decide

/-- Witness of C15: the four characters fed in place from a root of zeros. -/
theorem scenarioA_depth4_witness :
    ∃ col, extend noSpecial zeroFresh scenarioParams 1
        (rootstate zeroFresh scenarioParams rawColumn)
        [Ext.inplace 0, Ext.inplace 1, Ext.inplace 2, Ext.inplace 3] = some col ∧
      col.maxvalue ≥ 4 ∧ col.maxvalue = 8 ∧ col.pprefixlen = 4 ∧
      classify col 4 scenarioParams = Limdfsstatus.Limdfssuccess :=
  scenarioA_depth4 noSpecial zeroFresh rawColumn
    [Ext.inplace 0, Ext.inplace 1, Ext.inplace 2, Ext.inplace 3]
    (by decide) (by decide) (by decide)

/-- C16 fails as stated: in scenario A the column at depth 2, after `A` and
`C`, has `maxvalue = 4`, which is not below 4, and the verdict on it is
`Limdfssuccess`. -/
theorem scenarioA_exact_depth_counterexample :
    extend noSpecial zeroFresh scenarioParams 1
        (rootstate zeroFresh scenarioParams rawColumn)
        [Ext.inplace 0, Ext.inplace 1] =
      some (mkColumn [(-1, -1, -1, -1), (-1, -2, -1, -1), (4, -1, -1, 4), (-1, -1, 0, 0),
        (-1, -1, -1, -1)] 2 4) ∧
    ¬ (mkColumn [(-1, -1, -1, -1), (-1, -2, -1, -1), (4, -1, -1, 4), (-1, -1, 0, 0),
        (-1, -1, -1, -1)] 2 4).maxvalue < 4 ∧
    classify (mkColumn [(-1, -1, -1, -1), (-1, -2, -1, -1), (4, -1, -1, 4),
        (-1, -1, 0, 0), (-1, -1, -1, -1)] 2 4) 2 scenarioParams =
      Limdfsstatus.Limdfssuccess := by
  decide

/-- C16, amended: in scenario A every run from the root that feeds the first
`d` of the characters `A`, `C`, `G`, `T` (`1 ≤ d ≤ 4`) returns a column with
`maxvalue = 2 * d`; `maxvalue ≥ 4` is reached at depth 2 and not before: at
depth 1 `maxvalue < 4` and the verdict is `Limdfscontinue`, at the depths 2, 3
and 4 `maxvalue ≥ 4` and the verdict is `Limdfssuccess`. -/
theorem scenarioA_threshold_depth (I : Uchar → Bool) (fresh : Nat → Matrixvalue)
    (raw : Column) (steps : List Ext) (d : Nat)
    (hI : I 0 = false ∧ I 1 = false ∧ I 2 = false ∧ I 3 = false)
    (hd1 : 1 ≤ d) (hd4 : d ≤ 4)
    (hch : steps.map Ext.char = [0, 1, 2, 3].take d) (hw : ∀ e ∈ steps, Ext.dstWf e) :
    ∃ col, extend I fresh scenarioParams 1 (rootstate fresh scenarioParams raw) steps =
        some col ∧
      col.maxvalue = 2 * d ∧
      (d = 1 → col.maxvalue < 4 ∧
        classify col d scenarioParams = Limdfsstatus.Limdfscontinue) ∧
      (2 ≤ d → 4 ≤ col.maxvalue ∧
        classify col d scenarioParams = Limdfsstatus.Limdfssuccess) := by
  have hI4 : ∀ c ∈ [0, 1, 2, 3], I c = false := by
    intro c hc
    simp only [List.mem_cons, List.mem_singleton, List.not_mem_nil, or_false] at hc
    rcases hc with rfl | rfl | rfl | rfl
    · exact hI.1
    · exact hI.2.1
    · exact hI.2.2.1
    · exact hI.2.2.2
  have hsub : ∀ c ∈ [0, 1, 2, 3].take d, I c = false :=
    fun c hc => hI4 c (List.mem_of_mem_take hc)
  have hne : [0, 1, 2, 3].take d ≠ [] := by
    intro h
    have := congrArg List.length h
    simp at this
    omega
  have key : ∀ X : Column,
      extend noSpecial zeroFresh scenarioParams 1
        (rootstate zeroFresh scenarioParams rawColumn)
        (([0, 1, 2, 3].take d).map Ext.inplace) = some X → X.maxvalue = 2 * d →
      ∃ col, extend I fresh scenarioParams 1 (rootstate fresh scenarioParams raw) steps =
          some col ∧
        col.maxvalue = 2 * d ∧
        (d = 1 → col.maxvalue < 4 ∧
          classify col d scenarioParams = Limdfsstatus.Limdfscontinue) ∧
        (2 ≤ d → 4 ≤ col.maxvalue ∧
          classify col d scenarioParams = Limdfsstatus.Limdfssuccess) := by
    intro X href hX
    obtain ⟨col, h1, h2, h3, _⟩ := scenario_column I fresh raw steps _ X hne hsub hch hw href
    have hm : col.maxvalue = 2 * d := by rw [h3, hX]
    have hthr : scenarioParams.threshold = 4 := rfl
    refine ⟨col, h1, hm, ?_, ?_⟩
    · intro hd
      refine ⟨by omega, ?_⟩
      rw [classify_of_ChainInv scenarioParams col d h2, hthr, if_neg (by omega),
        if_pos (by omega)]
    · intro hd
      refine ⟨by omega, ?_⟩
      rw [classify_of_ChainInv scenarioParams col d h2, hthr, if_pos (by omega)]
  interval_cases d
  · exact key (mkColumn [(-1, -4, -1, -1), (2, -1, -1, 2), (-1, -1, -1, -1),
      (-1, -1, -1, -1), (-1, -1, -1, -1)] 1 2) (by decide) (by decide)
  · exact key (mkColumn [(-1, -1, -1, -1), (-1, -2, -1, -1), (4, -1, -1, 4),
      (-1, -1, 0, 0), (-1, -1, -1, -1)] 2 4) (by decide) (by decide)
  · exact key (mkColumn [(-1, -1, -1, -1), (-1, -1, -1, -1), (-1, 0, -1, 0),
      (6, -1, -1, 6), (-1, -1, 2, 2)] 3 6) (by decide) (by decide)
  · exact key (mkColumn [(-1, -1, -1, -1), (-1, -1, -1, -1), (-1, -1, -1, -1),
      (-1, 2, -1, 2), (8, -2, -2, 8)] 4 8) (by decide) (by decide)

/-- Witness of C16 (amended): depth 2, the characters `A`, `C` fed in place. -/
theorem scenarioA_threshold_depth_witness :
    ∃ col, extend noSpecial zeroFresh scenarioParams 1
        (rootstate zeroFresh scenarioParams rawColumn)
        [Ext.inplace 0, Ext.inplace 1] = some col ∧
      col.maxvalue = 2 * 2 ∧
      (2 = 1 → col.maxvalue < 4 ∧
        classify col 2 scenarioParams = Limdfsstatus.Limdfscontinue) ∧
      (2 ≤ 2 → 4 ≤ col.maxvalue ∧
        classify col 2 scenarioParams = Limdfsstatus.Limdfssuccess) :=
  scenarioA_threshold_depth noSpecial zeroFresh rawColumn
    [Ext.inplace 0, Ext.inplace 1] 2 (by decide) (by decide) (by decide) (by decide)
    (by decide)

/-- C17 fails as stated: in scenario B the column at depth 4, after `A`, `G`,
`C`, `T`, has `maxvalue = 0`, not 5, and the verdict on it is `Limdfsstop`. -/
theorem scenarioB_counterexample :
    extend noSpecial zeroFresh scenarioParams 1
        (rootstate zeroFresh scenarioParams rawColumn)
        [Ext.inplace 0, Ext.inplace 2, Ext.inplace 1, Ext.inplace 3] =
      some (mkColumn [(-1, -1, -1, -1), (-1, -1, -1, -1), (-1, -1, -1, -1),
        (-1, -1, -1, -1), (-1, -1, -1, -1)] 0 0) ∧
    (mkColumn [(-1, -1, -1, -1), (-1, -1, -1, -1), (-1, -1, -1, -1),
        (-1, -1, -1, -1), (-1, -1, -1, -1)] 0 0).maxvalue ≠ 5 ∧
    classify (mkColumn [(-1, -1, -1, -1), (-1, -1, -1, -1), (-1, -1, -1, -1),
        (-1, -1, -1, -1), (-1, -1, -1, -1)] 0 0) 4 scenarioParams =
      Limdfsstatus.Limdfsstop := by
  decide

/-- C17, amended: with the scores 2, -1, -3, -1, the threshold 4 and the query
`ACGT`, every run from the root that feeds `A`, `G`, `C`, `T` (none of them
special) returns at depth 4 a column with `maxvalue = 0`, on which the verdict
is `Limdfsstop`. -/
theorem scenarioB_depth4 (I : Uchar → Bool) (fresh : Nat → Matrixvalue) (raw : Column)
    (steps : List Ext)
    (hI : I 0 = false ∧ I 1 = false ∧ I 2 = false ∧ I 3 = false)
    (hch : steps.map Ext.char = [0, 2, 1, 3]) (hw : ∀ e ∈ steps, Ext.dstWf e) :
    ∃ col, extend I fresh scenarioParams 1 (rootstate fresh scenarioParams raw) steps =
        some col ∧
      col.maxvalue = 0 ∧ classify col 4 scenarioParams = Limdfsstatus.Limdfsstop := by
  obtain ⟨col, h1, h2, h3, _⟩ := scenario_column I fresh raw steps [0, 2, 1, 3]
    (mkColumn [(-1, -1, -1, -1), (-1, -1, -1, -1), (-1, -1, -1, -1),
      (-1, -1, -1, -1), (-1, -1, -1, -1)] 0 0) (by decide)
    (by
      intro c hc
      simp only [List.mem_cons, List.mem_singleton, List.not_mem_nil, or_false] at hc
      rcases hc with rfl | rfl | rfl | rfl
      · exact hI.1
      · exact hI.2.2.1
      · exact hI.2.1
      · exact hI.2.2.2)
    hch hw (by decide)
  have hm : col.maxvalue = 0 := h3
  refine ⟨col, h1, hm, ?_⟩
  rw [classify_of_ChainInv scenarioParams col 4 h2, hm]
  decide

/-- Witness of C17 (amended): the four characters fed in place from a root of
zeros. -/
theorem scenarioB_depth4_witness :
    ∃ col, extend noSpecial zeroFresh scenarioParams 1
        (rootstate zeroFresh scenarioParams rawColumn)
        [Ext.inplace 0, Ext.inplace 2, Ext.inplace 1, Ext.inplace 3] = some col ∧
      col.maxvalue = 0 ∧ classify col 4 scenarioParams = Limdfsstatus.Limdfsstop :=
  scenarioB_depth4 noSpecial zeroFresh rawColumn
    [Ext.inplace 0, Ext.inplace 2, Ext.inplace 1, Ext.inplace 3]
    (by decide) (by decide) (by decide)

/-- Scenario C after two characters `T`: the column is dead, whether or not
`T` is special. -/
theorem runTT_dead (I : Uchar → Bool) (fresh : Nat → Matrixvalue) (raw : Column)
    (steps : List Ext) (hch : steps.map Ext.char = [3, 3])
    (hw : ∀ e ∈ steps, Ext.dstWf e) :
    ∃ col, extend I fresh scenarioParams 1 (rootstate fresh scenarioParams raw) steps =
        some col ∧
      ChainInv scenarioParams col ∧ col.maxvalue = 0 := by
  have href : ∀ b : Bool, ∃ X,
      extend (fun _ => b) zeroFresh scenarioParams 1
        (rootstate zeroFresh scenarioParams rawColumn) ([3, 3].map Ext.inplace) =
          some X ∧ X.maxvalue = 0 := by
    intro b
    cases b
    · exact ⟨mkColumn [(-1, -1, -1, -1), (-1, -1, -1, -1), (-1, -1, -1, -1),
        (-1, -1, -1, -1), (-1, -2, -1, -1)] 0 0, by decide, rfl⟩
    · exact ⟨mkColumn [(-1, -1, -1, -1), (-1, -1, -1, -1), (-1, -1, -1, -1),
        (-1, -1, -1, -1), (-1, -1, -1, -1)] 0 0, by decide, rfl⟩
  obtain ⟨X, hX, hXm⟩ := href (I 3)
  obtain ⟨col, h1, h2, h3⟩ := extend_reference I (fun _ => I 3) fresh zeroFresh
    scenarioParams raw rawColumn steps [3, 3] X (by decide) (by decide) (by decide)
    (fun h => by rw [h] at hch; simp at hch) hw hch
    (by
      intro c hc
      simp only [List.mem_cons, List.mem_singleton, List.not_mem_nil, or_false,
        or_self] at hc
      rw [hc])
    hX
  exact ⟨col, h1, h2, by rw [h3.2.1, hXm]⟩

/-- Scenario C after one character `T`: `maxvalue` is below the threshold. -/
theorem runT_below (I : Uchar → Bool) (fresh : Nat → Matrixvalue) (raw : Column)
    (steps : List Ext) (hch : steps.map Ext.char = [3])
    (hw : ∀ e ∈ steps, Ext.dstWf e) :
    ∃ col, extend I fresh scenarioParams 1 (rootstate fresh scenarioParams raw) steps =
        some col ∧
      ChainInv scenarioParams col ∧ col.maxvalue < 4 := by
  have href : ∀ b : Bool, ∃ X,
      extend (fun _ => b) zeroFresh scenarioParams 1
        (rootstate zeroFresh scenarioParams rawColumn) ([3].map Ext.inplace) =
          some X ∧ X.maxvalue < 4 := by
    intro b
    cases b
    · exact ⟨mkColumn [(-1, -4, -1, -1), (-1, -1, -1, -1), (-1, -1, -1, -1),
        (-1, -1, -1, -1), (2, -1, -1, 2)] 4 2, by decide, by decide⟩
    · exact ⟨mkColumn [(-1, -4, -1, -1), (-1, -1, -1, -1), (-1, -1, -1, -1),
        (-1, -1, -1, -1), (-1, -1, -1, -1)] 0 0, by decide, by decide⟩
  obtain ⟨X, hX, hXm⟩ := href (I 3)
  obtain ⟨col, h1, h2, h3⟩ := extend_reference I (fun _ => I 3) fresh zeroFresh
    scenarioParams raw rawColumn steps [3] X (by decide) (by decide) (by decide)
    (fun h => by rw [h] at hch; simp at hch) hw hch
    (by
      intro c hc
      simp only [List.mem_singleton] at hc
      rw [hc])
    hX
  exact ⟨col, h1, h2, by rw [h3.2.1]; exact hXm⟩

/-- C18: scenario C.  With the scores 2, -1, -3, -1, the threshold 4 and the
query `ACGT`, every run from the root that feeds `T`, `T` returns at depth 2 a
column in which the best score of every cell is at most 0 and on which the
verdict is `Limdfsstop`; and for every `n ≥ 1`, every run that feeds `n`
characters `T` returns a column on which the verdict is not `Limdfssuccess`. -/
theorem scenarioC (I : Uchar → Bool) (fresh : Nat → Matrixvalue) (raw : Column) :
    (∀ steps : List Ext, steps.map Ext.char = [3, 3] → (∀ e ∈ steps, Ext.dstWf e) →
      ∃ col, extend I fresh scenarioParams 1 (rootstate fresh scenarioParams raw) steps =
          some col ∧
        (∀ i, i ≤ scenarioParams.querylength → (col.cell i).bestcell ≤ 0) ∧
        classify col 2 scenarioParams = Limdfsstatus.Limdfsstop) ∧
    (∀ (n : Nat) (steps : List Ext), 1 ≤ n → steps.map Ext.char = List.replicate n 3 →
      (∀ e ∈ steps, Ext.dstWf e) →
      ∃ col, extend I fresh scenarioParams 1 (rootstate fresh scenarioParams raw) steps =
          some col ∧
        classify col n scenarioParams ≠ Limdfsstatus.Limdfssuccess) := by
  have hthr : scenarioParams.threshold = 4 := rfl
  have hstop : ∀ (col : Column) (d : Nat), ChainInv scenarioParams col →
      col.maxvalue = 0 → classify col d scenarioParams = Limdfsstatus.Limdfsstop := by
    intro col d hinv hm
    rw [classify_of_ChainInv scenarioParams col d hinv, hthr, hm]
    rfl
  constructor
  · intro steps hch hw
    obtain ⟨col, h1, h2, h3⟩ := runTT_dead I fresh raw steps hch hw
    exact ⟨col, h1, fun i hi => (ChainInv_dead scenarioParams col h2 h3 i hi).2,
      hstop col 2 h2 h3⟩
  · intro n steps hn hch hw
    by_cases h1 : n = 1
    · subst h1
      obtain ⟨col, hc1, hc2, hc3⟩ := runT_below I fresh raw steps hch hw
      refine ⟨col, hc1, ?_⟩
      rw [classify_of_ChainInv scenarioParams col 1 hc2, hthr, if_neg (by omega)]
      split <;> simp
    · have hn2 : 2 ≤ n := by omega
      have htake : (steps.take 2).map Ext.char = [3, 3] := by
        rw [List.map_take, hch]
        obtain ⟨m, rfl⟩ : ∃ m, n = m + 2 := ⟨n - 2, by omega⟩
        rfl
      obtain ⟨col, hc1, hc2, hc3⟩ := runTT_dead I fresh raw (steps.take 2) htake
        (fun e he => hw e (List.mem_of_mem_take he))
      have hlen : (steps.take 2).length = 2 := by
        have := congrArg List.length htake
        simpa using this
      obtain ⟨r, hr, hri, hrm⟩ := extend_dead I fresh scenarioParams (by decide)
        (steps.drop 2) (1 + (steps.take 2).length) col (by omega)
        (fun e he => hw e (List.mem_of_mem_drop he)) hc2 hc3
      refine ⟨r, ?_, ?_⟩
      · rw [← List.take_append_drop 2 steps, extend_append, hc1]
        exact hr
      · rw [hstop r n hri hrm]
        simp

/-- Witness of C18: two and five characters `T` fed in place from a root of
zeros. -/
theorem scenarioC_witness :
    (∃ col, extend noSpecial zeroFresh scenarioParams 1
        (rootstate zeroFresh scenarioParams rawColumn)
        [Ext.inplace 3, Ext.inplace 3] = some col ∧
      (∀ i, i ≤ scenarioParams.querylength → (col.cell i).bestcell ≤ 0) ∧
      classify col 2 scenarioParams = Limdfsstatus.Limdfsstop) ∧
    (∃ col, extend noSpecial zeroFresh scenarioParams 1
        (rootstate zeroFresh scenarioParams rawColumn)
        [Ext.inplace 3, Ext.inplace 3, Ext.inplace 3, Ext.inplace 3, Ext.inplace 3] =
          some col ∧
      classify col 5 scenarioParams ≠ Limdfsstatus.Limdfssuccess) :=
  ⟨(scenarioC noSpecial zeroFresh rawColumn).1 [Ext.inplace 3, Ext.inplace 3]
      (by decide) (by decide),
    (scenarioC noSpecial zeroFresh rawColumn).2 5
      [Ext.inplace 3, Ext.inplace 3, Ext.inplace 3, Ext.inplace 3, Ext.inplace 3]
      (by decide) (by decide) (by decide)⟩

/-! ## Copying a state -/

/-- C19: for every parameters with `querylength + 1 ≤ maxcollen`, every
consistent source with at least `querylength + 1` cells and every consistent
destination, `locali_copyLimdfsstate` returns a destination whose cells
`0..querylength` are those of the source and whose `maxvalue` and `pprefixlen`
are those of the source. -/
theorem copy_deep (fresh : Nat → Matrixvalue) (destcol srccol : Column)
    (lci : Limdfsconstinfo) (hcap : lci.querylength + 1 ≤ lci.maxcollen)
    (hwd : destcol.wf) (hws : srccol.wf) (hlen : lci.querylength + 1 ≤ srccol.lenval) :
    ∃ r, locali_copyLimdfsstate fresh destcol srccol lci = some r ∧
      (∀ i, i ≤ lci.querylength → r.cell i = srccol.cell i) ∧
      r.maxvalue = srccol.maxvalue ∧ r.pprefixlen = srccol.pprefixlen := by
  obtain ⟨r, hr, _, _, hs⟩ := copy_spec fresh destcol srccol lci hcap hwd hws hlen
  exact ⟨r, hr, hs⟩

/-- Witness of C19: the depth-2 column of scenario A copied into a
destination without buffer. -/
theorem copy_deep_witness :
    ∃ r, locali_copyLimdfsstate zeroFresh rawColumn
        (mkColumn [(-1, -1, -1, -1), (-1, -2, -1, -1), (4, -1, -1, 4), (-1, -1, 0, 0),
          (-1, -1, -1, -1)] 2 4) scenarioParams = some r ∧
      (∀ i, i ≤ scenarioParams.querylength →
        r.cell i = (mkColumn [(-1, -1, -1, -1), (-1, -2, -1, -1), (4, -1, -1, 4),
          (-1, -1, 0, 0), (-1, -1, -1, -1)] 2 4).cell i) ∧
      r.maxvalue = 4 ∧ r.pprefixlen = 2 :=
  copy_deep zeroFresh rawColumn
    (mkColumn [(-1, -1, -1, -1), (-1, -2, -1, -1), (4, -1, -1, 4), (-1, -1, 0, 0),
      (-1, -1, -1, -1)] 2 4) scenarioParams (by decide) (by decide) (by decide)
    (by decide)

/-! ## Copy independence -/

theorem store_SrcKept (m0 m : Memory) (dst src newaddr : Nat) (moved : Bool) (r : Column)
    (hne : dst ≠ src) (hfresh : (m0.states src).colvalues ≠ some newaddr)
    (h : SrcKept m0 m dst src) : SrcKept m0 (m.store dst newaddr moved r) dst src := by
  obtain ⟨h1, h2, h3⟩ := h
  refine ⟨?_, ?_, ?_⟩
  · show (if src = dst then _ else m.states src) = _
    rw [if_neg (fun h => hne h.symm)]
    exact h1
  · intro a ha
    show (if some a = (if moved = true then some newaddr else (m.states dst).colvalues)
      then r.colvalues
      else if moved = true ∧ some a = (m.states dst).colvalues then none else m.heap a) = _
    have hd : (m.states dst).colvalues ≠ some a := h3 a ha
    have hn : some a ≠ some newaddr := fun hh => hfresh (by rw [ha, hh])
    rw [if_neg (by
      split
      · exact hn
      · exact fun hh => hd hh.symm), if_neg (fun hh => hd hh.2.symm)]
    exact h2 a ha
  · intro a ha
    show (if dst = dst then
        (⟨if moved = true then some newaddr else (m.states dst).colvalues, r.lenval,
          r.pprefixlen, r.maxvalue⟩ : ColumnRef)
      else m.states dst).colvalues ≠ some a
    rw [if_pos rfl]
    show (if moved = true then some newaddr else (m.states dst).colvalues) ≠ some a
    split
    · exact fun hh => hfresh (by rw [ha, hh])
    · exact h3 a ha

theorem SrcKept_column (m m' : Memory) (dst src : Nat) (h : SrcKept m m' dst src) :
    m'.column src = m.column src := by
  obtain ⟨h1, h2, _⟩ := h
  unfold Memory.column
  rw [h1]
  cases ha : (m.states src).colvalues with
  | none => rfl
  | some a =>
    show Column.mk (m'.heap a) _ _ _ = Column.mk (m.heap a) _ _ _
    rw [h2 a ha]

theorem applyMemStep_SrcKept (ISSPECIAL : Uchar → Bool) (fresh : Nat → Matrixvalue)
    (lci : Limdfsconstinfo) (depth : Nat) (m0 m m' : Memory) (dst src : Nat)
    (st : MemStep) (hne : dst ≠ src)
    (hfresh : (m0.states src).colvalues ≠ some st.newaddr)
    (h : SrcKept m0 m dst src)
    (hstep : applyMemStep ISSPECIAL fresh lci depth m dst st = some m') :
    SrcKept m0 m' dst src := by
  cases st with
  | inplace a ch =>
    have hs : inplaceMem ISSPECIAL fresh a lci m dst depth ch = some m' := hstep
    unfold inplaceMem at hs
    rw [Option.map_eq_some'] at hs
    obtain ⟨r, _, hr⟩ := hs
    rw [← hr]
    exact store_SrcKept m0 m dst src a _ r hne hfresh h
  | dest a parent ch =>
    have hs : nextMem ISSPECIAL fresh a lci m dst depth ch parent = some m' := hstep
    unfold nextMem at hs
    split at hs
    · cases hs
    · rw [Option.map_eq_some'] at hs
      obtain ⟨r, _, hr⟩ := hs
      rw [← hr]
      exact store_SrcKept m0 m dst src a _ r hne hfresh h

theorem runMem_SrcKept (ISSPECIAL : Uchar → Bool) (fresh : Nat → Matrixvalue)
    (lci : Limdfsconstinfo) (m0 : Memory) (dst src : Nat) (hne : dst ≠ src)
    (steps : List MemStep) :
    ∀ (depth : Nat) (m m' : Memory),
      (∀ st ∈ steps, (m0.states src).colvalues ≠ some (MemStep.newaddr st)) →
      SrcKept m0 m dst src →
      runMem ISSPECIAL fresh lci dst depth m steps = some m' → SrcKept m0 m' dst src := by
  induction steps with
  | nil =>
    intro depth m m' _ h hrun
    cases hrun
    exact h
  | cons st sts ih =>
    intro depth m m' hfresh h hrun
    have hr : (applyMemStep ISSPECIAL fresh lci depth m dst st).bind
        (fun m1 => runMem ISSPECIAL fresh lci dst (depth + 1) m1 sts) = some m' := hrun
    rw [Option.bind_eq_some] at hr
    obtain ⟨m1, h1, h2⟩ := hr
    exact ih (depth + 1) m1 m' (fun s hs => hfresh s (List.mem_cons_of_mem _ hs))
      (applyMemStep_SrcKept ISSPECIAL fresh lci depth m0 m m1 dst src st hne
        (hfresh st (List.mem_cons_self _ _)) h h1) h2

/-- C20: let `dst` and `src` be two different states that do not hold the same
buffer, and let the allocator never return the address of the buffer of
`src`.  After `locali_copyLimdfsstate` from `src` to `dst`, followed by any
sequence of extensions that write into `dst` (in place, or with `dst` as
destination and any state as parent), the state `src` is what it was before
the copy: its struct (`lenval`, `maxvalue`, `pprefixlen`, address) and every
cell of its buffer. -/
theorem copy_independence (ISSPECIAL : Uchar → Bool) (fresh : Nat → Matrixvalue)
    (lci : Limdfsconstinfo) (m m1 m' : Memory) (dst src newaddr depth : Nat)
    (steps : List MemStep) (hne : dst ≠ src)
    (hshare : ∀ a, (m.states src).colvalues = some a →
      (m.states dst).colvalues ≠ some a)
    (halloc : (m.states src).colvalues ≠ some newaddr)
    (hallocs : ∀ st ∈ steps, (m.states src).colvalues ≠ some (MemStep.newaddr st))
    (hcopy : copyMem fresh newaddr m dst src lci = some m1)
    (hrun : runMem ISSPECIAL fresh lci dst depth m1 steps = some m') :
    m'.states src = m.states src ∧ m'.column src = m.column src := by
  have h0 : SrcKept m m dst src := ⟨rfl, fun _ _ => rfl, hshare⟩
  have h1 : SrcKept m m1 dst src := by
    unfold copyMem at hcopy
    rw [Option.map_eq_some'] at hcopy
    obtain ⟨r, _, hr⟩ := hcopy
    rw [← hr]
    exact store_SrcKept m m dst src newaddr _ r hne halloc h0
  have h2 := runMem_SrcKept ISSPECIAL fresh lci m dst src hne steps depth m1 m'
    hallocs h1 hrun
  exact ⟨h2.1, SrcKept_column m m' dst src h2⟩

/-- Witness of C20: state 0 is copied into state 1, whose buffer the allocator
places at the address 200; state 1 is then extended in place by `G` at depth 3
and used as destination for the parent 0 and the character `T` at depth 4. -/
theorem copy_independence_witness :
    ∃ m1 m',
      copyMem zeroFresh 200 exampleMemory 1 0 scenarioParams = some m1 ∧
      runMem noSpecial zeroFresh scenarioParams 1 3 m1
        [MemStep.inplace 300 2, MemStep.dest 301 0 3] = some m' ∧
      (m'.column 1).maxvalue = 3 ∧
      m'.states 0 = exampleMemory.states 0 ∧
      m'.column 0 = exampleMemory.column 0 :=
  ⟨_, _, rfl, rfl, by decide,
    copy_independence noSpecial zeroFresh scenarioParams exampleMemory _ _ 1 0 200 3
      [MemStep.inplace 300 2, MemStep.dest 301 0 3] (by decide)
      (fun a _ h => by cases h) (by decide) (by decide) rfl rfl⟩

/-! ## Construction of the parameters -/

/-- C21 fails as stated: for the empty query `locali_initdfsconstinfo` returns
parameters (with `querylength = 0` and `maxcollen = 1`), and the first
extension under these parameters returns a column of one cell. -/
theorem empty_query_counterexample :
    locali_initdfsconstinfo
        (locali_allocatedfsconstinfo ⟨⟨0, 0, 0, 0⟩, [], 0, 0, 0⟩ 4) 4 2 (-1) (-3) (-1) 4
        [] 0 = ⟨⟨2, -1, -3, -1⟩, [], 1, 0, 4⟩ ∧
    extend noSpecial zeroFresh ⟨⟨2, -1, -3, -1⟩, [], 1, 0, 4⟩ 1
        (rootstate zeroFresh ⟨⟨2, -1, -3, -1⟩, [], 1, 0, 4⟩ rawColumn) [Ext.inplace 0] =
      some (mkColumn [(-1, -4, -1, -1)] 0 0) := by
  decide

/-- C21, amended: `locali_initdfsconstinfo` does not fail on the empty query.
With `querylength = 0` it returns parameters that hold the query, the scores
and the threshold as given, with `querylength = 0` and `maxcollen ≥ 1`, and
under these parameters `secondcolumn` returns a column for every consistent
state. -/
theorem initdfsconstinfo_empty_query (lci : Limdfsconstinfo) (alphasize : Nat)
    (matchscore mismatchscore gapstart gapextend : Int) (threshold : Nat)
    (query : List Uchar) :
    (locali_initdfsconstinfo lci alphasize matchscore mismatchscore gapstart gapextend
        threshold query 0).querylength = 0 ∧
    (locali_initdfsconstinfo lci alphasize matchscore mismatchscore gapstart gapextend
        threshold query 0).query = query ∧
    (locali_initdfsconstinfo lci alphasize matchscore mismatchscore gapstart gapextend
        threshold query 0).scorevalues =
      ⟨matchscore, mismatchscore, gapstart, gapextend⟩ ∧
    (locali_initdfsconstinfo lci alphasize matchscore mismatchscore gapstart gapextend
        threshold query 0).threshold = threshold ∧
    1 ≤ (locali_initdfsconstinfo lci alphasize matchscore mismatchscore gapstart
        gapextend threshold query 0).maxcollen ∧
    ∀ (ISSPECIAL : Uchar → Bool) (fresh : Nat → Matrixvalue) (column : Column)
      (c : Uchar), column.wf →
      ∃ r, secondcolumn ISSPECIAL fresh
        (locali_initdfsconstinfo lci alphasize matchscore mismatchscore gapstart
          gapextend threshold query 0) column c = some r := by
  have hcap := initdfsconstinfo_cap lci alphasize matchscore mismatchscore gapstart
    gapextend threshold query 0
  have hq : (locali_initdfsconstinfo lci alphasize matchscore mismatchscore gapstart
      gapextend threshold query 0).querylength = 0 := by
    unfold locali_initdfsconstinfo
    simp only []
    split <;> rfl
  refine ⟨hq, ?_, ?_, ?_, ?_, ?_⟩
  · unfold locali_initdfsconstinfo
    simp only []
    split <;> rfl
  · unfold locali_initdfsconstinfo
    simp only []
    split <;> rfl
  · unfold locali_initdfsconstinfo
    simp only []
    split <;> rfl
  · rw [hq] at hcap
    exact hcap
  · intro ISSPECIAL fresh column c hw
    obtain ⟨r, hr, _⟩ := secondcolumn_spec ISSPECIAL fresh _ column c hw hcap
    exact ⟨r, hr⟩

/-- C22 fails as stated: for the scores 0, 1, 1, 1, which violate every sign
condition, `locali_initdfsconstinfo` returns parameters that hold them, and
the recurrence runs under these parameters. -/
theorem sign_invariant_counterexample :
    locali_initdfsconstinfo
        (locali_allocatedfsconstinfo ⟨⟨0, 0, 0, 0⟩, [], 0, 0, 0⟩ 4) 4 0 1 1 1 4
        [0] 1 = ⟨⟨0, 1, 1, 1⟩, [0], 2, 1, 4⟩ ∧
    ¬ (⟨⟨0, 1, 1, 1⟩, [0], 2, 1, 4⟩ : Limdfsconstinfo).scorevalues.valid ∧
    extend noSpecial zeroFresh ⟨⟨0, 1, 1, 1⟩, [0], 2, 1, 4⟩ 1
        (rootstate zeroFresh ⟨⟨0, 1, 1, 1⟩, [0], 2, 1, 4⟩ rawColumn)
        [Ext.inplace 1] =
      some (mkColumn [(-1, 2, -1, -1), (1, -1, -1, 1)] 1 1) := by
  decide

/-- C22, amended: `locali_initdfsconstinfo` stores the four scores as given and
rejects none; the parameters it returns satisfy the sign conditions if and
only if the arguments do. -/
theorem initdfsconstinfo_scores (lci : Limdfsconstinfo) (alphasize : Nat)
    (matchscore mismatchscore gapstart gapextend : Int) (threshold : Nat)
    (query : List Uchar) (querylength : Nat) :
    (locali_initdfsconstinfo lci alphasize matchscore mismatchscore gapstart gapextend
        threshold query querylength).scorevalues =
      ⟨matchscore, mismatchscore, gapstart, gapextend⟩ ∧
    ((locali_initdfsconstinfo lci alphasize matchscore mismatchscore gapstart gapextend
        threshold query querylength).scorevalues.valid ↔
      0 < matchscore ∧ mismatchscore < 0 ∧ gapstart < 0 ∧ gapextend < 0) := by
  have h : (locali_initdfsconstinfo lci alphasize matchscore mismatchscore gapstart
      gapextend threshold query querylength).scorevalues =
      ⟨matchscore, mismatchscore, gapstart, gapextend⟩ := by
    unfold locali_initdfsconstinfo
    simp only []
    split <;> rfl
  refine ⟨h, ?_⟩
  rw [h]
  rfl

/-! ## Capacity -/

theorem copy_eq_resized (fresh : Nat → Matrixvalue) (destcol srccol : Column)
    (lci : Limdfsconstinfo) :
    locali_copyLimdfsstate fresh destcol srccol lci =
      if srccol.colvalues ≠ none then
        if (copyResized fresh destcol lci).lenval < lci.querylength + 1 then none
        else if srccol.lenval < lci.querylength + 1 then none
        else
          match (copyResized fresh destcol lci).colvalues, srccol.colvalues with
          | some cells, some srccells =>
            if cells.length < lci.querylength + 1 ∨
                srccells.length < lci.querylength + 1 then none
            else
              some { copyResized fresh destcol lci with
                     colvalues := some (forUpTo lci.querylength (copyBody srccells)
                       (copyBody srccells 0 cells))
                     maxvalue := srccol.maxvalue
                     pprefixlen := srccol.pprefixlen }
          | _, _ => none
      else
        some { destcol with
               maxvalue := srccol.maxvalue
               pprefixlen := srccol.pprefixlen } := rfl

theorem nextcolumn_eq_resized (ISSPECIAL : Uchar → Bool) (fresh : Nat → Matrixvalue)
    (lci : Limdfsconstinfo) (outcol : Column) (dbchar : Uchar) (incol : Column) :
    nextcolumn ISSPECIAL fresh lci outcol dbchar incol =
      if outcol.colvalues = none ∧ incol.colvalues = none then none
      else if ¬ (incol.lenval ≥ lci.querylength + 1) then none
      else
        if ¬ ((nextcolumnResized fresh outcol lci).lenval ≥ lci.querylength + 1) then none
        else
          match (nextcolumnResized fresh outcol lci).colvalues, incol.colvalues with
          | some cells, some incells =>
            if cells.length < lci.querylength + 1 ∨
                incells.length < lci.querylength + 1 then none
            else
              let c0 := firstcell lci (cellAt incells 0)
              let cells := cells.set 0 c0
              let s := forUpTo lci.querylength
                (nextcolumnBody ISSPECIAL lci dbchar incells)
                { cells := cells, maxvalue := (max2 0 c0.bestcell).toNat,
                  pprefixlen := 0 }
              some { nextcolumnResized fresh outcol lci with
                     colvalues := some s.cells
                     maxvalue := s.maxvalue
                     pprefixlen := s.pprefixlen }
          | _, _ => none := rfl

theorem copyResized_lenval (fresh : Nat → Matrixvalue) (destcol : Column)
    (lci : Limdfsconstinfo) :
    (copyResized fresh destcol lci).lenval = max destcol.lenval lci.maxcollen := by
  unfold copyResized
  split
  · show lci.maxcollen = _
    omega
  · omega

theorem nextcolumnResized_lenval (fresh : Nat → Matrixvalue) (outcol : Column)
    (lci : Limdfsconstinfo) :
    (nextcolumnResized fresh outcol lci).lenval =
      if outcol.lenval < lci.querylength + 1 then lci.maxcollen else outcol.lenval := by
  unfold nextcolumnResized
  split <;> rfl

theorem nextcolumn_lenval (ISSPECIAL : Uchar → Bool) (fresh : Nat → Matrixvalue)
    (lci : Limdfsconstinfo) (outcol : Column) (dbchar : Uchar) (incol r : Column)
    (h : nextcolumn ISSPECIAL fresh lci outcol dbchar incol = some r) :
    r.lenval = (nextcolumnResized fresh outcol lci).lenval ∧
      lci.querylength + 1 ≤ r.lenval ∧ lci.querylength + 1 ≤ incol.lenval := by
  rw [nextcolumn_eq_resized] at h
  split_ifs at h with h1 h2 h3
  split at h
  · split_ifs at h
    cases h
    exact ⟨rfl, by show _ ≤ (nextcolumnResized fresh outcol lci).lenval; omega, by omega⟩
  · cases h

theorem secondcolumn_lenval (ISSPECIAL : Uchar → Bool) (fresh : Nat → Matrixvalue)
    (lci : Limdfsconstinfo) (outcol : Column) (dbchar : Uchar) (r : Column)
    (h : secondcolumn ISSPECIAL fresh lci outcol dbchar = some r) :
    r.lenval = max outcol.lenval lci.maxcollen := by
  have hl := copyResized_lenval fresh outcol lci
  have h' : (match (copyResized fresh outcol lci).colvalues with
    | none => none
    | some cells =>
      if cells.length < lci.querylength + 1 then none
      else
        some { copyResized fresh outcol lci with
               colvalues := some (forUpTo lci.querylength
                 (secondcolumnBody ISSPECIAL lci dbchar)
                 { cells := cells.set 0
                     ⟨MINUSINFTY, addLong lci.scorevalues.gapstart lci.scorevalues.gapextend,
                      MINUSINFTY, MINUSINFTY⟩, maxvalue := 0, pprefixlen := 0 }).cells
               maxvalue := (forUpTo lci.querylength
                 (secondcolumnBody ISSPECIAL lci dbchar)
                 { cells := cells.set 0
                     ⟨MINUSINFTY, addLong lci.scorevalues.gapstart lci.scorevalues.gapextend,
                      MINUSINFTY, MINUSINFTY⟩, maxvalue := 0, pprefixlen := 0 }).maxvalue
               pprefixlen := (forUpTo lci.querylength
                 (secondcolumnBody ISSPECIAL lci dbchar)
                 { cells := cells.set 0
                     ⟨MINUSINFTY, addLong lci.scorevalues.gapstart lci.scorevalues.gapextend,
                      MINUSINFTY, MINUSINFTY⟩, maxvalue := 0, pprefixlen := 0 }).pprefixlen }) =
      some r := h
  split at h'
  · cases h'
  · split_ifs at h'
    cases h'
    exact hl

theorem inplacenextcolumn_lenval (ISSPECIAL : Uchar → Bool) (lci : Limdfsconstinfo)
    (dbchar : Uchar) (column r : Column)
    (h : inplacenextcolumn ISSPECIAL lci dbchar column = some r) :
    r.lenval = column.lenval ∧ column.colvalues ≠ none := by
  unfold inplacenextcolumn at h
  split at h
  · cases h
  · rename_i cells hc
    split_ifs at h
    cases h
    exact ⟨rfl, by rw [hc]; simp⟩

theorem copy_lenval (fresh : Nat → Matrixvalue) (destcol srccol : Column)
    (lci : Limdfsconstinfo) (r : Column)
    (h : locali_copyLimdfsstate fresh destcol srccol lci = some r) :
    r.lenval = (if srccol.colvalues ≠ none then max destcol.lenval lci.maxcollen
      else destcol.lenval) ∧
    (srccol.colvalues ≠ none → lci.querylength + 1 ≤ r.lenval ∧
      lci.querylength + 1 ≤ srccol.lenval) := by
  rw [copy_eq_resized] at h
  have hl := copyResized_lenval fresh destcol lci
  split_ifs at h with h1 h2 h3
  · split at h
    · split_ifs at h
      cases h
      rw [if_pos h1]
      exact ⟨hl, fun _ => ⟨by show _ ≤ (copyResized fresh destcol lci).lenval; omega,
        by omega⟩⟩
    · cases h
  · cases h
    rw [if_neg h1]
    exact ⟨rfl, fun hh => absurd hh h1⟩

theorem IsChild_CapOk (lci : Limdfsconstinfo) (f : Nat → Matrixvalue) (m0 : Nat)
    (r : Column) (h : IsChild lci f m0 r) : CapOk lci r :=
  ⟨h.1, fun _ => h.2.1⟩

theorem initroot_CapOk (fresh : Nat → Matrixvalue) (lci : Limdfsconstinfo) (c : Column)
    (hcap : lci.querylength + 1 ≤ lci.maxcollen) (h : CapOk lci c) :
    CapOk lci (locali_initrootLimdfsstate fresh c lci) := by
  unfold locali_initrootLimdfsstate
  split
  · refine ⟨?_, fun _ => hcap⟩
    unfold Column.wf gt_realloc
    simp
  · exact h

theorem free_CapOk (lci : Limdfsconstinfo) (c : Column) (h : CapOk lci c) :
    CapOk lci (locali_freeLimdfsstackelem c) := by
  unfold locali_freeLimdfsstackelem
  split
  · exact ⟨rfl, fun hh => absurd rfl hh⟩
  · exact h

theorem next_CapOk (ISSPECIAL : Uchar → Bool) (fresh : Nat → Matrixvalue)
    (lci : Limdfsconstinfo) (dst parent r : Column) (depth : Nat) (ch : Uchar)
    (hcap : lci.querylength + 1 ≤ lci.maxcollen) (hd : CapOk lci dst)
    (hp : CapOk lci parent)
    (h : locali_nextLimdfsstate ISSPECIAL fresh lci dst depth ch parent = some r) :
    CapOk lci r := by
  unfold locali_nextLimdfsstate at h
  split_ifs at h
  · have hl := (nextcolumn_lenval ISSPECIAL fresh lci dst ch parent r h).2.2
    obtain ⟨r0, h0, hc, _⟩ :=
      nextcolumn_spec ISSPECIAL fresh lci dst ch parent hd.1 hp.1 hl (Or.inr hcap)
    rw [h0] at h
    cases h
    exact IsChild_CapOk lci _ _ _ hc
  · obtain ⟨r0, h0, hc, _⟩ := secondcolumn_spec ISSPECIAL fresh lci dst ch hd.1 hcap
    rw [h0] at h
    cases h
    exact IsChild_CapOk lci _ _ _ hc

theorem inplace_CapOk (ISSPECIAL : Uchar → Bool) (fresh : Nat → Matrixvalue)
    (lci : Limdfsconstinfo) (c r : Column) (depth : Nat) (ch : Uchar)
    (hcap : lci.querylength + 1 ≤ lci.maxcollen) (hc : CapOk lci c)
    (h : locali_inplacenextLimdfsstate ISSPECIAL fresh lci c depth ch = some r) :
    CapOk lci r := by
  unfold locali_inplacenextLimdfsstate at h
  split_ifs at h
  · have hb := (inplacenextcolumn_lenval ISSPECIAL lci ch c r h).2
    obtain ⟨r0, h0, hch, _⟩ := inplacenextcolumn_spec ISSPECIAL lci ch c hc.1 (hc.2 hb)
    rw [h0] at h
    cases h
    exact IsChild_CapOk lci _ _ _ hch
  · obtain ⟨r0, h0, hch, _⟩ := secondcolumn_spec ISSPECIAL fresh lci c ch hc.1 hcap
    rw [h0] at h
    cases h
    exact IsChild_CapOk lci _ _ _ hch

theorem copy_CapOk (fresh : Nat → Matrixvalue) (lci : Limdfsconstinfo)
    (dst src r : Column) (hcap : lci.querylength + 1 ≤ lci.maxcollen)
    (hd : CapOk lci dst) (hs : CapOk lci src)
    (h : locali_copyLimdfsstate fresh dst src lci = some r) : CapOk lci r := by
  by_cases hb : src.colvalues ≠ none
  · obtain ⟨r0, h0, hw, hl, _⟩ := copy_spec fresh dst src lci hcap hd.1 hs.1 (hs.2 hb)
    rw [h0] at h
    cases h
    exact ⟨hw, fun _ => by rw [hl]; omega⟩
  · unfold locali_copyLimdfsstate at h
    rw [if_neg hb] at h
    cases h
    exact hd

theorem EngineState_CapOk (lci : Limdfsconstinfo)
    (hcap : lci.querylength + 1 ≤ lci.maxcollen) (c : Column) (h : EngineState lci c) :
    CapOk lci c := by
  induction h with
  | new raw => exact ⟨rfl, fun hh => absurd rfl hh⟩
  | root fresh c _ ih => exact initroot_CapOk fresh lci c hcap ih
  | free c _ ih => exact free_CapOk lci c ih
  | next I fresh dst parent r depth ch _ _ hr ihd ihp =>
    exact next_CapOk I fresh lci dst parent r depth ch hcap ihd ihp hr
  | inplace I fresh c r depth ch _ hr ih =>
    exact inplace_CapOk I fresh lci c r depth ch hcap ih hr
  | copy fresh dst src r _ _ hr ihd ihs =>
    exact copy_CapOk fresh lci dst src r hcap ihd ihs hr

/-- C23: under parameters with `querylength + 1 ≤ maxcollen` (which
`locali_initdfsconstinfo` establishes), for a consistent state `column`:
`locali_initrootLimdfsstate`, `secondcolumn`, `locali_nextLimdfsstate`,
`locali_inplacenextLimdfsstate` (at any depth) and `locali_copyLimdfsstate`
never return the state with a smaller `lenval`; the state that the four
functions which write cells return has `lenval ≥ querylength + 1` (the copy
writes cells when the source has a buffer); `locali_freeLimdfsstackelem`
leaves `lenval = 0`. -/
theorem capacity_never_shrinks (ISSPECIAL : Uchar → Bool) (fresh : Nat → Matrixvalue)
    (lci : Limdfsconstinfo) (column other : Column) (depth : Nat) (c : Uchar)
    (hcap : lci.querylength + 1 ≤ lci.maxcollen) (hwf : column.wf) :
    column.lenval ≤ (locali_initrootLimdfsstate fresh column lci).lenval ∧
    (∀ r, secondcolumn ISSPECIAL fresh lci column c = some r →
      column.lenval ≤ r.lenval ∧ lci.querylength + 1 ≤ r.lenval) ∧
    (∀ r, locali_nextLimdfsstate ISSPECIAL fresh lci column depth c other = some r →
      column.lenval ≤ r.lenval ∧ lci.querylength + 1 ≤ r.lenval) ∧
    (∀ r, locali_inplacenextLimdfsstate ISSPECIAL fresh lci column depth c = some r →
      column.lenval ≤ r.lenval ∧ lci.querylength + 1 ≤ r.lenval) ∧
    (∀ r, locali_copyLimdfsstate fresh column other lci = some r →
      column.lenval ≤ r.lenval ∧
      (other.colvalues ≠ none → lci.querylength + 1 ≤ r.lenval)) ∧
    (locali_freeLimdfsstackelem column).lenval = 0 := by
  have hsec : ∀ r, secondcolumn ISSPECIAL fresh lci column c = some r →
      column.lenval ≤ r.lenval ∧ lci.querylength + 1 ≤ r.lenval := by
    intro r h
    have := secondcolumn_lenval ISSPECIAL fresh lci column c r h
    omega
  refine ⟨?_, hsec, ?_, ?_, ?_, ?_⟩
  · unfold locali_initrootLimdfsstate
    split
    · show column.lenval ≤ lci.maxcollen
      omega
    · exact le_refl _
  · intro r h
    unfold locali_nextLimdfsstate at h
    split_ifs at h
    · obtain ⟨h1, h2, _⟩ := nextcolumn_lenval ISSPECIAL fresh lci column c other r h
      rw [nextcolumnResized_lenval] at h1
      refine ⟨?_, h2⟩
      split_ifs at h1 <;> omega
    · exact hsec r h
  · intro r h
    unfold locali_inplacenextLimdfsstate at h
    split_ifs at h
    · obtain ⟨h1, h2⟩ := inplacenextcolumn_lenval ISSPECIAL lci c column r h
      obtain ⟨r0, h0, hc, _⟩ := inplacenextcolumn_spec ISSPECIAL lci c column hwf (by
        unfold inplacenextcolumn at h
        unfold Column.wf at hwf
        split at h
        · cases h
        · rename_i cells hcv
          rw [hcv] at hwf
          simp only [] at hwf
          split_ifs at h
          omega)
      rw [h0] at h
      cases h
      exact ⟨by omega, hc.2.1⟩
    · exact hsec r h
  · intro r h
    obtain ⟨h1, h2⟩ := copy_lenval fresh column other lci r h
    refine ⟨?_, fun hb => (h2 hb).1⟩
    split_ifs at h1 <;> omega
  · unfold locali_freeLimdfsstackelem
    split
    · rfl
    · rename_i hn
      unfold Column.wf at hwf
      have : column.colvalues = none := by
        by_contra hh
        exact hn hh
      rw [this] at hwf
      exact hwf

/-- Witness of C23: the depth-1 column of scenario A as state and as source,
depth 2. -/
theorem capacity_never_shrinks_witness :
    scenarioParams.querylength + 1 ≤ scenarioParams.maxcollen ∧
    (mkColumn [(-1, -4, -1, -1), (2, -1, -1, 2), (-1, -1, -1, -1), (-1, -1, -1, -1),
      (-1, -1, -1, -1)] 1 2).wf ∧
    locali_inplacenextLimdfsstate noSpecial zeroFresh scenarioParams
      (mkColumn [(-1, -4, -1, -1), (2, -1, -1, 2), (-1, -1, -1, -1), (-1, -1, -1, -1),
        (-1, -1, -1, -1)] 1 2) 2 1 =
      some (mkColumn [(-1, -1, -1, -1), (-1, -2, -1, -1), (4, -1, -1, 4), (-1, -1, 0, 0),
        (-1, -1, -1, -1)] 2 4) ∧
    ((mkColumn [(-1, -4, -1, -1), (2, -1, -1, 2), (-1, -1, -1, -1), (-1, -1, -1, -1),
        (-1, -1, -1, -1)] 1 2).lenval ≤
      (locali_initrootLimdfsstate zeroFresh
        (mkColumn [(-1, -4, -1, -1), (2, -1, -1, 2), (-1, -1, -1, -1), (-1, -1, -1, -1),
          (-1, -1, -1, -1)] 1 2) scenarioParams).lenval ∧
    (∀ r, secondcolumn noSpecial zeroFresh scenarioParams
        (mkColumn [(-1, -4, -1, -1), (2, -1, -1, 2), (-1, -1, -1, -1), (-1, -1, -1, -1),
          (-1, -1, -1, -1)] 1 2) 1 = some r →
      (mkColumn [(-1, -4, -1, -1), (2, -1, -1, 2), (-1, -1, -1, -1), (-1, -1, -1, -1),
        (-1, -1, -1, -1)] 1 2).lenval ≤ r.lenval ∧
      scenarioParams.querylength + 1 ≤ r.lenval) ∧
    (∀ r, locali_nextLimdfsstate noSpecial zeroFresh scenarioParams
        (mkColumn [(-1, -4, -1, -1), (2, -1, -1, 2), (-1, -1, -1, -1), (-1, -1, -1, -1),
          (-1, -1, -1, -1)] 1 2) 2 1
        (mkColumn [(-1, -4, -1, -1), (2, -1, -1, 2), (-1, -1, -1, -1), (-1, -1, -1, -1),
          (-1, -1, -1, -1)] 1 2) = some r →
      (mkColumn [(-1, -4, -1, -1), (2, -1, -1, 2), (-1, -1, -1, -1), (-1, -1, -1, -1),
        (-1, -1, -1, -1)] 1 2).lenval ≤ r.lenval ∧
      scenarioParams.querylength + 1 ≤ r.lenval) ∧
    (∀ r, locali_inplacenextLimdfsstate noSpecial zeroFresh scenarioParams
        (mkColumn [(-1, -4, -1, -1), (2, -1, -1, 2), (-1, -1, -1, -1), (-1, -1, -1, -1),
          (-1, -1, -1, -1)] 1 2) 2 1 = some r →
      (mkColumn [(-1, -4, -1, -1), (2, -1, -1, 2), (-1, -1, -1, -1), (-1, -1, -1, -1),
        (-1, -1, -1, -1)] 1 2).lenval ≤ r.lenval ∧
      scenarioParams.querylength + 1 ≤ r.lenval) ∧
    (∀ r, locali_copyLimdfsstate zeroFresh
        (mkColumn [(-1, -4, -1, -1), (2, -1, -1, 2), (-1, -1, -1, -1), (-1, -1, -1, -1),
          (-1, -1, -1, -1)] 1 2)
        (mkColumn [(-1, -4, -1, -1), (2, -1, -1, 2), (-1, -1, -1, -1), (-1, -1, -1, -1),
          (-1, -1, -1, -1)] 1 2) scenarioParams = some r →
      (mkColumn [(-1, -4, -1, -1), (2, -1, -1, 2), (-1, -1, -1, -1), (-1, -1, -1, -1),
        (-1, -1, -1, -1)] 1 2).lenval ≤ r.lenval ∧
      ((mkColumn [(-1, -4, -1, -1), (2, -1, -1, 2), (-1, -1, -1, -1), (-1, -1, -1, -1),
        (-1, -1, -1, -1)] 1 2).colvalues ≠ none →
        scenarioParams.querylength + 1 ≤ r.lenval)) ∧
    (locali_freeLimdfsstackelem
      (mkColumn [(-1, -4, -1, -1), (2, -1, -1, 2), (-1, -1, -1, -1), (-1, -1, -1, -1),
        (-1, -1, -1, -1)] 1 2)).lenval = 0) :=
  ⟨by decide, by decide, by decide,
    capacity_never_shrinks noSpecial zeroFresh scenarioParams
      (mkColumn [(-1, -4, -1, -1), (2, -1, -1, 2), (-1, -1, -1, -1), (-1, -1, -1, -1),
        (-1, -1, -1, -1)] 1 2)
      (mkColumn [(-1, -4, -1, -1), (2, -1, -1, 2), (-1, -1, -1, -1), (-1, -1, -1, -1),
        (-1, -1, -1, -1)] 1 2) 2 1 (by decide) (by decide)⟩

/-- C24: for parameters `lci` returned by `locali_initdfsconstinfo`:
`querylength + 1 ≤ maxcollen` holds and `maxcollen` is not below its value
before the call; in `locali_copyLimdfsstate` the test `destcol->lenval <
querylength + 1` is false after the resize step for every destination, and the
test `srccol->lenval < querylength + 1` is false for every source with a buffer
that the functions of the file produced under `lci`, so that the copy between
two such states returns; in `nextcolumn` both capacity assertions hold for every
such parent and every destination, and the call with a produced destination
returns. -/
theorem capacity_faults_unreachable (ISSPECIAL : Uchar → Bool)
    (fresh : Nat → Matrixvalue) (lci0 : Limdfsconstinfo) (alphasize : Nat)
    (matchscore mismatchscore gapstart gapextend : Int) (threshold : Nat)
    (query : List Uchar) (querylength : Nat) (lci : Limdfsconstinfo)
    (dest src : Column) (c : Uchar)
    (hinit : lci = locali_initdfsconstinfo lci0 alphasize matchscore mismatchscore
      gapstart gapextend threshold query querylength)
    (hd : EngineState lci dest) (hs : EngineState lci src)
    (hb : src.colvalues ≠ none) :
    lci.querylength + 1 ≤ lci.maxcollen ∧ lci0.maxcollen ≤ lci.maxcollen ∧
    (∀ d, ¬ (copyResized fresh d lci).lenval < lci.querylength + 1) ∧
    ¬ src.lenval < lci.querylength + 1 ∧
    (∃ r, locali_copyLimdfsstate fresh dest src lci = some r) ∧
    src.lenval ≥ lci.querylength + 1 ∧
    (∀ d, (nextcolumnResized fresh d lci).lenval ≥ lci.querylength + 1) ∧
    (∃ r, nextcolumn ISSPECIAL fresh lci dest c src = some r) := by
  have hcap : lci.querylength + 1 ≤ lci.maxcollen := by
    rw [hinit]
    exact initdfsconstinfo_cap _ _ _ _ _ _ _ _ _
  have hgrow : lci0.maxcollen ≤ lci.maxcollen := by
    rw [hinit]
    unfold locali_initdfsconstinfo
    simp only []
    split
    · rename_i h
      exact Nat.le_of_lt h
    · exact le_refl _
  have hcd := EngineState_CapOk lci hcap dest hd
  have hcs := EngineState_CapOk lci hcap src hs
  have hsl := hcs.2 hb
  obtain ⟨r1, hr1, _⟩ := copy_spec fresh dest src lci hcap hcd.1 hcs.1 hsl
  obtain ⟨r2, hr2, _⟩ :=
    nextcolumn_spec ISSPECIAL fresh lci dest c src hcd.1 hcs.1 hsl (Or.inr hcap)
  refine ⟨hcap, hgrow, ?_, by omega, ⟨r1, hr1⟩, hsl, ?_, ⟨r2, hr2⟩⟩
  · intro d
    rw [copyResized_lenval]
    omega
  · intro d
    rw [nextcolumnResized_lenval]
    split <;> omega

/-- Witness of C24: the scenario parameters, a new stack element as
destination and the depth-1 column of scenario A, produced from the root in
place, as source. -/
theorem capacity_faults_unreachable_witness :
    EngineState scenarioParams (locali_initLimdfsstackelem rawColumn) ∧
    EngineState scenarioParams
      (mkColumn [(-1, -4, -1, -1), (2, -1, -1, 2), (-1, -1, -1, -1), (-1, -1, -1, -1),
        (-1, -1, -1, -1)] 1 2) ∧
    scenarioParams.querylength + 1 ≤ scenarioParams.maxcollen ∧
    (0 : Nat) ≤ scenarioParams.maxcollen ∧
    (∀ d, ¬ (copyResized zeroFresh d scenarioParams).lenval <
      scenarioParams.querylength + 1) ∧
    ¬ (mkColumn [(-1, -4, -1, -1), (2, -1, -1, 2), (-1, -1, -1, -1), (-1, -1, -1, -1),
        (-1, -1, -1, -1)] 1 2).lenval < scenarioParams.querylength + 1 ∧
    (∃ r, locali_copyLimdfsstate zeroFresh (locali_initLimdfsstackelem rawColumn)
      (mkColumn [(-1, -4, -1, -1), (2, -1, -1, 2), (-1, -1, -1, -1), (-1, -1, -1, -1),
        (-1, -1, -1, -1)] 1 2) scenarioParams = some r) ∧
    (mkColumn [(-1, -4, -1, -1), (2, -1, -1, 2), (-1, -1, -1, -1), (-1, -1, -1, -1),
        (-1, -1, -1, -1)] 1 2).lenval ≥ scenarioParams.querylength + 1 ∧
    (∀ d, (nextcolumnResized zeroFresh d scenarioParams).lenval ≥
      scenarioParams.querylength + 1) ∧
    (∃ r, nextcolumn noSpecial zeroFresh scenarioParams
      (locali_initLimdfsstackelem rawColumn) 1
      (mkColumn [(-1, -4, -1, -1), (2, -1, -1, 2), (-1, -1, -1, -1), (-1, -1, -1, -1),
        (-1, -1, -1, -1)] 1 2) = some r) :=
  have hnew : EngineState scenarioParams (locali_initLimdfsstackelem rawColumn) :=
    EngineState.new rawColumn
  have hsrc : EngineState scenarioParams
      (mkColumn [(-1, -4, -1, -1), (2, -1, -1, 2), (-1, -1, -1, -1), (-1, -1, -1, -1),
        (-1, -1, -1, -1)] 1 2) :=
    EngineState.inplace noSpecial zeroFresh _ _ 1 0
      (EngineState.root zeroFresh _ hnew) (by decide)
  ⟨hnew, hsrc,
    capacity_faults_unreachable noSpecial zeroFresh
      (locali_allocatedfsconstinfo ⟨⟨0, 0, 0, 0⟩, [], 0, 0, 0⟩ 4) 4 2 (-1) (-3) (-1) 4
      [0, 1, 2, 3] 4 scenarioParams (locali_initLimdfsstackelem rawColumn)
      (mkColumn [(-1, -4, -1, -1), (2, -1, -1, 2), (-1, -1, -1, -1), (-1, -1, -1, -1),
        (-1, -1, -1, -1)] 1 2) 1 rfl hnew hsrc (by decide)⟩

/-! ## Releasing a state -/

/-- C25: `locali_freeLimdfsstackelem` leaves a state without buffer, with
`lenval = 0` when the state was consistent; applying it twice is applying it
once; it leaves a state without buffer unchanged, in particular a state fresh
from `locali_initLimdfsstackelem`. -/
theorem free_idempotent (column : Column) :
    (locali_freeLimdfsstackelem column).colvalues = none ∧
    (column.wf → (locali_freeLimdfsstackelem column).lenval = 0) ∧
    locali_freeLimdfsstackelem (locali_freeLimdfsstackelem column) =
      locali_freeLimdfsstackelem column ∧
    (column.colvalues = none → locali_freeLimdfsstackelem column = column) ∧
    locali_freeLimdfsstackelem (locali_initLimdfsstackelem column) =
      locali_initLimdfsstackelem column := by
  have hnone : ∀ c : Column, c.colvalues = none → locali_freeLimdfsstackelem c = c := by
    intro c hc
    unfold locali_freeLimdfsstackelem
    rw [if_neg (fun h => h hc)]
  have hcv : (locali_freeLimdfsstackelem column).colvalues = none := by
    unfold locali_freeLimdfsstackelem
    split
    · rfl
    · rename_i h
      exact not_not.mp h
  refine ⟨hcv, ?_, hnone _ hcv, hnone column, hnone _ rfl⟩
  intro hw
  unfold locali_freeLimdfsstackelem
  split
  · rfl
  · rename_i h
    have hn : column.colvalues = none := not_not.mp h
    unfold Column.wf at hw
    rw [hn] at hw
    exact hw

/-- Witness of C25: the depth-1 column of the query `[0]` is released. -/
theorem free_idempotent_witness :
    locali_freeLimdfsstackelem (mkColumn [(-1, -4, -1, -1), (2, -1, -1, 2)] 1 2) =
        ⟨none, 0, 1, 2⟩ ∧
    locali_freeLimdfsstackelem
        (locali_freeLimdfsstackelem (mkColumn [(-1, -4, -1, -1), (2, -1, -1, 2)] 1 2)) =
      locali_freeLimdfsstackelem (mkColumn [(-1, -4, -1, -1), (2, -1, -1, 2)] 1 2) :=
  ⟨by decide,
    (free_idempotent (mkColumn [(-1, -4, -1, -1), (2, -1, -1, 2)] 1 2)).2.2.1⟩

/-! ## What the child depends on -/

/-- C26: for every parameters, depth, character and parent, the columns that
`locali_nextLimdfsstate` returns for two consistent destinations (and two
allocators) have the same cells `0..querylength`, the same `maxvalue` and the
same `pprefixlen`. -/
theorem advance_deterministic (ISSPECIAL : Uchar → Bool)
    (fresh1 fresh2 : Nat → Matrixvalue) (lci : Limdfsconstinfo) (depth : Nat)
    (c : Uchar) (parent dst1 dst2 : Column)
    (hcap : lci.querylength + 1 ≤ lci.maxcollen) (hw1 : dst1.wf) (hw2 : dst2.wf)
    (hp : depth > 1 → parent.wf ∧ lci.querylength + 1 ≤ parent.lenval) :
    ∃ r1 r2,
      locali_nextLimdfsstate ISSPECIAL fresh1 lci dst1 depth c parent = some r1 ∧
      locali_nextLimdfsstate ISSPECIAL fresh2 lci dst2 depth c parent = some r2 ∧
      sameActive lci r1 r2 := by
  by_cases hd : depth > 1
  · obtain ⟨hwp, hlp⟩ := hp hd
    obtain ⟨r1, h1, hc1, _⟩ :=
      nextcolumn_spec ISSPECIAL fresh1 lci dst1 c parent hw1 hwp hlp (Or.inr hcap)
    obtain ⟨r2, h2, hc2, _⟩ :=
      nextcolumn_spec ISSPECIAL fresh2 lci dst2 c parent hw2 hwp hlp (Or.inr hcap)
    refine ⟨r1, r2, ?_, ?_, IsChild_sameActive lci _ _ _ r1 r2 hc1 hc2 (fun _ _ => rfl)⟩
    · unfold locali_nextLimdfsstate
      rw [if_pos hd, h1]
    · unfold locali_nextLimdfsstate
      rw [if_pos hd, h2]
  · obtain ⟨r1, h1, hc1, _⟩ := secondcolumn_spec ISSPECIAL fresh1 lci dst1 c hw1 hcap
    obtain ⟨r2, h2, hc2, _⟩ := secondcolumn_spec ISSPECIAL fresh2 lci dst2 c hw2 hcap
    refine ⟨r1, r2, ?_, ?_, IsChild_sameActive lci _ _ _ r1 r2 hc1 hc2 (fun _ _ => rfl)⟩
    · unfold locali_nextLimdfsstate
      rw [if_neg hd, h1]
    · unfold locali_nextLimdfsstate
      rw [if_neg hd, h2]

/-- Witness of C26: the depth-1 column of scenario A as parent, the character
`C` at depth 2, a destination without buffer and a destination of six cells
with other contents. -/
theorem advance_deterministic_witness :
    ∃ r1 r2,
      locali_nextLimdfsstate noSpecial zeroFresh scenarioParams rawColumn 2 1
        (mkColumn [(-1, -4, -1, -1), (2, -1, -1, 2), (-1, -1, -1, -1), (-1, -1, -1, -1),
          (-1, -1, -1, -1)] 1 2) = some r1 ∧
      locali_nextLimdfsstate noSpecial (fun _ => ⟨9, 9, 9, 9⟩) scenarioParams
        (mkColumn [(5, 5, 5, 5), (5, 5, 5, 5), (5, 5, 5, 5), (5, 5, 5, 5), (5, 5, 5, 5),
          (5, 5, 5, 5)] 3 7) 2 1
        (mkColumn [(-1, -4, -1, -1), (2, -1, -1, 2), (-1, -1, -1, -1), (-1, -1, -1, -1),
          (-1, -1, -1, -1)] 1 2) = some r2 ∧
      sameActive scenarioParams r1 r2 :=
  advance_deterministic noSpecial zeroFresh (fun _ => ⟨9, 9, 9, 9⟩) scenarioParams 2 1
    (mkColumn [(-1, -4, -1, -1), (2, -1, -1, 2), (-1, -1, -1, -1), (-1, -1, -1, -1),
      (-1, -1, -1, -1)] 1 2) rawColumn
    (mkColumn [(5, 5, 5, 5), (5, 5, 5, 5), (5, 5, 5, 5), (5, 5, 5, 5), (5, 5, 5, 5),
      (5, 5, 5, 5)] 3 7)
    (by decide) (by decide) (by decide) (fun _ => ⟨by decide, by decide⟩)

/-! ## The best score of a cell -/

theorem max3_eq_max (a b c : Int) : max3 a b c = max (max a b) c := by
  unfold max3
  simp only []
  split_ifs <;> omega

theorem speccell_best (ISSPECIAL : Uchar → Bool) (lci : Limdfsconstinfo)
    (dbchar : Uchar) (P : List Matrixvalue) (nw : Int) (j : Nat) :
    (speccell ISSPECIAL lci dbchar P nw j).bestcell =
      max (max (speccell ISSPECIAL lci dbchar P nw j).repcell
        (speccell ISSPECIAL lci dbchar P nw j).inscell)
        (speccell ISSPECIAL lci dbchar P nw j).delcell := by
  cases j with
  | zero => exact max3_eq_max _ _ _
  | succ k => exact max3_eq_max _ _ _

theorem secondcell_best (ISSPECIAL : Uchar → Bool) (lci : Limdfsconstinfo)
    (dbchar : Uchar) (hv : lci.scorevalues.valid)
    (hf : lci.scorevalues.gapfits) (j : Nat) :
    (secondcell ISSPECIAL lci dbchar j).bestcell =
      max (max (secondcell ISSPECIAL lci dbchar j).repcell
        (secondcell ISSPECIAL lci dbchar j).inscell)
        (secondcell ISSPECIAL lci dbchar j).delcell := by
  obtain ⟨hsum, hle⟩ := gapfits_sum lci hv hf
  cases j with
  | zero =>
    show MINUSINFTY = max (max MINUSINFTY
      (addLong lci.scorevalues.gapstart lci.scorevalues.gapextend)) MINUSINFTY
    unfold MINUSINFTY
    omega
  | succ k =>
    show max2 MINUSINFTY (REPLACEMENTSCORE ISSPECIAL lci dbchar (lci.query.getD k 0)) =
      max (max (REPLACEMENTSCORE ISSPECIAL lci dbchar (lci.query.getD k 0)) MINUSINFTY)
        MINUSINFTY
    rw [max2_eq_max]
    omega

theorem applyExt_best (ISSPECIAL : Uchar → Bool) (fresh : Nat → Matrixvalue)
    (lci : Limdfsconstinfo) (depth : Nat) (col : Column) (e : Ext)
    (hv : lci.scorevalues.valid)
    (hf : lci.scorevalues.gapfits) (hcap : lci.querylength + 1 ≤ lci.maxcollen)
    (he : e.dstWf) (hwf : col.wf)
    (hlen : depth > 1 → lci.querylength + 1 ≤ col.lenval) :
    ∃ r, applyExt ISSPECIAL fresh lci depth col e = some r ∧
      ∀ i, i ≤ lci.querylength →
        (r.cell i).bestcell =
          max (max (r.cell i).repcell (r.cell i).inscell) (r.cell i).delcell := by
  by_cases hd : depth > 1
  · cases e with
    | branch dst ch =>
      obtain ⟨r, h1, ⟨_, _, hc, _⟩, _⟩ :=
        nextcolumn_spec ISSPECIAL fresh lci dst ch col he hwf (hlen hd) (Or.inr hcap)
      refine ⟨r, ?_, fun i hi => ?_⟩
      · show locali_nextLimdfsstate ISSPECIAL fresh lci dst depth ch col = some r
        unfold locali_nextLimdfsstate
        rw [if_pos hd, h1]
      · rw [hc i hi]
        exact speccell_best ISSPECIAL lci ch _ _ i
    | inplace ch =>
      obtain ⟨r, h1, ⟨_, _, hc, _⟩, _⟩ :=
        inplacenextcolumn_spec ISSPECIAL lci ch col hwf (hlen hd)
      refine ⟨r, ?_, fun i hi => ?_⟩
      · show locali_inplacenextLimdfsstate ISSPECIAL fresh lci col depth ch = some r
        unfold locali_inplacenextLimdfsstate
        rw [if_pos hd, h1]
      · rw [hc i hi]
        exact speccell_best ISSPECIAL lci ch _ _ i
  · obtain ⟨r, h1, _, _, hc, _⟩ :=
      applyExt_first ISSPECIAL fresh lci depth col e hd hcap he hwf
    refine ⟨r, h1, fun i hi => ?_⟩
    rw [hc i hi]
    exact secondcell_best ISSPECIAL lci e.char hv hf i

/-! ## Positive scores are scores of alignments -/

theorem runAlignment_append (ISSPECIAL : Uchar → Bool) (lci : Limdfsconstinfo)
    (w : List Uchar) (k0 : Nat) (a : List AlignOp) (op : AlignOp) :
    runAlignment ISSPECIAL lci w k0 (a ++ [op]) =
      alignStep ISSPECIAL lci w (runAlignment ISSPECIAL lci w k0 a) op := by
  unfold runAlignment
  rw [List.foldl_append]
  rfl

theorem Reach_sub (ISSPECIAL : Uchar → Bool) (lci : Limdfsconstinfo) (w : List Uchar)
    (d i : Nat) (last : AlignOp) (s : Int) (h : Reach ISSPECIAL lci w d i last s) :
    Reach ISSPECIAL lci w (d + 1) (i + 1) AlignOp.sub
      (s + substScore ISSPECIAL lci (w.getD d 0) (lci.query.getD i 0)) := by
  obtain ⟨k0, a, hk, ha⟩ := h
  refine ⟨k0, a ++ [AlignOp.sub], by omega, ?_⟩
  rw [runAlignment_append, ha]
  rfl

theorem Reach_ins_extend (ISSPECIAL : Uchar → Bool) (lci : Limdfsconstinfo)
    (w : List Uchar) (d i : Nat) (s : Int)
    (h : Reach ISSPECIAL lci w d i AlignOp.ins s) :
    Reach ISSPECIAL lci w (d + 1) i AlignOp.ins (s + lci.scorevalues.gapextend) := by
  obtain ⟨k0, a, hk, ha⟩ := h
  refine ⟨k0, a ++ [AlignOp.ins], hk, ?_⟩
  rw [runAlignment_append, ha]
  rfl

theorem Reach_ins_open (ISSPECIAL : Uchar → Bool) (lci : Limdfsconstinfo)
    (w : List Uchar) (d i : Nat) (last : AlignOp) (s : Int)
    (h : Reach ISSPECIAL lci w d i last s) (hl : last ≠ AlignOp.ins) :
    Reach ISSPECIAL lci w (d + 1) i AlignOp.ins
      (s + lci.scorevalues.gapstart + lci.scorevalues.gapextend) := by
  obtain ⟨k0, a, hk, ha⟩ := h
  refine ⟨k0, a ++ [AlignOp.ins], hk, ?_⟩
  rw [runAlignment_append, ha]
  unfold alignStep
  simp only []
  rw [if_neg (by simpa using hl), add_assoc]

theorem Reach_del_extend (ISSPECIAL : Uchar → Bool) (lci : Limdfsconstinfo)
    (w : List Uchar) (d i : Nat) (s : Int)
    (h : Reach ISSPECIAL lci w d i AlignOp.del s) :
    Reach ISSPECIAL lci w d (i + 1) AlignOp.del (s + lci.scorevalues.gapextend) := by
  obtain ⟨k0, a, hk, ha⟩ := h
  refine ⟨k0, a ++ [AlignOp.del], by omega, ?_⟩
  rw [runAlignment_append, ha]
  rfl

theorem Reach_del_open (ISSPECIAL : Uchar → Bool) (lci : Limdfsconstinfo)
    (w : List Uchar) (d i : Nat) (last : AlignOp) (s : Int)
    (h : Reach ISSPECIAL lci w d i last s) (hl : last ≠ AlignOp.del) :
    Reach ISSPECIAL lci w d (i + 1) AlignOp.del
      (s + lci.scorevalues.gapstart + lci.scorevalues.gapextend) := by
  obtain ⟨k0, a, hk, ha⟩ := h
  refine ⟨k0, a ++ [AlignOp.del], by omega, ?_⟩
  rw [runAlignment_append, ha]
  unfold alignStep
  simp only []
  rw [if_neg (by simpa using hl), add_assoc]

theorem gapscore_pos_cases (lci : Limdfsconstinfo) (g b : Int)
    (hv : lci.scorevalues.valid) (hf : lci.scorevalues.gapfits)
    (hgL : g ≤ LONG_MAX) (hbL : b ≤ LONG_MAX) (h : gapscore lci g b > 0) :
    (g > 0 ∧ gapscore lci g b = g + lci.scorevalues.gapextend) ∨
    (b > 0 ∧ g < b ∧
      gapscore lci g b = b + lci.scorevalues.gapstart + lci.scorevalues.gapextend) := by
  have hgs : lci.scorevalues.gapstart < 0 := hv.2.2.1
  unfold gapscore at h ⊢
  by_cases hg : g > 0
  · have he := addLong_gapextend lci hv hf g hg hgL
    by_cases hb : b > 0
    · have ho := addLong_gapopen lci hv hf b hb hbL
      rw [if_pos hg, if_pos hb, max2_eq_max, he, ho] at h ⊢
      by_cases hc : g + lci.scorevalues.gapextend <
          b + lci.scorevalues.gapstart + lci.scorevalues.gapextend
      · exact Or.inr ⟨hb, by omega, by omega⟩
      · exact Or.inl ⟨hg, by omega⟩
    · rw [if_pos hg, if_neg hb] at h ⊢
      exact Or.inl ⟨hg, he⟩
  · by_cases hb : b > 0
    · have ho := addLong_gapopen lci hv hf b hb hbL
      rw [if_neg hg, if_pos hb] at h ⊢
      exact Or.inr ⟨hb, by omega, ho⟩
    · rw [if_neg hg, if_neg hb] at h
      unfold MINUSINFTY at h
      omega

theorem CellReal_best (ISSPECIAL : Uchar → Bool) (lci : Limdfsconstinfo)
    (w : List Uchar) (d i : Nat) (c : Matrixvalue)
    (h : CellReal ISSPECIAL lci w d i c) (hb : c.bestcell > 0) :
    ∃ last, Reach ISSPECIAL lci w d i last c.bestcell := by
  obtain ⟨hr, hi, hd, hm⟩ := h
  by_cases h1 : c.bestcell = c.repcell
  · exact ⟨AlignOp.sub, by rw [h1]; exact hr (by omega)⟩
  · by_cases h2 : c.bestcell = c.inscell
    · exact ⟨AlignOp.ins, by rw [h2]; exact hi (by omega)⟩
    · have h3 : c.bestcell = c.delcell := by omega
      exact ⟨AlignOp.del, by rw [h3]; exact hd (by omega)⟩

theorem CellReal_gap_ins (ISSPECIAL : Uchar → Bool) (lci : Limdfsconstinfo)
    (w : List Uchar) (d i : Nat) (c : Matrixvalue)
    (hv : lci.scorevalues.valid) (hf : lci.scorevalues.gapfits) (hc : CellLong c)
    (h : CellReal ISSPECIAL lci w d i c)
    (hpos : gapscore lci c.inscell c.bestcell > 0) :
    Reach ISSPECIAL lci w (d + 1) i AlignOp.ins (gapscore lci c.inscell c.bestcell) := by
  obtain ⟨hr, hi, hd, hm⟩ := h
  rcases gapscore_pos_cases lci _ _ hv hf hc.2.1 hc.2.2.2 hpos with
    ⟨hg, he⟩ | ⟨hb, hlt, he⟩
  · rw [he]
    exact Reach_ins_extend ISSPECIAL lci w d i _ (hi hg)
  · rw [he]
    by_cases h1 : c.bestcell = c.repcell
    · exact Reach_ins_open ISSPECIAL lci w d i AlignOp.sub _
        (by rw [h1]; exact hr (by omega)) (by decide)
    · have h3 : c.bestcell = c.delcell := by omega
      exact Reach_ins_open ISSPECIAL lci w d i AlignOp.del _
        (by rw [h3]; exact hd (by omega)) (by decide)

theorem CellReal_gap_del (ISSPECIAL : Uchar → Bool) (lci : Limdfsconstinfo)
    (w : List Uchar) (d i : Nat) (c : Matrixvalue)
    (hv : lci.scorevalues.valid) (hf : lci.scorevalues.gapfits) (hc : CellLong c)
    (h : CellReal ISSPECIAL lci w d i c)
    (hpos : gapscore lci c.delcell c.bestcell > 0) :
    Reach ISSPECIAL lci w d (i + 1) AlignOp.del (gapscore lci c.delcell c.bestcell) := by
  obtain ⟨hr, hi, hd, hm⟩ := h
  rcases gapscore_pos_cases lci _ _ hv hf hc.2.2.1 hc.2.2.2 hpos with
    ⟨hg, he⟩ | ⟨hb, hlt, he⟩
  · rw [he]
    exact Reach_del_extend ISSPECIAL lci w d i _ (hd hg)
  · rw [he]
    by_cases h1 : c.bestcell = c.repcell
    · exact Reach_del_open ISSPECIAL lci w d i AlignOp.sub _
        (by rw [h1]; exact hr (by omega)) (by decide)
    · have h3 : c.bestcell = c.inscell := by omega
      exact Reach_del_open ISSPECIAL lci w d i AlignOp.ins _
        (by rw [h3]; exact hi (by omega)) (by decide)

theorem secondcell_CellReal (ISSPECIAL : Uchar → Bool) (lci : Limdfsconstinfo)
    (w : List Uchar) (hv : lci.scorevalues.valid)
    (hf : lci.scorevalues.gapfits) (i : Nat) :
    CellReal ISSPECIAL lci w 1 i (secondcell ISSPECIAL lci (w.getD 0 0) i) := by
  have hbest := secondcell_best ISSPECIAL lci (w.getD 0 0) hv hf i
  obtain ⟨hsum, hle⟩ := gapfits_sum lci hv hf
  cases i with
  | zero =>
    refine ⟨fun h => ?_, fun h => ?_, fun h => ?_, hbest⟩
    · exact absurd h (by show ¬ MINUSINFTY > 0; unfold MINUSINFTY; omega)
    · exact absurd h (by
        show ¬ addLong lci.scorevalues.gapstart lci.scorevalues.gapextend > 0
        omega)
    · exact absurd h (by show ¬ MINUSINFTY > 0; unfold MINUSINFTY; omega)
  | succ k =>
    refine ⟨fun _ => ?_, fun h => ?_, fun h => ?_, hbest⟩
    · refine ⟨k, [AlignOp.sub], by omega, ?_⟩
      show (⟨0 + 1, k + 1, some AlignOp.sub,
        0 + substScore ISSPECIAL lci (w.getD 0 0) (lci.query.getD k 0)⟩ : AlignState) = _
      rw [← REPLACEMENTSCORE_eq_substScore, Nat.zero_add, Int.zero_add]
      rfl
    · exact absurd h (by show ¬ MINUSINFTY > 0; unfold MINUSINFTY; omega)
    · exact absurd h (by show ¬ MINUSINFTY > 0; unfold MINUSINFTY; omega)

theorem speccell_CellReal (ISSPECIAL : Uchar → Bool) (lci : Limdfsconstinfo)
    (w : List Uchar) (d : Nat) (P : List Matrixvalue) (n : Nat)
    (hv : lci.scorevalues.valid)
    (hf : lci.scorevalues.gapfits) (hL : lci.scorevalues.isLong)
    (hP : ∀ i, i ≤ n → CellReal ISSPECIAL lci w d i (cellAt P i))
    (hPL : ∀ i, i ≤ n → CellLong (cellAt P i))
    (hi0 : (cellAt P 0).inscell ≤ 0) (hb0 : (cellAt P 0).bestcell ≤ 0)
    (i : Nat) (hi : i ≤ n) :
    CellReal ISSPECIAL lci w (d + 1) i
      (speccell ISSPECIAL lci (w.getD d 0) P MINUSINFTY i) := by
  have hbest := speccell_best ISSPECIAL lci (w.getD d 0) P MINUSINFTY i
  induction i with
  | zero =>
    have hc : speccell ISSPECIAL lci (w.getD d 0) P MINUSINFTY 0 =
        ⟨MINUSINFTY, MINUSINFTY, MINUSINFTY, MINUSINFTY⟩ := firstcell_dead lci _ hi0 hb0
    rw [hc]
    refine ⟨fun h => ?_, fun h => ?_, fun h => ?_, rfl⟩
    · exact absurd h (by show ¬ MINUSINFTY > 0; unfold MINUSINFTY; omega)
    · exact absurd h (by show ¬ MINUSINFTY > 0; unfold MINUSINFTY; omega)
    · exact absurd h (by show ¬ MINUSINFTY > 0; unfold MINUSINFTY; omega)
  | succ k ih =>
    have ihk := ih (by omega) (speccell_best ISSPECIAL lci (w.getD d 0) P MINUSINFTY k)
    refine ⟨fun h => ?_, fun h => ?_, fun h => ?_, hbest⟩
    · -- the substitution
      have hrep : (speccell ISSPECIAL lci (w.getD d 0) P MINUSINFTY (k + 1)).repcell =
          if (if k = 0 then MINUSINFTY else (cellAt P k).bestcell) > 0 then
            addLong (if k = 0 then MINUSINFTY else (cellAt P k).bestcell)
              (REPLACEMENTSCORE ISSPECIAL lci (w.getD d 0) (lci.query.getD k 0))
          else MINUSINFTY := rfl
      rw [hrep] at h ⊢
      by_cases hk : k = 0
      · rw [if_pos hk, if_neg (by unfold MINUSINFTY; omega)] at h
        unfold MINUSINFTY at h
        omega
      · rw [if_neg hk] at h ⊢
        by_cases hpos : (cellAt P k).bestcell > 0
        · rw [if_pos hpos] at h ⊢
          have hR := REPLACEMENTSCORE_long ISSPECIAL lci hv hL (w.getD d 0)
            (lci.query.getD k 0)
          have hex : addLong (cellAt P k).bestcell
              (REPLACEMENTSCORE ISSPECIAL lci (w.getD d 0) (lci.query.getD k 0)) =
              (cellAt P k).bestcell +
                REPLACEMENTSCORE ISSPECIAL lci (w.getD d 0) (lci.query.getD k 0) := by
            rcases addLong_cases _ _ (hPL k (by omega)).2.2.2 hR.2
              (by have := hR.1; unfold LONG_MIN at this ⊢; omega) with he | ⟨_, hneg⟩
            · exact he
            · omega
          rw [hex, REPLACEMENTSCORE_eq_substScore]
          obtain ⟨last, hl⟩ := CellReal_best ISSPECIAL lci w d k _ (hP k (by omega)) hpos
          exact Reach_sub ISSPECIAL lci w d k last _ hl
        · rw [if_neg hpos] at h
          unfold MINUSINFTY at h
          omega
    · -- the insertion
      have hins : (speccell ISSPECIAL lci (w.getD d 0) P MINUSINFTY (k + 1)).inscell =
          gapscore lci (cellAt P (k + 1)).inscell (cellAt P (k + 1)).bestcell := rfl
      rw [hins] at h ⊢
      exact CellReal_gap_ins ISSPECIAL lci w d (k + 1) _ hv hf (hPL (k + 1) hi)
        (hP (k + 1) hi) h
    · -- the deletion
      have hdel : (speccell ISSPECIAL lci (w.getD d 0) P MINUSINFTY (k + 1)).delcell =
          gapscore lci (speccell ISSPECIAL lci (w.getD d 0) P MINUSINFTY k).delcell
            (speccell ISSPECIAL lci (w.getD d 0) P MINUSINFTY k).bestcell := rfl
      rw [hdel] at h ⊢
      exact CellReal_gap_del ISSPECIAL lci w (d + 1) k _ hv hf
        (speccell_long ISSPECIAL lci _ _ _ k) ihk h

theorem applyExt_ChainInv (ISSPECIAL : Uchar → Bool) (fresh : Nat → Matrixvalue)
    (lci : Limdfsconstinfo) (depth : Nat) (col : Column) (e : Ext) (r : Column)
    (hv : lci.scorevalues.valid)
    (hf : lci.scorevalues.gapfits) (hcap : lci.querylength + 1 ≤ lci.maxcollen)
    (he : e.dstWf) (hwf : col.wf) (hinv : depth > 1 → ChainInv lci col)
    (hr : applyExt ISSPECIAL fresh lci depth col e = some r) : ChainInv lci r := by
  obtain ⟨r1, _, h1, _, hi1, _, _⟩ :=
    applyExt_StartOk ISSPECIAL fresh lci depth col col e e hv hf hcap he he rfl
      ⟨sameActive_refl lci col, hwf, hwf, fun h => ⟨hinv h, hinv h⟩⟩
  rw [hr] at h1
  cases h1
  exact hi1

theorem extend_CellReal (ISSPECIAL : Uchar → Bool) (fresh : Nat → Matrixvalue)
    (lci : Limdfsconstinfo) (raw : Column) (w : List Uchar)
    (hv : lci.scorevalues.valid)
    (hf : lci.scorevalues.gapfits) (hL : lci.scorevalues.isLong)
    (hcap : lci.querylength + 1 ≤ lci.maxcollen) (s : List Ext) :
    s ≠ [] → (∀ e ∈ s, Ext.dstWf e) →
    (∀ n, n < s.length → (s.map Ext.char).getD n 0 = w.getD n 0) →
    ∃ col, extend ISSPECIAL fresh lci 1 (rootstate fresh lci raw) s = some col ∧
      ChainInv lci col ∧
      ∀ i, i ≤ lci.querylength → CellLong (col.cell i) ∧
        CellReal ISSPECIAL lci w s.length i (col.cell i) := by
  induction s using List.reverseRecOn with
  | nil => intro h; exact absurd rfl h
  | append_singleton t e ih =>
    intro _ hw hch
    have hwe : e.dstWf := hw e (by simp)
    have hwt : ∀ x ∈ t, Ext.dstWf x := fun x hx => hw x (by simp [hx])
    have hce : e.char = w.getD t.length 0 := by
      have := hch t.length (by simp)
      simpa using this
    have hlen : (t ++ [e]).length = t.length + 1 := by simp
    by_cases ht : t = []
    · subst ht
      obtain ⟨r, hr, hc⟩ := applyExt_first ISSPECIAL fresh lci 1
        (rootstate fresh lci raw) e (by omega) hcap hwe (rootstate_wf fresh lci raw)
      have hinv := applyExt_ChainInv ISSPECIAL fresh lci 1 (rootstate fresh lci raw) e r
        hv hf hcap hwe (rootstate_wf fresh lci raw) (fun h => absurd h (by omega)) hr
      refine ⟨r, ?_, hinv, fun i hi => ?_⟩
      · show (applyExt ISSPECIAL fresh lci 1 (rootstate fresh lci raw) e).bind _ = some r
        rw [hr]
        rfl
      · rw [hc.2.2.1 i hi, hce]
        exact ⟨secondcell_long ISSPECIAL lci _ hv hL i,
          secondcell_CellReal ISSPECIAL lci w hv hf i⟩
    · have hcht : ∀ n, n < t.length → (t.map Ext.char).getD n 0 = w.getD n 0 := by
        intro n hn
        have := hch n (by rw [hlen]; omega)
        rw [List.map_append, List.getD_append _ _ _ _ (by simpa using hn)] at this
        exact this
      obtain ⟨col, hcol, hinv, hreal⟩ := ih ht hwt hcht
      have hpos : 0 < t.length := List.length_pos.mpr ht
      obtain ⟨r, hr, hc⟩ := applyExt_next ISSPECIAL fresh lci (1 + t.length) col e
        (by omega) hcap hwe hinv.1 hinv.2.1 hinv.2.2.1 hinv.2.2.2.1
      have hinv2 := applyExt_ChainInv ISSPECIAL fresh lci (1 + t.length) col e r
        hv hf hcap hwe hinv.1 (fun _ => hinv) hr
      refine ⟨r, ?_, hinv2, fun i hi => ?_⟩
      · rw [extend_append, hcol]
        show (applyExt ISSPECIAL fresh lci (1 + t.length) col e).bind _ = some r
        rw [hr]
        rfl
      · rw [hc.2.2.1 i hi, hce, hlen]
        exact ⟨speccell_long ISSPECIAL lci _ _ _ i,
          speccell_CellReal ISSPECIAL lci w t.length _ lci.querylength hv hf hL
            (fun n hn => (hreal n hn).2) (fun n hn => (hreal n hn).1)
            hinv.2.2.1 hinv.2.2.2.1 i hi⟩

theorem foldl_alignStep_querypos_le (ISSPECIAL : Uchar → Bool) (lci : Limdfsconstinfo)
    (w : List Uchar) (a : List AlignOp) :
    ∀ st : AlignState,
      st.querypos ≤ (a.foldl (alignStep ISSPECIAL lci w) st).querypos := by
  induction a with
  | nil => intro st; exact le_refl _
  | cons op t ih =>
    intro st
    have h := ih (alignStep ISSPECIAL lci w st op)
    rw [List.foldl_cons]
    cases op with
    | sub =>
      have h1 : st.querypos + 1 ≤ _ := h
      omega
    | ins => exact h
    | del =>
      have h1 : st.querypos + 1 ≤ _ := h
      omega

/-- An alignment that does not advance in the query consists of insertions
only, and consumes as many path characters as it has steps. -/
theorem foldl_alignStep_only_ins (ISSPECIAL : Uchar → Bool) (lci : Limdfsconstinfo)
    (w : List Uchar) (a : List AlignOp) :
    ∀ st : AlignState,
      (a.foldl (alignStep ISSPECIAL lci w) st).querypos = st.querypos →
      a = List.replicate a.length AlignOp.ins ∧
        (a.foldl (alignStep ISSPECIAL lci w) st).pathpos = st.pathpos + a.length := by
  induction a with
  | nil => intro _ _; exact ⟨rfl, rfl⟩
  | cons op t ih =>
    intro st h
    rw [List.foldl_cons] at h ⊢
    have hle := foldl_alignStep_querypos_le ISSPECIAL lci w t
      (alignStep ISSPECIAL lci w st op)
    cases op with
    | sub =>
      have h1 : st.querypos + 1 ≤ _ := hle
      omega
    | del =>
      have h1 : st.querypos + 1 ≤ _ := hle
      omega
    | ins =>
      obtain ⟨h2, h3⟩ := ih (alignStep ISSPECIAL lci w st AlignOp.ins) h
      refine ⟨?_, ?_⟩
      · rw [List.length_cons, List.replicate_succ, ← h2]
      · rw [h3, List.length_cons]
        show st.pathpos + 1 + t.length = _
        omega

/-- C27 fails as stated: the scores 2, -1, `LONG_MIN`, `-(2^62 - 1)` are valid.
With the query `[0]` and the path `1`, `1`, `1`, the sums of `long` of the
lines 130 and 172-196 leave in cell 0 the insertion scores `2^62 + 1`, `2` and
`2^62 + 3`, so that cell 0 of the column at depth 3 has the best score
`2^62 + 3`.  An alignment that consumes the three path characters and ends at
the query offset 0 consists of three insertions, and its affine-gap score
`gapstart + 3 * gapextend` is negative: it is not `2^62 + 3`, and not so
modulo `2^64` either. -/
theorem positive_score_realised_counterexample :
    deepgapParams.scorevalues.valid ∧
    extend noSpecial zeroFresh deepgapParams 1
        (rootstate zeroFresh deepgapParams rawColumn)
        [Ext.branch rawColumn 1, Ext.branch rawColumn 1, Ext.branch rawColumn 1] =
      some (mkColumn [(-1, 4611686018427387907, -1, 4611686018427387907),
        (1, -9223372036854775804, -9223372036854775804, 1)] 0 4611686018427387907) ∧
    ((mkColumn [(-1, 4611686018427387907, -1, 4611686018427387907),
        (1, -9223372036854775804, -9223372036854775804, 1)] 0
          4611686018427387907).cell 0).bestcell > 0 ∧
    ¬ ∃ k0 a, k0 ≤ 0 ∧
        (runAlignment noSpecial deepgapParams
          ([Ext.branch rawColumn 1, Ext.branch rawColumn 1,
            Ext.branch rawColumn 1].map Ext.char) k0 a).pathpos = 3 ∧
        (runAlignment noSpecial deepgapParams
          ([Ext.branch rawColumn 1, Ext.branch rawColumn 1,
            Ext.branch rawColumn 1].map Ext.char) k0 a).querypos = 0 ∧
        ((runAlignment noSpecial deepgapParams
          ([Ext.branch rawColumn 1, Ext.branch rawColumn 1,
            Ext.branch rawColumn 1].map Ext.char) k0 a).score =
          ((mkColumn [(-1, 4611686018427387907, -1, 4611686018427387907),
            (1, -9223372036854775804, -9223372036854775804, 1)] 0
              4611686018427387907).cell 0).bestcell ∨
        wrapLong (runAlignment noSpecial deepgapParams
          ([Ext.branch rawColumn 1, Ext.branch rawColumn 1,
            Ext.branch rawColumn 1].map Ext.char) k0 a).score =
          ((mkColumn [(-1, 4611686018427387907, -1, 4611686018427387907),
            (1, -9223372036854775804, -9223372036854775804, 1)] 0
              4611686018427387907).cell 0).bestcell) := by
  refine ⟨by decide, by decide, by decide, ?_⟩
  rintro ⟨k0, a, hk, hp, hq, hs⟩
  have hk0 : k0 = 0 := by omega
  subst hk0
  obtain ⟨ha, hpath⟩ := foldl_alignStep_only_ins noSpecial deepgapParams _ a
    ⟨0, 0, none, 0⟩ hq
  have hlen : a.length = 3 := by
    have h3 : (runAlignment noSpecial deepgapParams
        ([Ext.branch rawColumn 1, Ext.branch rawColumn 1,
          Ext.branch rawColumn 1].map Ext.char) 0 a).pathpos = 0 + a.length := hpath
    omega
  rw [hlen] at ha
  rw [ha] at hs
  revert hs
  decide

/-- C27, amended: under valid score values that are values of a `long` and
whose gap costs add up within a `long` (`LONG_MIN ≤ gapstart + gapextend`),
every non-empty sequence of extensions from the root returns a column such
that for every cell `i ≤ querylength` with `bestcell > 0` there is an
alignment, that is a sequence of substitutions, insertions and deletions
started at some query offset `k0 ≤ i`, which consumes exactly the characters
of the path and the query symbols `k0..i-1` and whose affine-gap score is
`bestcell`. -/
theorem positive_score_realised (ISSPECIAL : Uchar → Bool) (fresh : Nat → Matrixvalue)
    (lci : Limdfsconstinfo) (raw : Column) (steps : List Ext)
    (hv : lci.scorevalues.valid) (hL : lci.scorevalues.isLong)
    (hf : lci.scorevalues.gapfits) (hcap : lci.querylength + 1 ≤ lci.maxcollen)
    (hne : steps ≠ []) (hw : ∀ e ∈ steps, Ext.dstWf e) :
    ∃ col, extend ISSPECIAL fresh lci 1 (rootstate fresh lci raw) steps = some col ∧
      ∀ i, i ≤ lci.querylength → (col.cell i).bestcell > 0 →
        ∃ k0 a, k0 ≤ i ∧
          (runAlignment ISSPECIAL lci (steps.map Ext.char) k0 a).pathpos = steps.length ∧
          (runAlignment ISSPECIAL lci (steps.map Ext.char) k0 a).querypos = i ∧
          (runAlignment ISSPECIAL lci (steps.map Ext.char) k0 a).score =
            (col.cell i).bestcell := by
  obtain ⟨col, hcol, _, hreal⟩ := extend_CellReal ISSPECIAL fresh lci raw
    (steps.map Ext.char) hv hf hL hcap steps hne hw (fun _ _ => rfl)
  refine ⟨col, hcol, fun i hi hb => ?_⟩
  obtain ⟨last, k0, a, hk, ha⟩ :=
    CellReal_best ISSPECIAL lci _ steps.length i _ (hreal i hi).2 hb
  exact ⟨k0, a, hk, by rw [ha], by rw [ha], by rw [ha]⟩

/-- Witness of C27: scenario A, the path `A`, `C`, `G`, `T` fed from the
root. -/
theorem positive_score_realised_witness :
    ∃ col, extend noSpecial zeroFresh scenarioParams 1
        (rootstate zeroFresh scenarioParams rawColumn)
        [Ext.inplace 0, Ext.inplace 1, Ext.inplace 2, Ext.inplace 3] = some col ∧
      ∀ i, i ≤ scenarioParams.querylength → (col.cell i).bestcell > 0 →
        ∃ k0 a, k0 ≤ i ∧
          (runAlignment noSpecial scenarioParams
            ([Ext.inplace 0, Ext.inplace 1, Ext.inplace 2, Ext.inplace 3].map Ext.char)
            k0 a).pathpos =
              [Ext.inplace 0, Ext.inplace 1, Ext.inplace 2, Ext.inplace 3].length ∧
          (runAlignment noSpecial scenarioParams
            ([Ext.inplace 0, Ext.inplace 1, Ext.inplace 2, Ext.inplace 3].map Ext.char)
            k0 a).querypos = i ∧
          (runAlignment noSpecial scenarioParams
            ([Ext.inplace 0, Ext.inplace 1, Ext.inplace 2, Ext.inplace 3].map Ext.char)
            k0 a).score = (col.cell i).bestcell :=
  positive_score_realised noSpecial zeroFresh scenarioParams rawColumn
    [Ext.inplace 0, Ext.inplace 1, Ext.inplace 2, Ext.inplace 3]
    (by decide) (by decide) (by decide) (by decide) (by decide) (by decide)

/-! ## Scores that are not positive -/

theorem gapscore_congr_pos (lci : Limdfsconstinfo) (g b g' b' : Int)
    (hg : max g 0 = max g' 0) (hb : max b 0 = max b' 0) :
    gapscore lci g b = gapscore lci g' b' := by
  have hg1 : g > 0 ↔ g' > 0 := by omega
  have hb1 : b > 0 ↔ b' > 0 := by omega
  unfold gapscore
  by_cases h1 : g > 0
  · have h1' := hg1.mp h1
    have hge : g = g' := by omega
    by_cases h2 : b > 0
    · have h2' := hb1.mp h2
      have hbe : b = b' := by omega
      rw [hge, hbe]
    · have h2' : ¬ b' > 0 := fun h => h2 (hb1.mpr h)
      rw [if_pos h1, if_neg h2, if_pos h1', if_neg h2', hge]
  · have h1' : ¬ g' > 0 := fun h => h1 (hg1.mpr h)
    by_cases h2 : b > 0
    · have h2' := hb1.mp h2
      have hbe : b = b' := by omega
      rw [if_neg h1, if_pos h2, if_neg h1', if_pos h2', hbe]
    · have h2' : ¬ b' > 0 := fun h => h2 (hb1.mpr h)
      rw [if_neg h1, if_neg h2, if_neg h1', if_neg h2']

theorem speccell_congr_pos (ISSPECIAL : Uchar → Bool) (lci : Limdfsconstinfo)
    (dbchar : Uchar) (P Q : List Matrixvalue) (n : Nat)
    (h : ∀ j, j ≤ n →
      max (cellAt P j).inscell 0 = max (cellAt Q j).inscell 0 ∧
      max (cellAt P j).bestcell 0 = max (cellAt Q j).bestcell 0)
    (j : Nat) (hj : j ≤ n) :
    speccell ISSPECIAL lci dbchar P (cellAt P 0).bestcell j =
      speccell ISSPECIAL lci dbchar Q (cellAt Q 0).bestcell j := by
  induction j with
  | zero =>
    show firstcell lci (cellAt P 0) = firstcell lci (cellAt Q 0)
    unfold firstcell
    simp only []
    have := gapscore_congr_pos lci _ _ _ _ (h 0 hj).1 (h 0 hj).2
    unfold gapscore at this
    rw [this]
  | succ k ih =>
    rw [speccell_succ_self, speccell_succ_self, ih (by omega)]
    unfold gencell
    simp only []
    rw [gapscore_congr_pos lci _ _ _ _ (h (k + 1) hj).1 (h (k + 1) hj).2]
    have hb := (h k (by omega)).2
    by_cases h1 : (cellAt P k).bestcell > 0
    · have he : (cellAt P k).bestcell = (cellAt Q k).bestcell := by omega
      rw [he]
    · have h1' : ¬ (cellAt Q k).bestcell > 0 := by omega
      rw [if_neg h1, if_neg h1']

/-- C28: for every parameters, character and depth above 1, if two consistent
parent columns with at least `querylength + 1` cells agree at every index
`i ≤ querylength` on `max(inscell, 0)` and on `max(bestcell, 0)`, then the
columns that `locali_nextLimdfsstate` returns for them have the same cells
`0..querylength`, the same `maxvalue` and the same `pprefixlen`. -/
theorem dead_cells_carry_nothing (ISSPECIAL : Uchar → Bool)
    (fresh fresh' : Nat → Matrixvalue) (lci : Limdfsconstinfo) (depth : Nat)
    (c : Uchar) (P P' dst dst' : Column) (hd : depth > 1)
    (hcap : lci.querylength + 1 ≤ lci.maxcollen) (hwd : dst.wf) (hwd' : dst'.wf)
    (hwp : P.wf) (hwp' : P'.wf) (hlp : lci.querylength + 1 ≤ P.lenval)
    (hlp' : lci.querylength + 1 ≤ P'.lenval)
    (hagree : ∀ i, i ≤ lci.querylength →
      max (P.cell i).inscell 0 = max (P'.cell i).inscell 0 ∧
      max (P.cell i).bestcell 0 = max (P'.cell i).bestcell 0) :
    ∃ r r',
      locali_nextLimdfsstate ISSPECIAL fresh lci dst depth c P = some r ∧
      locali_nextLimdfsstate ISSPECIAL fresh' lci dst' depth c P' = some r' ∧
      sameActive lci r r' := by
  obtain ⟨r, h1, hc1, _⟩ :=
    nextcolumn_spec ISSPECIAL fresh lci dst c P hwd hwp hlp (Or.inr hcap)
  obtain ⟨r', h2, hc2, _⟩ :=
    nextcolumn_spec ISSPECIAL fresh' lci dst' c P' hwd' hwp' hlp' (Or.inr hcap)
  have hsp : ∀ j, j ≤ lci.querylength →
      speccell ISSPECIAL lci c (P.colvalues.getD []) (P.cell 0).bestcell j =
        speccell ISSPECIAL lci c (P'.colvalues.getD []) (P'.cell 0).bestcell j :=
    fun j hj => speccell_congr_pos ISSPECIAL lci c _ _ lci.querylength hagree j hj
  have hfc : firstcell lci (P.cell 0) = firstcell lci (P'.cell 0) :=
    hsp 0 (Nat.zero_le _)
  rw [hfc] at hc1
  refine ⟨r, r', ?_, ?_, IsChild_sameActive lci _ _ _ r r' hc1 hc2 hsp⟩
  · unfold locali_nextLimdfsstate
    rw [if_pos hd, h1]
  · unfold locali_nextLimdfsstate
    rw [if_pos hd, h2]

/-- Witness of C28: two parents that differ in the substitution and deletion
scores, in the values of their non-positive scores and in the bookkeeping. -/
theorem dead_cells_carry_nothing_witness :
    ∃ r r',
      locali_nextLimdfsstate noSpecial zeroFresh scenarioParams rawColumn 2 1
        (mkColumn [(-1, -4, -1, -1), (2, -1, -1, 2), (-1, -1, -1, -1), (-1, -1, -1, -1),
          (-1, -1, -1, -1)] 1 2) = some r ∧
      locali_nextLimdfsstate noSpecial zeroFresh scenarioParams rawColumn 2 1
        (mkColumn [(3, 0, 9, -7), (-5, -2, 8, 2), (4, -3, 0, 0), (6, 0, 0, -9),
          (1, -8, 2, -1)] 4 9) = some r' ∧
      sameActive scenarioParams r r' :=
  dead_cells_carry_nothing noSpecial zeroFresh zeroFresh scenarioParams 2 1
    (mkColumn [(-1, -4, -1, -1), (2, -1, -1, 2), (-1, -1, -1, -1), (-1, -1, -1, -1),
      (-1, -1, -1, -1)] 1 2)
    (mkColumn [(3, 0, 9, -7), (-5, -2, 8, 2), (4, -3, 0, 0), (6, 0, 0, -9),
      (1, -8, 2, -1)] 4 9) rawColumn rawColumn
    (by decide) (by decide) (by decide) (by decide) (by decide) (by decide) (by decide)
    (by decide) (by decide)

/-! ## The cell invariant -/

/-- C29 fails as stated: with the valid scores 2, -1, `LONG_MIN`, -1 and the
query `[0]`, the column at depth 1 has in cell 0 the insertion score
`LONG_MAX`, the `long` that the sum `gapstart + gapextend` of line 130 leaves,
and the best score `MINUSINFTY` of line 133: the best score is not the greatest
of the three scores, and the insertion score is positive while the best score
is not. -/
theorem best_is_max_counterexample :
    wrapParams.scorevalues.valid ∧
    extend noSpecial zeroFresh wrapParams 1 (rootstate zeroFresh wrapParams rawColumn)
        [Ext.branch rawColumn 1] =
      some (mkColumn [(-1, 9223372036854775807, -1, -1), (-1, -1, -1, -1)] 0 0) ∧
    ((mkColumn [(-1, 9223372036854775807, -1, -1), (-1, -1, -1, -1)] 0 0).cell 0).bestcell ≠
      max (max
        ((mkColumn [(-1, 9223372036854775807, -1, -1), (-1, -1, -1, -1)] 0 0).cell
          0).repcell
        ((mkColumn [(-1, 9223372036854775807, -1, -1), (-1, -1, -1, -1)] 0 0).cell
          0).inscell)
        ((mkColumn [(-1, 9223372036854775807, -1, -1), (-1, -1, -1, -1)] 0 0).cell
          0).delcell ∧
    ((mkColumn [(-1, 9223372036854775807, -1, -1), (-1, -1, -1, -1)] 0 0).cell 0).inscell >
      0 ∧
    ¬ ((mkColumn [(-1, 9223372036854775807, -1, -1), (-1, -1, -1, -1)] 0 0).cell
      0).bestcell > 0 := by
  decide

/-- C29, amended: under valid score values whose gap costs add up within a
`long` (`LONG_MIN ≤ gapstart + gapextend`), every non-empty sequence of
extensions from the root returns a column in which every cell
`i ≤ querylength` has `bestcell = max(repcell, inscell, delcell)`, and in which
`inscell > 0` or `delcell > 0` implies `bestcell > 0`.  (The cells of the root
itself are never written.) -/
theorem best_is_max (ISSPECIAL : Uchar → Bool) (fresh : Nat → Matrixvalue)
    (lci : Limdfsconstinfo) (raw : Column) (steps : List Ext)
    (hv : lci.scorevalues.valid)
    (hf : lci.scorevalues.gapfits) (hcap : lci.querylength + 1 ≤ lci.maxcollen)
    (hne : steps ≠ []) (hw : ∀ e ∈ steps, Ext.dstWf e) :
    ∃ col, extend ISSPECIAL fresh lci 1 (rootstate fresh lci raw) steps = some col ∧
      ∀ i, i ≤ lci.querylength →
        (col.cell i).bestcell =
          max (max (col.cell i).repcell (col.cell i).inscell) (col.cell i).delcell ∧
        ((col.cell i).inscell > 0 ∨ (col.cell i).delcell > 0 →
          (col.cell i).bestcell > 0) := by
  have hsplit : steps = steps.dropLast ++ [steps.getLast hne] :=
    (List.dropLast_append_getLast hne).symm
  have hwd : ∀ e ∈ steps.dropLast, Ext.dstWf e :=
    fun e he => hw e (List.mem_of_mem_dropLast he)
  obtain ⟨a, _, ha, _, hs⟩ := extend_StartOk ISSPECIAL fresh lci hv hf hcap
    steps.dropLast steps.dropLast 1 (rootstate fresh lci raw) (rootstate fresh lci raw)
    hwd hwd rfl
    ⟨sameActive_refl lci _, rootstate_wf fresh lci raw, rootstate_wf fresh lci raw,
      fun h => absurd h (by omega)⟩
  obtain ⟨r, hr, hbest⟩ := applyExt_best ISSPECIAL fresh lci
    (1 + steps.dropLast.length) a (steps.getLast hne) hv hf hcap
    (hw _ (List.getLast_mem hne)) hs.2.1 (fun h => (hs.2.2.2 h).1.2.1)
  refine ⟨r, ?_, fun i hi => ⟨hbest i hi, fun h => ?_⟩⟩
  · rw [hsplit, extend_append, ha]
    show (applyExt ISSPECIAL fresh lci (1 + steps.dropLast.length) a
      (steps.getLast hne)).bind _ = some r
    rw [hr]
    rfl
  · have := hbest i hi
    omega

/-- Witness of C29: the two extensions `A`, `C` of scenario A, the second into
a destination state. -/
theorem best_is_max_witness :
    ∃ col, extend noSpecial zeroFresh scenarioParams 1
        (rootstate zeroFresh scenarioParams rawColumn)
        [Ext.inplace 0, Ext.branch rawColumn 1] = some col ∧
      ∀ i, i ≤ scenarioParams.querylength →
        (col.cell i).bestcell =
          max (max (col.cell i).repcell (col.cell i).inscell) (col.cell i).delcell ∧
        ((col.cell i).inscell > 0 ∨ (col.cell i).delcell > 0 →
          (col.cell i).bestcell > 0) :=
  best_is_max noSpecial zeroFresh scenarioParams rawColumn
    [Ext.inplace 0, Ext.branch rawColumn 1] (by decide) (by decide) (by decide)
    (by decide) (by decide)

/-! ## Cell 0 of a child -/

/-- C30: every extension of a consistent state, at any depth, by
`locali_nextLimdfsstate` or by `locali_inplacenextLimdfsstate`, returns a
column whose cell 0 has `repcell = delcell = MINUSINFTY`. -/
theorem cell0_sentinels (ISSPECIAL : Uchar → Bool) (fresh : Nat → Matrixvalue)
    (lci : Limdfsconstinfo) (depth : Nat) (col : Column) (e : Ext)
    (hcap : lci.querylength + 1 ≤ lci.maxcollen) (he : e.dstWf) (hwf : col.wf)
    (hlen : depth > 1 → lci.querylength + 1 ≤ col.lenval) :
    ∃ r, applyExt ISSPECIAL fresh lci depth col e = some r ∧
      (r.cell 0).repcell = MINUSINFTY ∧ (r.cell 0).delcell = MINUSINFTY := by
  by_cases hd : depth > 1
  · cases e with
    | branch dst ch =>
      obtain ⟨r, h1, ⟨_, _, hc, _⟩, _⟩ :=
        nextcolumn_spec ISSPECIAL fresh lci dst ch col he hwf (hlen hd) (Or.inr hcap)
      refine ⟨r, ?_, ?_, ?_⟩
      · show locali_nextLimdfsstate ISSPECIAL fresh lci dst depth ch col = some r
        unfold locali_nextLimdfsstate
        rw [if_pos hd, h1]
      · rw [hc 0 (Nat.zero_le _)]; rfl
      · rw [hc 0 (Nat.zero_le _)]; rfl
    | inplace ch =>
      obtain ⟨r, h1, ⟨_, _, hc, _⟩, _⟩ :=
        inplacenextcolumn_spec ISSPECIAL lci ch col hwf (hlen hd)
      refine ⟨r, ?_, ?_, ?_⟩
      · show locali_inplacenextLimdfsstate ISSPECIAL fresh lci col depth ch = some r
        unfold locali_inplacenextLimdfsstate
        rw [if_pos hd, h1]
      · rw [hc 0 (Nat.zero_le _)]; rfl
      · rw [hc 0 (Nat.zero_le _)]; rfl
  · obtain ⟨r, h1, _, _, hc, _⟩ :=
      applyExt_first ISSPECIAL fresh lci depth col e hd hcap he hwf
    refine ⟨r, h1, ?_, ?_⟩
    · rw [hc 0 (Nat.zero_le _)]; rfl
    · rw [hc 0 (Nat.zero_le _)]; rfl

/-- Witness of C30: a column whose cell 0 holds positive scores, extended in
place at depth 2. -/
theorem cell0_sentinels_witness :
    ∃ r, applyExt noSpecial zeroFresh smallParams 2
        (mkColumn [(7, 10, 7, 10), (-1, -1, -1, -1)] 0 10) (Ext.inplace 0) = some r ∧
      (r.cell 0).repcell = MINUSINFTY ∧ (r.cell 0).delcell = MINUSINFTY :=
  cell0_sentinels noSpecial zeroFresh smallParams 2
    (mkColumn [(7, 10, 7, 10), (-1, -1, -1, -1)] 0 10) (Ext.inplace 0)
    (by decide) (by decide) (by decide) (by decide)

/-! ## Ties of the best score -/

theorem trackmax_snd_le (f : Nat → Matrixvalue) (m0 n : Nat) :
    (trackmax f m0 n).2 ≤ n := by
  induction n with
  | zero => exact le_refl _
  | succ k ih =>
    unfold trackmax
    split
    · exact le_refl _
    · omega

theorem trackmax_zero (f : Nat → Matrixvalue) (m0 n : Nat)
    (h : (trackmax f m0 n).1 = 0) : (trackmax f m0 n).2 = 0 := by
  induction n with
  | zero => rfl
  | succ k ih =>
    unfold trackmax at h ⊢
    split
    · rename_i hc
      rw [if_pos hc] at h
      have h1 : (f (k + 1)).bestcell.toNat = 0 := h
      omega
    · rename_i hc
      rw [if_neg hc] at h
      exact ih h

theorem trackmax_before (f : Nat → Matrixvalue) (m0 n : Nat)
    (hm0 : (f 0).bestcell ≤ (m0 : Int)) :
    (∀ i, i ≤ n → (f i).bestcell ≤ ((trackmax f m0 n).1 : Int)) ∧
    (∀ i, i < (trackmax f m0 n).2 → (f i).bestcell < ((trackmax f m0 n).1 : Int)) := by
  induction n with
  | zero =>
    refine ⟨fun i hi => ?_, fun i hi => ?_⟩
    · have : i = 0 := by omega
      subst this
      exact hm0
    · exact absurd hi (Nat.not_lt_zero _)
  | succ k ih =>
    obtain ⟨ih1, ih2⟩ := ih
    unfold trackmax
    split
    · rename_i hc
      have hval : (((f (k + 1)).bestcell.toNat : Nat) : Int) = (f (k + 1)).bestcell := by
        omega
      refine ⟨fun i hi => ?_, fun i hi => ?_⟩
      · show (f i).bestcell ≤ (((f (k + 1)).bestcell.toNat : Nat) : Int)
        rw [hval]
        by_cases hik : i = k + 1
        · subst hik
          exact le_refl _
        · have := ih1 i (by omega)
          omega
      · show (f i).bestcell < (((f (k + 1)).bestcell.toNat : Nat) : Int)
        rw [hval]
        have hi' : i < k + 1 := hi
        have := ih1 i (by omega)
        omega
    · rename_i hc
      refine ⟨fun i hi => ?_, ih2⟩
      by_cases hik : i = k + 1
      · subst hik
        rw [not_and_or] at hc
        have hnn : (0 : Int) ≤ ((trackmax f m0 k).1 : Int) := Int.ofNat_nonneg _
        rcases hc with hc | hc <;> omega
      · exact ih1 i (by omega)

theorem IsChild_ties (lci : Limdfsconstinfo) (f : Nat → Matrixvalue) (m0 : Nat)
    (r : Column) (h : IsChild lci f m0 r) (hm0 : (m0 : Int) = max 0 (f 0).bestcell) :
    r.pprefixlen ≤ lci.querylength ∧
    (r.maxvalue = 0 → r.pprefixlen = 0) ∧
    (∀ i, i ≤ lci.querylength → (r.cell i).bestcell ≤ (r.maxvalue : Int)) ∧
    (0 < r.maxvalue →
      (r.cell r.pprefixlen).bestcell = (r.maxvalue : Int) ∧
      ∀ i, i < r.pprefixlen → (r.cell i).bestcell < (r.maxvalue : Int)) := by
  obtain ⟨_, _, hcells, ht⟩ := h
  have h1 : r.maxvalue = (trackmax f m0 lci.querylength).1 := congrArg Prod.fst ht
  have h2 : r.pprefixlen = (trackmax f m0 lci.querylength).2 := congrArg Prod.snd ht
  have hle : r.pprefixlen ≤ lci.querylength := by
    rw [h2]
    exact trackmax_snd_le f m0 _
  obtain ⟨hb1, hb2⟩ := trackmax_before f m0 lci.querylength (by omega)
  refine ⟨hle, fun hz => ?_, fun i hi => ?_, fun hpos => ⟨?_, fun i hi => ?_⟩⟩
  · rw [h2]
    exact trackmax_zero f m0 _ (by rw [← h1]; exact hz)
  · rw [hcells i hi, h1]
    exact hb1 i hi
  · have hm : m0 = 0 ∨ m0 = (max2 0 (f 0).bestcell).toNat := by
      rw [max2_eq_max]
      omega
    obtain ⟨_, hbest⟩ := trackmax_pos f m0 lci.querylength hm (by omega)
    rw [hcells _ hle, h2, h1]
    exact hbest
  · rw [hcells i (by omega), h1]
    exact hb2 i (by rw [← h2]; exact hi)

/-! ## Induction along a chain from the root -/

/-- A property `M depth column` holds along every chain from the root if the
first column has it and every further column inherits it; `w` lists the
characters of the chain. -/
theorem extend_chain (ISSPECIAL : Uchar → Bool) (fresh : Nat → Matrixvalue)
    (lci : Limdfsconstinfo) (raw : Column) (w : List Uchar)
    (hv : lci.scorevalues.valid)
    (hf : lci.scorevalues.gapfits) (hcap : lci.querylength + 1 ≤ lci.maxcollen)
    (M : Nat → Column → Prop)
    (h1 : ∀ r, ChainInv lci r →
      IsChild lci (secondcell ISSPECIAL lci (w.getD 0 0)) 0 r → M 1 r)
    (hs : ∀ d P r, 1 ≤ d → ChainInv lci P → M d P → ChainInv lci r →
      IsChild lci
        (speccell ISSPECIAL lci (w.getD d 0) (P.colvalues.getD []) MINUSINFTY) 0 r →
      M (d + 1) r)
    (s : List Ext) :
    s ≠ [] → (∀ e ∈ s, Ext.dstWf e) →
    (∀ n, n < s.length → (s.map Ext.char).getD n 0 = w.getD n 0) →
    ∃ col, extend ISSPECIAL fresh lci 1 (rootstate fresh lci raw) s = some col ∧
      ChainInv lci col ∧ M s.length col := by
  induction s using List.reverseRecOn with
  | nil => intro h; exact absurd rfl h
  | append_singleton t e ih =>
    intro _ hw hch
    have hwe : e.dstWf := hw e (by simp)
    have hwt : ∀ x ∈ t, Ext.dstWf x := fun x hx => hw x (by simp [hx])
    have hce : e.char = w.getD t.length 0 := by
      have := hch t.length (by simp)
      simpa using this
    have hlen : (t ++ [e]).length = t.length + 1 := by simp
    by_cases ht : t = []
    · subst ht
      obtain ⟨r, hr, hc⟩ := applyExt_first ISSPECIAL fresh lci 1
        (rootstate fresh lci raw) e (by omega) hcap hwe (rootstate_wf fresh lci raw)
      have hinv := applyExt_ChainInv ISSPECIAL fresh lci 1 (rootstate fresh lci raw) e r
        hv hf hcap hwe (rootstate_wf fresh lci raw) (fun h => absurd h (by omega)) hr
      refine ⟨r, ?_, hinv, ?_⟩
      · show (applyExt ISSPECIAL fresh lci 1 (rootstate fresh lci raw) e).bind _ = some r
        rw [hr]
        rfl
      · rw [hce] at hc
        exact h1 r hinv hc
    · have hcht : ∀ n, n < t.length → (t.map Ext.char).getD n 0 = w.getD n 0 := by
        intro n hn
        have := hch n (by rw [hlen]; omega)
        rw [List.map_append, List.getD_append _ _ _ _ (by simpa using hn)] at this
        exact this
      obtain ⟨col, hcol, hinv, hM⟩ := ih ht hwt hcht
      have hpos : 0 < t.length := List.length_pos.mpr ht
      obtain ⟨r, hr, hc⟩ := applyExt_next ISSPECIAL fresh lci (1 + t.length) col e
        (by omega) hcap hwe hinv.1 hinv.2.1 hinv.2.2.1 hinv.2.2.2.1
      have hinv2 := applyExt_ChainInv ISSPECIAL fresh lci (1 + t.length) col e r
        hv hf hcap hwe hinv.1 (fun _ => hinv) hr
      refine ⟨r, ?_, hinv2, ?_⟩
      · rw [extend_append, hcol]
        show (applyExt ISSPECIAL fresh lci (1 + t.length) col e).bind _ = some r
        rw [hr]
        rfl
      · rw [hce] at hc
        rw [hlen]
        exact hs t.length col r hpos hinv hM hinv2 hc

/-! ## The upper bound of the scores -/

theorem scale_mono (a b : Nat) (ms : Int) (h : a ≤ b) (hms : 0 < ms) :
    (a : Int) * ms ≤ (b : Int) * ms :=
  Int.mul_le_mul_of_nonneg_right (by exact_mod_cast h) (le_of_lt hms)

theorem REPLACEMENTSCORE_le (ISSPECIAL : Uchar → Bool) (lci : Limdfsconstinfo)
    (hv : lci.scorevalues.valid) (A B : Uchar) :
    REPLACEMENTSCORE ISSPECIAL lci A B ≤ lci.scorevalues.matchscore := by
  obtain ⟨h1, h2, _, _⟩ := hv
  unfold REPLACEMENTSCORE
  split <;> omega

theorem gapscore_le (lci : Limdfsconstinfo) (hv : lci.scorevalues.valid)
    (hf : lci.scorevalues.gapfits) (g b B : Int)
    (hgb : g ≤ 0 ∨ g ≤ b) (hb : b ≤ B) (hB : 0 ≤ B) : gapscore lci g b ≤ B := by
  by_cases hBL : LONG_MAX ≤ B
  · exact le_trans (gapscore_long lci g b) hBL
  · have hbL : b ≤ LONG_MAX := by omega
    have hgs : lci.scorevalues.gapstart < 0 := hv.2.2.1
    have hge : lci.scorevalues.gapextend < 0 := hv.2.2.2
    unfold gapscore
    by_cases h1 : g > 0
    · by_cases h2 : b > 0
      · rw [if_pos h1, if_pos h2, max2_eq_max,
          addLong_gapextend lci hv hf g h1 (by omega), addLong_gapopen lci hv hf b h2 hbL]
        omega
      · omega
    · by_cases h2 : b > 0
      · rw [if_neg h1, if_pos h2, addLong_gapopen lci hv hf b h2 hbL]
        omega
      · rw [if_neg h1, if_neg h2]
        unfold MINUSINFTY
        omega

theorem secondcell_bound (ISSPECIAL : Uchar → Bool) (lci : Limdfsconstinfo)
    (c : Uchar) (hv : lci.scorevalues.valid) (i : Nat) :
    (secondcell ISSPECIAL lci c i).bestcell ≤
      ((min 1 i : Nat) : Int) * lci.scorevalues.matchscore := by
  have hR := REPLACEMENTSCORE_le ISSPECIAL lci hv
  obtain ⟨hms, _, _, _⟩ := hv
  cases i with
  | zero =>
    show MINUSINFTY ≤ ((min 1 0 : Nat) : Int) * lci.scorevalues.matchscore
    unfold MINUSINFTY
    simp
  | succ k =>
    show max2 MINUSINFTY (REPLACEMENTSCORE ISSPECIAL lci c (lci.query.getD k 0)) ≤
      ((min 1 (k + 1) : Nat) : Int) * lci.scorevalues.matchscore
    have hmin : min 1 (k + 1) = 1 := by omega
    rw [hmin, max2_eq_max]
    have := hR c (lci.query.getD k 0)
    unfold MINUSINFTY
    simp only [Nat.cast_one, one_mul]
    omega

theorem speccell_bound (ISSPECIAL : Uchar → Bool) (lci : Limdfsconstinfo)
    (c : Uchar) (P : List Matrixvalue) (d n : Nat) (hv : lci.scorevalues.valid)
    (hf : lci.scorevalues.gapfits) (hL : lci.scorevalues.isLong)
    (hP : ∀ i, i ≤ n →
      (cellAt P i).bestcell ≤ ((min d i : Nat) : Int) * lci.scorevalues.matchscore)
    (hins : ∀ i, i ≤ n →
      (cellAt P i).inscell ≤ 0 ∨ (cellAt P i).inscell ≤ (cellAt P i).bestcell)
    (hi0 : (cellAt P 0).inscell ≤ 0) (hb0 : (cellAt P 0).bestcell ≤ 0)
    (i : Nat) (hi : i ≤ n) :
    (speccell ISSPECIAL lci c P MINUSINFTY i).bestcell ≤
      ((min (d + 1) i : Nat) : Int) * lci.scorevalues.matchscore := by
  have hms : 0 < lci.scorevalues.matchscore := hv.1
  have hnn : ∀ a : Nat, (0 : Int) ≤ (a : Int) * lci.scorevalues.matchscore :=
    fun a => Int.mul_nonneg (Int.ofNat_nonneg a) (le_of_lt hms)
  induction i with
  | zero =>
    have hc : speccell ISSPECIAL lci c P MINUSINFTY 0 =
        ⟨MINUSINFTY, MINUSINFTY, MINUSINFTY, MINUSINFTY⟩ := firstcell_dead lci _ hi0 hb0
    rw [hc]
    show MINUSINFTY ≤ _
    have := hnn (min (d + 1) 0)
    unfold MINUSINFTY
    omega
  | succ k ih =>
    have ihk := ih (by omega)
    have hbk := speccell_best ISSPECIAL lci c P MINUSINFTY k
    show (gencell ISSPECIAL lci c (lci.query.getD k 0)
      (if k = 0 then MINUSINFTY else (cellAt P k).bestcell) (cellAt P (k + 1))
      (speccell ISSPECIAL lci c P MINUSINFTY k)).bestcell ≤ _
    unfold gencell
    simp only []
    apply max3_le
    · -- the substitution
      by_cases hk : k = 0
      · rw [if_pos hk, if_neg (by unfold MINUSINFTY; omega)]
        have := hnn (min (d + 1) (k + 1))
        unfold MINUSINFTY
        omega
      · rw [if_neg hk]
        by_cases hpos : (cellAt P k).bestcell > 0
        · rw [if_pos hpos]
          have h1 := hP k (by omega)
          have h2 := REPLACEMENTSCORE_le ISSPECIAL lci hv c (lci.query.getD k 0)
          have hR := (REPLACEMENTSCORE_long ISSPECIAL lci hv hL c (lci.query.getD k 0)).1
          have h4 := addLong_le (cellAt P k).bestcell
            (REPLACEMENTSCORE ISSPECIAL lci c (lci.query.getD k 0)) (by omega)
          have h3 : ((min d k : Nat) : Int) * lci.scorevalues.matchscore +
              lci.scorevalues.matchscore =
              ((min (d + 1) (k + 1) : Nat) : Int) * lci.scorevalues.matchscore := by
            have : min (d + 1) (k + 1) = min d k + 1 := by omega
            rw [this]
            push_cast
            ring
          omega
        · rw [if_neg hpos]
          have := hnn (min (d + 1) (k + 1))
          unfold MINUSINFTY
          omega
    · -- the insertion
      have h1 := hP (k + 1) hi
      have h2 := scale_mono (min d (k + 1)) (min (d + 1) (k + 1))
        lci.scorevalues.matchscore (by omega) hms
      exact gapscore_le lci hv hf _ _ _ (hins (k + 1) hi) (by omega) (hnn _)
    · -- the deletion
      have h2 := scale_mono (min (d + 1) k) (min (d + 1) (k + 1))
        lci.scorevalues.matchscore (by omega) hms
      exact gapscore_le lci hv hf _ _ _ (Or.inr (by omega)) (by omega) (hnn _)

theorem IsChild_first_bound (ISSPECIAL : Uchar → Bool) (lci : Limdfsconstinfo)
    (c : Uchar) (r : Column) (hv : lci.scorevalues.valid)
    (h : IsChild lci (secondcell ISSPECIAL lci c) 0 r) : ScoreBound lci 1 r := by
  intro i hi
  rw [h.2.2.1 i hi]
  exact secondcell_bound ISSPECIAL lci c hv i

theorem IsChild_next_bound (ISSPECIAL : Uchar → Bool) (lci : Limdfsconstinfo)
    (c : Uchar) (d : Nat) (P r : Column) (hv : lci.scorevalues.valid)
    (hf : lci.scorevalues.gapfits) (hL : lci.scorevalues.isLong)
    (hinv : ChainInv lci P) (hb : ScoreBound lci d P)
    (h : IsChild lci
      (speccell ISSPECIAL lci c (P.colvalues.getD []) MINUSINFTY) 0 r) :
    ScoreBound lci (d + 1) r := by
  intro i hi
  rw [h.2.2.1 i hi]
  exact speccell_bound ISSPECIAL lci c _ d lci.querylength hv hf hL hb hinv.2.2.2.2.1
    hinv.2.2.1 hinv.2.2.2.1 i hi

theorem IsChild_TieInv (lci : Limdfsconstinfo) (f : Nat → Matrixvalue) (r : Column)
    (hinv : ChainInv lci r) (h : IsChild lci f 0 r) : TieInv lci r := by
  have h0 : (f 0).bestcell ≤ 0 := by
    rw [← h.2.2.1 0 (Nat.zero_le _)]
    exact hinv.2.2.2.1
  obtain ⟨h1, h2, _, h4⟩ := IsChild_ties lci f 0 r h (by
    rw [max_eq_left h0]
    rfl)
  exact ⟨h1, h2, h4⟩

theorem maxvalue_le_of_bound (lci : Limdfsconstinfo) (d : Nat) (col : Column)
    (hv : lci.scorevalues.valid) (hb : ScoreBound lci d col) (ht : TieInv lci col) :
    (col.maxvalue : Int) ≤
      ((min d col.pprefixlen : Nat) : Int) * lci.scorevalues.matchscore ∧
    (col.maxvalue : Int) ≤
      ((min d lci.querylength : Nat) : Int) * lci.scorevalues.matchscore := by
  have hms : 0 < lci.scorevalues.matchscore := hv.1
  obtain ⟨hle, _, hpos⟩ := ht
  have hmono := scale_mono (min d col.pprefixlen) (min d lci.querylength)
    lci.scorevalues.matchscore (by omega) hms
  by_cases hz : col.maxvalue = 0
  · have h1 : (0 : Int) ≤ ((min d col.pprefixlen : Nat) : Int) *
        lci.scorevalues.matchscore :=
      Int.mul_nonneg (Int.ofNat_nonneg _) (le_of_lt hms)
    rw [hz]
    exact ⟨h1, le_trans h1 hmono⟩
  · have hb1 := hb col.pprefixlen hle
    rw [(hpos (by omega)).1] at hb1
    exact ⟨hb1, le_trans hb1 hmono⟩

/-- The facts about every column below the root that the statements on scores
use. -/
theorem extend_facts (ISSPECIAL : Uchar → Bool) (fresh : Nat → Matrixvalue)
    (lci : Limdfsconstinfo) (raw : Column) (steps : List Ext)
    (hv : lci.scorevalues.valid)
    (hf : lci.scorevalues.gapfits) (hcap : lci.querylength + 1 ≤ lci.maxcollen)
    (hne : steps ≠ []) (hw : ∀ e ∈ steps, Ext.dstWf e) :
    ∃ col, extend ISSPECIAL fresh lci 1 (rootstate fresh lci raw) steps = some col ∧
      ChainInv lci col ∧ TieInv lci col ∧
      (2 ≤ steps.length →
        col.cell 0 = ⟨MINUSINFTY, MINUSINFTY, MINUSINFTY, MINUSINFTY⟩) := by
  obtain ⟨col, hcol, hinv, ht, h0⟩ := extend_chain ISSPECIAL fresh lci raw
    (steps.map Ext.char) hv hf hcap
    (fun d col => TieInv lci col ∧
      (2 ≤ d → col.cell 0 = ⟨MINUSINFTY, MINUSINFTY, MINUSINFTY, MINUSINFTY⟩))
    (fun r hinv hc => ⟨IsChild_TieInv lci _ r hinv hc, fun h => absurd h (by omega)⟩)
    (fun d P r _ hP hM hinv hc => ⟨IsChild_TieInv lci _ r hinv hc, fun _ => by
        rw [hc.2.2.1 0 (Nat.zero_le _)]
        exact firstcell_dead lci _ hP.2.2.1 hP.2.2.2.1⟩)
    steps hne hw (fun _ _ => rfl)
  exact ⟨col, hcol, hinv, ht, h0⟩

/-- The upper bound of the scores of every column below the root. -/
theorem extend_bound (ISSPECIAL : Uchar → Bool) (fresh : Nat → Matrixvalue)
    (lci : Limdfsconstinfo) (raw : Column) (steps : List Ext)
    (hv : lci.scorevalues.valid) (hf : lci.scorevalues.gapfits)
    (hL : lci.scorevalues.isLong) (hcap : lci.querylength + 1 ≤ lci.maxcollen)
    (hne : steps ≠ []) (hw : ∀ e ∈ steps, Ext.dstWf e) :
    ∃ col, extend ISSPECIAL fresh lci 1 (rootstate fresh lci raw) steps = some col ∧
      ChainInv lci col ∧ ScoreBound lci steps.length col ∧ TieInv lci col := by
  obtain ⟨col, hcol, hinv, hb, ht⟩ := extend_chain ISSPECIAL fresh lci raw
    (steps.map Ext.char) hv hf hcap
    (fun d col => ScoreBound lci d col ∧ TieInv lci col)
    (fun r hinv hc => ⟨IsChild_first_bound ISSPECIAL lci _ r hv hc,
      IsChild_TieInv lci _ r hinv hc⟩)
    (fun d P r _ hP hM hinv hc =>
      ⟨IsChild_next_bound ISSPECIAL lci _ d P r hv hf hL hP hM.1 hc,
        IsChild_TieInv lci _ r hinv hc⟩)
    steps hne hw (fun _ _ => rfl)
  exact ⟨col, hcol, hinv, hb, ht⟩

/-! ## Exact occurrences -/

theorem REPLACEMENTSCORE_self (ISSPECIAL : Uchar → Bool) (lci : Limdfsconstinfo)
    (A : Uchar) (h : ISSPECIAL A = false) :
    REPLACEMENTSCORE ISSPECIAL lci A A = lci.scorevalues.matchscore := by
  unfold REPLACEMENTSCORE
  rw [if_neg (by simp [h])]

theorem scale_strict (a b : Nat) (ms : Int) (h : a < b) (hms : 0 < ms) :
    (a : Int) * ms < (b : Int) * ms :=
  Int.mul_lt_mul_of_pos_right (by exact_mod_cast h) hms

theorem secondcell_diag (ISSPECIAL : Uchar → Bool) (lci : Limdfsconstinfo)
    (hv : lci.scorevalues.valid) (j : Nat)
    (hns : ISSPECIAL (lci.query.getD j 0) = false) :
    (secondcell ISSPECIAL lci (lci.query.getD j 0) (j + 1)).bestcell =
      lci.scorevalues.matchscore := by
  have hms : 0 < lci.scorevalues.matchscore := hv.1
  show max2 MINUSINFTY (REPLACEMENTSCORE ISSPECIAL lci (lci.query.getD j 0)
    (lci.query.getD j 0)) = _
  rw [REPLACEMENTSCORE_self ISSPECIAL lci _ hns, max2_eq_max]
  unfold MINUSINFTY
  omega

theorem speccell_diag (ISSPECIAL : Uchar → Bool) (lci : Limdfsconstinfo)
    (P : List Matrixvalue) (k : Nat) (hk : 1 ≤ k)
    (hns : ISSPECIAL (lci.query.getD k 0) = false) (hpos : (cellAt P k).bestcell > 0)
    (hms : 0 < lci.scorevalues.matchscore)
    (hfit : (cellAt P k).bestcell + lci.scorevalues.matchscore ≤ LONG_MAX) :
    (cellAt P k).bestcell + lci.scorevalues.matchscore ≤
      (speccell ISSPECIAL lci (lci.query.getD k 0) P MINUSINFTY (k + 1)).bestcell := by
  have hb := speccell_best ISSPECIAL lci (lci.query.getD k 0) P MINUSINFTY (k + 1)
  have hrep : (speccell ISSPECIAL lci (lci.query.getD k 0) P MINUSINFTY (k + 1)).repcell =
      if (if k = 0 then MINUSINFTY else (cellAt P k).bestcell) > 0 then
        addLong (if k = 0 then MINUSINFTY else (cellAt P k).bestcell)
          (REPLACEMENTSCORE ISSPECIAL lci (lci.query.getD k 0) (lci.query.getD k 0))
      else MINUSINFTY := rfl
  have hk0 : ¬ k = 0 := by omega
  simp only [if_neg hk0] at hrep
  rw [if_pos hpos, REPLACEMENTSCORE_self ISSPECIAL lci _ hns,
    addLong_eq _ _ (by unfold LONG_MIN; omega) hfit] at hrep
  omega

/-- C31 fails as stated: the scores `2^62`, -1, -3, -1 are valid.  With the
query `[0, 0]` and the characters `0`, `0` (`j = 0`, `d = 2`), the sum
`2^62 + 2^62` of the lines 206-207 leaves `LONG_MIN` as substitution score of cell 2 at
depth 2; the best score of that cell is `2^62 - 4`, the score of a gap, and
`maxvalue` is `2^62 - 4` with `pprefixlen = 1`: none of them is what the claim
says (`2 * 2^62`, `2 * 2^62` and 2), and the best score is not the `long` that
the product `2 * 2^62` leaves either. -/
theorem exact_occurrence_counterexample :
    wideParams.scorevalues.valid ∧
    extend noSpecial zeroFresh wideParams 1 (rootstate zeroFresh wideParams rawColumn)
        [Ext.branch rawColumn 0, Ext.branch rawColumn 0] =
      some (mkColumn [(-1, -1, -1, -1),
        (-1, 4611686018427387900, -1, 4611686018427387900),
        (-9223372036854775808, 4611686018427387900, 4611686018427387896,
          4611686018427387900)] 1 4611686018427387900) ∧
    ((mkColumn [(-1, -1, -1, -1),
        (-1, 4611686018427387900, -1, 4611686018427387900),
        (-9223372036854775808, 4611686018427387900, 4611686018427387896,
          4611686018427387900)] 1 4611686018427387900).cell (0 + 2)).bestcell ≠
      2 * wideParams.scorevalues.matchscore ∧
    ((mkColumn [(-1, -1, -1, -1),
        (-1, 4611686018427387900, -1, 4611686018427387900),
        (-9223372036854775808, 4611686018427387900, 4611686018427387896,
          4611686018427387900)] 1 4611686018427387900).cell (0 + 2)).bestcell ≠
      wrapLong (2 * wideParams.scorevalues.matchscore) ∧
    ((mkColumn [(-1, -1, -1, -1),
        (-1, 4611686018427387900, -1, 4611686018427387900),
        (-9223372036854775808, 4611686018427387900, 4611686018427387896,
          4611686018427387900)] 1 4611686018427387900).maxvalue : Int) ≠
      2 * wideParams.scorevalues.matchscore ∧
    (mkColumn [(-1, -1, -1, -1),
        (-1, 4611686018427387900, -1, 4611686018427387900),
        (-9223372036854775808, 4611686018427387900, 4611686018427387896,
          4611686018427387900)] 1 4611686018427387900).pprefixlen ≠ 2 := by
  decide

/-- C31, amended: under valid score values that are values of a `long`, whose
gap costs add up within a `long` (`LONG_MIN ≤ gapstart + gapextend`) and with
`d * matchscore ≤ LONG_MAX`, for a query without special symbol among its
first `querylength` symbols, and `j`, `d ≥ 1` with `j + d ≤ querylength`: the
extensions from the root by the characters `query[j], ..., query[j+d-1]`
return a column at depth `d` with `bestcell = d * matchscore` in the cell
`j + d` and `maxvalue = d * matchscore`; for `j = 0` its `pprefixlen` is `d`;
the verdict on it is `Limdfssuccess` if and only if
`d * matchscore ≥ threshold`. -/
theorem exact_occurrence (ISSPECIAL : Uchar → Bool) (fresh : Nat → Matrixvalue)
    (lci : Limdfsconstinfo) (raw : Column) (steps : List Ext) (j : Nat)
    (hv : lci.scorevalues.valid) (hL : lci.scorevalues.isLong)
    (hf : lci.scorevalues.gapfits)
    (hfit : (steps.length : Int) * lci.scorevalues.matchscore ≤ LONG_MAX)
    (hcap : lci.querylength + 1 ≤ lci.maxcollen)
    (hne : steps ≠ []) (hw : ∀ e ∈ steps, Ext.dstWf e)
    (hj : j + steps.length ≤ lci.querylength)
    (hns : ∀ k, k < lci.querylength → ISSPECIAL (lci.query.getD k 0) = false)
    (hch : ∀ k, k < steps.length →
      (steps.map Ext.char).getD k 0 = lci.query.getD (j + k) 0) :
    ∃ col, extend ISSPECIAL fresh lci 1 (rootstate fresh lci raw) steps = some col ∧
      (col.cell (j + steps.length)).bestcell =
        (steps.length : Int) * lci.scorevalues.matchscore ∧
      (col.maxvalue : Int) = (steps.length : Int) * lci.scorevalues.matchscore ∧
      (j = 0 → col.pprefixlen = steps.length) ∧
      (classify col steps.length lci = Limdfsstatus.Limdfssuccess ↔
        (steps.length : Int) * lci.scorevalues.matchscore ≥ (lci.threshold : Int)) := by
  have hms : 0 < lci.scorevalues.matchscore := hv.1
  obtain ⟨col, hcol, hinv, hb, ht, hdiag⟩ := extend_chain ISSPECIAL fresh lci raw
    (steps.map Ext.char) hv hf hcap
    (fun d col => ScoreBound lci d col ∧ TieInv lci col ∧
      (d ≤ steps.length →
        (col.cell (j + d)).bestcell = (d : Int) * lci.scorevalues.matchscore))
    (fun r hinv hc => ⟨IsChild_first_bound ISSPECIAL lci _ r hv hc,
      IsChild_TieInv lci _ r hinv hc, fun hd => by
        rw [hc.2.2.1 (j + 1) (by omega), hch 0 (by omega)]
        show (secondcell ISSPECIAL lci (lci.query.getD j 0) (j + 1)).bestcell = _
        rw [secondcell_diag ISSPECIAL lci hv j (hns j (by omega))]
        simp⟩)
    (fun d P r hd1 hP hM hinv hc =>
      have hbound := IsChild_next_bound ISSPECIAL lci _ d P r hv hf hL hP hM.1 hc
      ⟨hbound, IsChild_TieInv lci _ r hinv hc, fun hd => by
        have hprev := hM.2.2 (by omega)
        have hpp : (0 : Int) < (d : Int) * lci.scorevalues.matchscore :=
          Int.mul_pos (by exact_mod_cast hd1) hms
        have hup := hbound (j + (d + 1)) (by omega)
        have hmin : min (d + 1) (j + (d + 1)) = d + 1 := by omega
        rw [hmin] at hup
        have hcell := hc.2.2.1 (j + (d + 1)) (by omega)
        rw [hch d (by omega)] at hcell
        have hcast : ((d + 1 : Nat) : Int) * lci.scorevalues.matchscore =
            (d : Int) * lci.scorevalues.matchscore + lci.scorevalues.matchscore := by
          push_cast
          ring
        have hmono := scale_mono (d + 1) steps.length lci.scorevalues.matchscore hd hms
        have hlow := speccell_diag ISSPECIAL lci (P.colvalues.getD []) (j + d) (by omega)
          (hns (j + d) (by omega))
          (by
            show (P.cell (j + d)).bestcell > 0
            omega)
          hms
          (by
            show (P.cell (j + d)).bestcell + lci.scorevalues.matchscore ≤ LONG_MAX
            omega)
        have hlow2 : (P.cell (j + d)).bestcell + lci.scorevalues.matchscore ≤
            (r.cell (j + (d + 1))).bestcell := by
          rw [hcell]
          exact hlow
        omega⟩)
    steps hne hw (fun _ _ => rfl)
  have hlen : 0 < steps.length := List.length_pos.mpr hne
  have hd := hdiag (le_refl _)
  have hposd : (0 : Int) < (steps.length : Int) * lci.scorevalues.matchscore :=
    Int.mul_pos (by exact_mod_cast hlen) hms
  have hge := hinv.2.2.2.2.2 (j + steps.length) hj
  have hmpos : 0 < col.maxvalue := by omega
  obtain ⟨hle1, hle2⟩ := maxvalue_le_of_bound lci steps.length col hv hb ht
  have hmono := scale_mono (min steps.length lci.querylength) steps.length
    lci.scorevalues.matchscore (by omega) hms
  have hmax : (col.maxvalue : Int) = (steps.length : Int) * lci.scorevalues.matchscore := by
    omega
  refine ⟨col, hcol, hd, hmax, fun hj0 => ?_, ?_⟩
  · subst hj0
    rw [Nat.zero_add] at hd
    by_contra hne2
    rcases Nat.lt_or_gt_of_ne hne2 with hlt | hgt
    · have h1 := scale_strict (min steps.length col.pprefixlen) steps.length
        lci.scorevalues.matchscore (by omega) hms
      omega
    · have h1 := (ht.2.2 hmpos).2 steps.length hgt
      omega
  · rw [classify_of_ChainInv lci col _ hinv]
    constructor
    · intro h
      split_ifs at h
      omega
    · intro h
      rw [if_pos (by omega)]

/-- Witness of C31: the query `ACGT` of the scenarios and its prefix `AC`
(`j = 0`, `d = 2`). -/
theorem exact_occurrence_witness :
    ∃ col, extend noSpecial zeroFresh scenarioParams 1
        (rootstate zeroFresh scenarioParams rawColumn)
        [Ext.inplace 0, Ext.branch rawColumn 1] = some col ∧
      (col.cell (0 + [Ext.inplace 0, Ext.branch rawColumn 1].length)).bestcell =
        ([Ext.inplace 0, Ext.branch rawColumn 1].length : Int) *
          scenarioParams.scorevalues.matchscore ∧
      (col.maxvalue : Int) = ([Ext.inplace 0, Ext.branch rawColumn 1].length : Int) *
        scenarioParams.scorevalues.matchscore ∧
      (0 = 0 → col.pprefixlen = [Ext.inplace 0, Ext.branch rawColumn 1].length) ∧
      (classify col [Ext.inplace 0, Ext.branch rawColumn 1].length scenarioParams =
          Limdfsstatus.Limdfssuccess ↔
        ([Ext.inplace 0, Ext.branch rawColumn 1].length : Int) *
          scenarioParams.scorevalues.matchscore ≥ (scenarioParams.threshold : Int)) :=
  exact_occurrence noSpecial zeroFresh scenarioParams rawColumn
    [Ext.inplace 0, Ext.branch rawColumn 1] 0
    (by decide) (by decide) (by decide) (by decide) (by decide) (by decide) (by decide)
    (by decide) (fun _ _ => rfl) (by decide)

/-! ## The upper bound along a chain -/

/-- C32 fails as stated: with the valid scores 2, -1, `LONG_MIN`, -1, the
threshold 4 and the query `[0]`, the column at depth 2 after the characters
`1`, `1` has in cell 0 the best score `LONG_MAX - 1`, which exceeds
`min(2, 0) * matchscore = 0`; its `maxvalue` is `LONG_MAX - 1`, which exceeds
`min(2, 1) * matchscore = 2`; and the verdict on it is `Limdfssuccess` although
the threshold 4 exceeds `querylength * matchscore = 2`. -/
theorem score_upper_bound_counterexample :
    wrapParams.scorevalues.valid ∧
    extend noSpecial zeroFresh wrapParams 1 (rootstate zeroFresh wrapParams rawColumn)
        [Ext.branch rawColumn 1, Ext.branch rawColumn 1] =
      some (mkColumn [(-1, 9223372036854775806, -1, 9223372036854775806),
        (-1, -1, -3, -1)] 0 9223372036854775806) ∧
    ¬ ((mkColumn [(-1, 9223372036854775806, -1, 9223372036854775806),
        (-1, -1, -3, -1)] 0 9223372036854775806).cell 0).bestcell ≤
      ((min 2 0 : Nat) : Int) * wrapParams.scorevalues.matchscore ∧
    ¬ ((mkColumn [(-1, 9223372036854775806, -1, 9223372036854775806),
        (-1, -1, -3, -1)] 0 9223372036854775806).maxvalue : Int) ≤
      ((min 2 wrapParams.querylength : Nat) : Int) * wrapParams.scorevalues.matchscore ∧
    (wrapParams.threshold : Int) >
      (wrapParams.querylength : Int) * wrapParams.scorevalues.matchscore ∧
    classify (mkColumn [(-1, 9223372036854775806, -1, 9223372036854775806),
        (-1, -1, -3, -1)] 0 9223372036854775806) 2 wrapParams =
      Limdfsstatus.Limdfssuccess := by
  decide

/-- C32, amended: under valid score values that are values of a `long` and
whose gap costs add up within a `long` (`LONG_MIN ≤ gapstart + gapextend`),
every non-empty sequence of extensions from the root, of length `d`, returns a
column in which every cell `i ≤ querylength` has
`bestcell ≤ min(d, i) * matchscore` and
`maxvalue ≤ min(d, querylength) * matchscore`; if
`threshold > querylength * matchscore`, the verdict on it is not
`Limdfssuccess`. -/
theorem score_upper_bound (ISSPECIAL : Uchar → Bool) (fresh : Nat → Matrixvalue)
    (lci : Limdfsconstinfo) (raw : Column) (steps : List Ext)
    (hv : lci.scorevalues.valid) (hL : lci.scorevalues.isLong)
    (hf : lci.scorevalues.gapfits) (hcap : lci.querylength + 1 ≤ lci.maxcollen)
    (hne : steps ≠ []) (hw : ∀ e ∈ steps, Ext.dstWf e) :
    ∃ col, extend ISSPECIAL fresh lci 1 (rootstate fresh lci raw) steps = some col ∧
      (∀ i, i ≤ lci.querylength →
        (col.cell i).bestcell ≤
          ((min steps.length i : Nat) : Int) * lci.scorevalues.matchscore) ∧
      (col.maxvalue : Int) ≤
        ((min steps.length lci.querylength : Nat) : Int) * lci.scorevalues.matchscore ∧
      ((lci.threshold : Int) > (lci.querylength : Int) * lci.scorevalues.matchscore →
        classify col steps.length lci ≠ Limdfsstatus.Limdfssuccess) := by
  obtain ⟨col, hcol, hinv, hb, ht⟩ :=
    extend_bound ISSPECIAL fresh lci raw steps hv hf hL hcap hne hw
  have hmax := (maxvalue_le_of_bound lci steps.length col hv hb ht).2
  refine ⟨col, hcol, hb, hmax, fun hthr => ?_⟩
  have hmono := scale_mono (min steps.length lci.querylength) lci.querylength
    lci.scorevalues.matchscore (by omega) hv.1
  rw [classify_of_ChainInv lci col _ hinv]
  have hlt : ¬ col.maxvalue ≥ lci.threshold := by omega
  rw [if_neg hlt]
  split <;> exact fun h => Limdfsstatus.noConfusion h

/-- Witness of C32: the four extensions of scenario A. -/
theorem score_upper_bound_witness :
    ∃ col, extend noSpecial zeroFresh scenarioParams 1
        (rootstate zeroFresh scenarioParams rawColumn)
        [Ext.inplace 0, Ext.inplace 1, Ext.inplace 2, Ext.inplace 3] = some col ∧
      (∀ i, i ≤ scenarioParams.querylength →
        (col.cell i).bestcell ≤
          ((min [Ext.inplace 0, Ext.inplace 1, Ext.inplace 2, Ext.inplace 3].length i :
            Nat) : Int) * scenarioParams.scorevalues.matchscore) ∧
      (col.maxvalue : Int) ≤
        ((min [Ext.inplace 0, Ext.inplace 1, Ext.inplace 2, Ext.inplace 3].length
          scenarioParams.querylength : Nat) : Int) *
            scenarioParams.scorevalues.matchscore ∧
      ((scenarioParams.threshold : Int) >
          (scenarioParams.querylength : Int) * scenarioParams.scorevalues.matchscore →
        classify col [Ext.inplace 0, Ext.inplace 1, Ext.inplace 2, Ext.inplace 3].length
          scenarioParams ≠ Limdfsstatus.Limdfssuccess) :=
  score_upper_bound noSpecial zeroFresh scenarioParams rawColumn
    [Ext.inplace 0, Ext.inplace 1, Ext.inplace 2, Ext.inplace 3]
    (by decide) (by decide) (by decide) (by decide) (by decide) (by decide)

/-! ## Cell 0 -/

/-- C33 fails as stated: with the valid scores 2, -1, `LONG_MIN`, -1 and the
query `[0]`, cell 0 of the column at depth 1 has the insertion score
`LONG_MAX`, the `long` that the sum `gapstart + gapextend` of line 130 leaves;
cell 0 of the column at depth 2 has the best score `LONG_MAX - 1`, not the
sentinel; that column has `maxvalue = LONG_MAX - 1` with `pprefixlen = 0`, and
`locali_fullmatchLimdfsstate` reports `Limdfssuccess` with a positive
`distance` and the prefix length 0. -/
theorem cell0_never_alive_counterexample :
    wrapParams.scorevalues.valid ∧
    extend noSpecial zeroFresh wrapParams 1 (rootstate zeroFresh wrapParams rawColumn)
        [Ext.branch rawColumn 1] =
      some (mkColumn [(-1, 9223372036854775807, -1, -1), (-1, -1, -1, -1)] 0 0) ∧
    ¬ ((mkColumn [(-1, 9223372036854775807, -1, -1), (-1, -1, -1, -1)] 0 0).cell
      0).inscell ≤ 0 ∧
    extend noSpecial zeroFresh wrapParams 1 (rootstate zeroFresh wrapParams rawColumn)
        [Ext.branch rawColumn 1, Ext.branch rawColumn 1] =
      some (mkColumn [(-1, 9223372036854775806, -1, 9223372036854775806),
        (-1, -1, -3, -1)] 0 9223372036854775806) ∧
    ¬ ((mkColumn [(-1, 9223372036854775806, -1, 9223372036854775806),
        (-1, -1, -3, -1)] 0 9223372036854775806).cell 0).bestcell ≤ 0 ∧
    (mkColumn [(-1, 9223372036854775806, -1, 9223372036854775806),
        (-1, -1, -3, -1)] 0 9223372036854775806).cell 0 ≠
      ⟨MINUSINFTY, MINUSINFTY, MINUSINFTY, MINUSINFTY⟩ ∧
    0 < (mkColumn [(-1, 9223372036854775806, -1, 9223372036854775806),
        (-1, -1, -3, -1)] 0 9223372036854775806).maxvalue ∧
    ¬ 1 ≤ (mkColumn [(-1, 9223372036854775806, -1, 9223372036854775806),
        (-1, -1, -3, -1)] 0 9223372036854775806).pprefixlen ∧
    (locali_fullmatchLimdfsstate ⟨Limdfsstatus.Limdfscontinue, 0, 0⟩
        (mkColumn [(-1, 9223372036854775806, -1, 9223372036854775806),
          (-1, -1, -3, -1)] 0 9223372036854775806) 0 0 0 2 wrapParams).2 =
      ⟨Limdfsstatus.Limdfssuccess, 0, 9223372036854775806⟩ := by
  decide

/-- C33, amended: under valid score values whose gap costs add up within a
`long` (`LONG_MIN ≤ gapstart + gapextend`), every non-empty sequence of
extensions from the root returns a column whose cell 0 has `bestcell ≤ 0` and
`inscell ≤ 0`, and at depth 2 or more the sentinel in all four scores; if
`maxvalue > 0`, then `1 ≤ pprefixlen ≤ querylength`, and so is the `pprefixlen`
that `locali_fullmatchLimdfsstate` reports with a `Limdfssuccess` of positive
`distance`. -/
theorem cell0_never_alive (ISSPECIAL : Uchar → Bool) (fresh : Nat → Matrixvalue)
    (lci : Limdfsconstinfo) (raw : Column) (steps : List Ext)
    (limdfsresult : Limdfsresult) (leftbound rightbound width : Nat)
    (hv : lci.scorevalues.valid)
    (hf : lci.scorevalues.gapfits) (hcap : lci.querylength + 1 ≤ lci.maxcollen)
    (hne : steps ≠ []) (hw : ∀ e ∈ steps, Ext.dstWf e) :
    ∃ col, extend ISSPECIAL fresh lci 1 (rootstate fresh lci raw) steps = some col ∧
      (col.cell 0).bestcell ≤ 0 ∧ (col.cell 0).inscell ≤ 0 ∧
      (2 ≤ steps.length →
        col.cell 0 = ⟨MINUSINFTY, MINUSINFTY, MINUSINFTY, MINUSINFTY⟩) ∧
      (0 < col.maxvalue → 1 ≤ col.pprefixlen ∧ col.pprefixlen ≤ lci.querylength) ∧
      ((locali_fullmatchLimdfsstate limdfsresult col leftbound rightbound width
          steps.length lci).2.status = Limdfsstatus.Limdfssuccess →
        0 < (locali_fullmatchLimdfsstate limdfsresult col leftbound rightbound width
          steps.length lci).2.distance →
        1 ≤ (locali_fullmatchLimdfsstate limdfsresult col leftbound rightbound width
          steps.length lci).2.pprefixlen ∧
        (locali_fullmatchLimdfsstate limdfsresult col leftbound rightbound width
          steps.length lci).2.pprefixlen ≤ lci.querylength) := by
  obtain ⟨col, hcol, hinv, ht, h0⟩ :=
    extend_facts ISSPECIAL fresh lci raw steps hv hf hcap hne hw
  have hpp : 0 < col.maxvalue → 1 ≤ col.pprefixlen ∧ col.pprefixlen ≤ lci.querylength := by
    intro hpos
    refine ⟨?_, ht.1⟩
    by_contra hlt
    have hz : col.pprefixlen = 0 := by omega
    have hb := (ht.2.2 hpos).1
    rw [hz] at hb
    have := hinv.2.2.2.1
    omega
  refine ⟨col, hcol, hinv.2.2.2.1, hinv.2.2.1, h0, hpp, ?_⟩
  unfold locali_fullmatchLimdfsstate
  rw [if_pos (ChainInv_colvalues lci col hinv)]
  split
  · intro _ hd
    exact hpp hd
  · split
    · intro h
      exact Limdfsstatus.noConfusion h
    · intro h
      exact Limdfsstatus.noConfusion h

/-- Witness of C33: the two extensions `A`, `C` of scenario A. -/
theorem cell0_never_alive_witness :
    ∃ col, extend noSpecial zeroFresh scenarioParams 1
        (rootstate zeroFresh scenarioParams rawColumn)
        [Ext.inplace 0, Ext.branch rawColumn 1] = some col ∧
      (col.cell 0).bestcell ≤ 0 ∧ (col.cell 0).inscell ≤ 0 ∧
      (2 ≤ [Ext.inplace 0, Ext.branch rawColumn 1].length →
        col.cell 0 = ⟨MINUSINFTY, MINUSINFTY, MINUSINFTY, MINUSINFTY⟩) ∧
      (0 < col.maxvalue →
        1 ≤ col.pprefixlen ∧ col.pprefixlen ≤ scenarioParams.querylength) ∧
      ((locali_fullmatchLimdfsstate ⟨Limdfsstatus.Limdfscontinue, 0, 0⟩ col 0 0 0
          [Ext.inplace 0, Ext.branch rawColumn 1].length scenarioParams).2.status =
            Limdfsstatus.Limdfssuccess →
        0 < (locali_fullmatchLimdfsstate ⟨Limdfsstatus.Limdfscontinue, 0, 0⟩ col 0 0 0
          [Ext.inplace 0, Ext.branch rawColumn 1].length scenarioParams).2.distance →
        1 ≤ (locali_fullmatchLimdfsstate ⟨Limdfsstatus.Limdfscontinue, 0, 0⟩ col 0 0 0
          [Ext.inplace 0, Ext.branch rawColumn 1].length scenarioParams).2.pprefixlen ∧
        (locali_fullmatchLimdfsstate ⟨Limdfsstatus.Limdfscontinue, 0, 0⟩ col 0 0 0
          [Ext.inplace 0, Ext.branch rawColumn 1].length scenarioParams).2.pprefixlen ≤
            scenarioParams.querylength) :=
  cell0_never_alive noSpecial zeroFresh scenarioParams rawColumn
    [Ext.inplace 0, Ext.branch rawColumn 1] ⟨Limdfsstatus.Limdfscontinue, 0, 0⟩ 0 0 0
    (by decide) (by decide) (by decide) (by decide) (by decide)

/-! ## The first cell with the greatest score -/

/-- C34: every extension of a consistent state (first column,
`locali_nextLimdfsstate` or `locali_inplacenextLimdfsstate`) returns a column
with `pprefixlen ≤ querylength`; if `maxvalue > 0`, then `pprefixlen` is the
least index `i ≤ querylength` whose best score is `maxvalue`; if
`maxvalue = 0`, then `pprefixlen = 0`. -/
theorem pprefixlen_least (ISSPECIAL : Uchar → Bool) (fresh : Nat → Matrixvalue)
    (lci : Limdfsconstinfo) (depth : Nat) (col : Column) (e : Ext)
    (hcap : lci.querylength + 1 ≤ lci.maxcollen) (he : e.dstWf) (hwf : col.wf)
    (hlen : depth > 1 → lci.querylength + 1 ≤ col.lenval) :
    ∃ r, applyExt ISSPECIAL fresh lci depth col e = some r ∧
      r.pprefixlen ≤ lci.querylength ∧
      (r.maxvalue = 0 → r.pprefixlen = 0) ∧
      (0 < r.maxvalue →
        (r.cell r.pprefixlen).bestcell = (r.maxvalue : Int) ∧
        ∀ i, i ≤ lci.querylength → (r.cell i).bestcell = (r.maxvalue : Int) →
          r.pprefixlen ≤ i) := by
  obtain ⟨r, f, m0, hr, hc, hm0⟩ :=
    applyExt_spec_max ISSPECIAL fresh lci depth col e hcap he hwf hlen
  obtain ⟨hle, hz, _, hpos⟩ := IsChild_ties lci f m0 r hc hm0
  refine ⟨r, hr, hle, hz, fun hp => ⟨(hpos hp).1, fun i _ hi => ?_⟩⟩
  by_contra hlt
  have := (hpos hp).2 i (by omega)
  omega

/-- Witness of C34: the query `[0, 0, 0]` and the character `0` from the root:
the three cells `1..3` tie at the score 2 and `pprefixlen` is 1. -/
theorem pprefixlen_least_witness :
    applyExt noSpecial zeroFresh (repeatParams 3) 1
        (rootstate zeroFresh (repeatParams 3) rawColumn) (Ext.inplace 0) =
      some (mkColumn [(-1, -4, -1, -1), (2, -1, -1, 2), (2, -1, -1, 2), (2, -1, -1, 2)]
        1 2) ∧
    ∃ r, applyExt noSpecial zeroFresh (repeatParams 3) 1
        (rootstate zeroFresh (repeatParams 3) rawColumn) (Ext.inplace 0) = some r ∧
      r.pprefixlen ≤ (repeatParams 3).querylength ∧
      (r.maxvalue = 0 → r.pprefixlen = 0) ∧
      (0 < r.maxvalue →
        (r.cell r.pprefixlen).bestcell = (r.maxvalue : Int) ∧
        ∀ i, i ≤ (repeatParams 3).querylength →
          (r.cell i).bestcell = (r.maxvalue : Int) → r.pprefixlen ≤ i) :=
  ⟨by decide,
    pprefixlen_least noSpecial zeroFresh (repeatParams 3) 1
      (rootstate zeroFresh (repeatParams 3) rawColumn) (Ext.inplace 0)
      (by decide) (by decide) (by decide) (by decide)⟩

/-! ## Copying from a state without buffer -/

/-- C35: if the source has no buffer, `locali_copyLimdfsstate` returns the
destination with its buffer, its `lenval` and every cell as before and with
`maxvalue` and `pprefixlen` of the source; if the destination has a buffer,
the verdict on the result is read off the `maxvalue` of the source. -/
theorem copy_from_empty (fresh : Nat → Matrixvalue) (destcol srccol : Column)
    (lci : Limdfsconstinfo) (currentdepth : Nat) (hsrc : srccol.colvalues = none) :
    ∃ r, locali_copyLimdfsstate fresh destcol srccol lci = some r ∧
      r.colvalues = destcol.colvalues ∧ r.lenval = destcol.lenval ∧
      (∀ i, r.cell i = destcol.cell i) ∧
      r.maxvalue = srccol.maxvalue ∧ r.pprefixlen = srccol.pprefixlen ∧
      (destcol.colvalues ≠ none →
        classify r currentdepth lci =
          if srccol.maxvalue ≥ lci.threshold then Limdfsstatus.Limdfssuccess
          else if srccol.maxvalue > 0 then Limdfsstatus.Limdfscontinue
          else Limdfsstatus.Limdfsstop) := by
  refine ⟨{ destcol with maxvalue := srccol.maxvalue, pprefixlen := srccol.pprefixlen },
    ?_, rfl, rfl, fun _ => rfl, rfl, rfl, fun hd => ?_⟩
  · unfold locali_copyLimdfsstate
    rw [if_neg (fun h => h hsrc)]
  · rw [classify_eq, if_pos hd]

/-- Witness of C35: the depth-1 column of scenario A as destination, a source
without buffer that carries `maxvalue = 7` and `pprefixlen = 3`. -/
theorem copy_from_empty_witness :
    ∃ r, locali_copyLimdfsstate zeroFresh
        (mkColumn [(-1, -4, -1, -1), (2, -1, -1, 2), (-1, -1, -1, -1), (-1, -1, -1, -1),
          (-1, -1, -1, -1)] 1 2) ⟨none, 0, 3, 7⟩ scenarioParams = some r ∧
      r.colvalues = (mkColumn [(-1, -4, -1, -1), (2, -1, -1, 2), (-1, -1, -1, -1),
        (-1, -1, -1, -1), (-1, -1, -1, -1)] 1 2).colvalues ∧
      r.lenval = (mkColumn [(-1, -4, -1, -1), (2, -1, -1, 2), (-1, -1, -1, -1),
        (-1, -1, -1, -1), (-1, -1, -1, -1)] 1 2).lenval ∧
      (∀ i, r.cell i = (mkColumn [(-1, -4, -1, -1), (2, -1, -1, 2), (-1, -1, -1, -1),
        (-1, -1, -1, -1), (-1, -1, -1, -1)] 1 2).cell i) ∧
      r.maxvalue = (⟨none, 0, 3, 7⟩ : Column).maxvalue ∧
      r.pprefixlen = (⟨none, 0, 3, 7⟩ : Column).pprefixlen ∧
      ((mkColumn [(-1, -4, -1, -1), (2, -1, -1, 2), (-1, -1, -1, -1), (-1, -1, -1, -1),
          (-1, -1, -1, -1)] 1 2).colvalues ≠ none →
        classify r 1 scenarioParams =
          if (⟨none, 0, 3, 7⟩ : Column).maxvalue ≥ scenarioParams.threshold then
            Limdfsstatus.Limdfssuccess
          else if (⟨none, 0, 3, 7⟩ : Column).maxvalue > 0 then
            Limdfsstatus.Limdfscontinue
          else Limdfsstatus.Limdfsstop) :=
  copy_from_empty zeroFresh
    (mkColumn [(-1, -4, -1, -1), (2, -1, -1, 2), (-1, -1, -1, -1), (-1, -1, -1, -1),
      (-1, -1, -1, -1)] 1 2) ⟨none, 0, 3, 7⟩ scenarioParams 1 rfl

end Idxlocalidp

namespace GtSeedExtend

/-! ## The parts of `gt_seed_extend_compute_parts` -/

theorem partsLoop_eq (M m ps p fuel s c : Nat) (a : List GtRange) :
    partsLoop M m ps p fuel s c a =
      if s ≤ m then
        if ¬ c < p then none
        else if a.length ≤ c then none
        else
          match fuel with
          | 0 => none
          | fuel + 1 =>
            partsLoop M m ps p fuel ((s + ps) % (M + 1)) ((c + 1) % (M + 1))
              (a.set c ⟨s, MIN (((s + ps) % (M + 1) + M) % (M + 1)) m⟩)
      else some (a, c) := by
  cases fuel <;> rfl

theorem pred_mod (x M : Nat) (h1 : 1 ≤ x) (h2 : x ≤ M) : (x + M) % (M + 1) = x - 1 := by
  have h : x + M = (x - 1) + (M + 1) := by omega
  rw [h, Nat.add_mod_right, Nat.mod_eq_of_lt (by omega)]

theorem rangeAt_set_eq (a : List GtRange) (i : Nat) (r : GtRange) (h : i < a.length) :
    rangeAt (a.set i r) i = r := by
  unfold rangeAt
  rw [List.getD_eq_getElem _ _ (by simpa using h)]
  simp

theorem rangeAt_set_ne (a : List GtRange) (i j : Nat) (r : GtRange) (h : i ≠ j) :
    rangeAt (a.set i r) j = rangeAt a j := by
  unfold rangeAt
  simp [List.getD_eq_getElem?_getD, List.getElem?_set_ne h]

/-- The loop from the round `c` on, when nothing wraps: it ends with
`m / ps + 1` ranges, the range `i` being `[i * ps, MIN (i * ps + ps - 1) m]`. -/
theorem partsLoop_spec (M m ps p : Nat) (hps : 1 ≤ ps) (hwrap : m + ps ≤ M)
    (hk : m / ps + 1 ≤ p) (fuel : Nat) :
    ∀ (c : Nat) (a : List GtRange), c ≤ m / ps + 1 → a.length = p → p ≤ fuel + c →
      ∃ a2, partsLoop M m ps p fuel (c * ps) c a = some (a2, m / ps + 1) ∧
        a2.length = p ∧
        (∀ i, c ≤ i → i < m / ps + 1 →
          rangeAt a2 i = ⟨i * ps, MIN (i * ps + ps - 1) m⟩) ∧
        (∀ i, i < c → rangeAt a2 i = rangeAt a i) := by
  have hF1 : m / ps * ps ≤ m := Nat.div_mul_le_self m ps
  have hF2 : m < (m / ps + 1) * ps := by
    rw [Nat.mul_comm]
    exact Nat.lt_mul_div_succ m (by omega)
  induction fuel with
  | zero =>
    intro c a hc ha hf
    have hck : c = m / ps + 1 := by omega
    subst hck
    refine ⟨a, ?_, ha, fun i h1 h2 => absurd h2 (by omega), fun _ _ => rfl⟩
    rw [partsLoop_eq, if_neg (by omega)]
  | succ f ih =>
    intro c a hc ha hf
    by_cases hck : c = m / ps + 1
    · subst hck
      refine ⟨a, ?_, ha, fun i h1 h2 => absurd h2 (by omega), fun _ _ => rfl⟩
      rw [partsLoop_eq, if_neg (by omega)]
    · have hlt : c ≤ m / ps := by omega
      have hcm : c * ps ≤ m / ps * ps := Nat.mul_le_mul_right ps hlt
      have hsucc : (c + 1) * ps = c * ps + ps := Nat.succ_mul c ps
      have hdivle : m / ps ≤ m := Nat.div_le_self m ps
      have hmod1 : (c * ps + ps) % (M + 1) = c * ps + ps := Nat.mod_eq_of_lt (by omega)
      have hmod2 : (c + 1) % (M + 1) = c + 1 := Nat.mod_eq_of_lt (by omega)
      have hmod3 : (c * ps + ps + M) % (M + 1) = c * ps + ps - 1 :=
        pred_mod _ _ (by omega) (by omega)
      obtain ⟨a2, h1, h2, h3, h4⟩ := ih (c + 1)
        (a.set c ⟨c * ps, MIN (c * ps + ps - 1) m⟩) (by omega)
        (by rw [List.length_set]; exact ha) (by omega)
      refine ⟨a2, ?_, h2, fun i hi1 hi2 => ?_, fun i hi => ?_⟩
      · rw [partsLoop_eq, if_pos (by omega), if_neg (by omega), if_neg (by omega)]
        simp only [hmod1, hmod2, hmod3]
        rw [hsucc] at h1
        exact h1
      · by_cases hic : i = c
        · subst hic
          rw [h4 i (by omega)]
          exact rangeAt_set_eq _ _ _ (by omega)
        · exact h3 i (by omega) hi2
      · rw [h4 i (by omega)]
        exact rangeAt_set_ne _ _ _ _ (by omega)

theorem parts_count_le (m p : Nat) (hp : 1 ≤ p) : m / (m / p + 1) + 1 ≤ p := by
  have h1 : m < p * (m / p + 1) := Nat.lt_mul_div_succ m (by omega)
  exact (Nat.div_lt_iff_lt_mul (Nat.succ_pos _)).mpr h1

/-- What the ranges `[i * ps, MIN (i * ps + ps - 1) m]`, `i ≤ k`, with
`k * ps ≤ m < k * ps + ps` are: a partition of `0..m` into parts of at most
`ps` numbers. -/
theorem ranges_partition (m ps k : Nat) (a2 : List GtRange) (hps : 1 ≤ ps)
    (hF1 : k * ps ≤ m) (hF2 : m < k * ps + ps)
    (hr : ∀ i, i < k + 1 → rangeAt a2 i = ⟨i * ps, MIN (i * ps + ps - 1) m⟩) :
    (rangeAt a2 0).start = 0 ∧
    (rangeAt a2 (k + 1 - 1)).end_ = m ∧
    (∀ i, i < k + 1 →
      (rangeAt a2 i).start ≤ (rangeAt a2 i).end_ ∧
      (rangeAt a2 i).end_ + 1 - (rangeAt a2 i).start ≤ ps) ∧
    (∀ i, i + 1 < k + 1 → (rangeAt a2 (i + 1)).start = (rangeAt a2 i).end_ + 1) := by
  have hmul : ∀ i, i ≤ k → i * ps ≤ m := fun i hi =>
    le_trans (Nat.mul_le_mul_right _ hi) hF1
  refine ⟨?_, ?_, fun i hi => ?_, fun i hi => ?_⟩
  · rw [hr 0 (by omega)]
    exact Nat.zero_mul _
  · rw [Nat.add_sub_cancel, hr k (by omega)]
    show MIN _ _ = _
    unfold MIN
    rw [if_neg (by omega)]
  · rw [hr i hi]
    have := hmul i (by omega)
    unfold MIN
    split
    · show i * ps ≤ i * ps + ps - 1 ∧ i * ps + ps - 1 + 1 - i * ps ≤ ps
      omega
    · show i * ps ≤ m ∧ m + 1 - i * ps ≤ ps
      omega
  · rw [hr (i + 1) hi, hr i (by omega)]
    have := hmul (i + 1) (by omega)
    rw [Nat.succ_mul] at this
    show (i + 1) * _ = MIN _ _ + 1
    rw [Nat.succ_mul]
    unfold MIN
    rw [if_pos (by omega)]
    omega

/-- The call without a pick value, when nothing wraps: it returns 0 and leaves
`m / ps + 1` ranges, the range `i` being `[i * ps, MIN (i * ps + ps - 1) m]`,
where `m = n - 1` and `ps = m / numparts + 1`. -/
theorem compute_parts_nopick (M : Nat) (seqranges : List GtRange) (numparts n : Nat)
    (err : Option String) (hn : 1 ≤ n) (hp : 1 ≤ numparts)
    (hlen : seqranges.length = numparts)
    (hwrap : (n - 1) + ((n - 1) / numparts + 1) ≤ M) :
    ∃ a2, gt_seed_extend_compute_parts M seqranges numparts n M err =
        some ⟨a2, (n - 1) / ((n - 1) / numparts + 1) + 1, err, 0⟩ ∧
      ∀ i, i < (n - 1) / ((n - 1) / numparts + 1) + 1 →
        rangeAt a2 i = ⟨i * ((n - 1) / numparts + 1),
          MIN (i * ((n - 1) / numparts + 1) + ((n - 1) / numparts + 1) - 1) (n - 1)⟩ := by
  have hnq : ∀ q : Nat, n ≤ n - 1 + (q + 1) := fun q => by omega
  have hnM : n ≤ M := le_trans (hnq _) hwrap
  have hpsM : (n - 1) / numparts + 1 ≤ M := le_trans (Nat.le_add_left _ _) hwrap
  have hm : (n + M) % (M + 1) = n - 1 := pred_mod n M hn hnM
  have hps : ((n - 1) / numparts + 1) % (M + 1) = (n - 1) / numparts + 1 :=
    Nat.mod_eq_of_lt (Nat.lt_succ_of_le hpsM)
  obtain ⟨a2, h1, _, h3, _⟩ := partsLoop_spec M (n - 1) ((n - 1) / numparts + 1) numparts
    (Nat.succ_pos _) hwrap (parts_count_le (n - 1) numparts hp) numparts 0 seqranges
    (Nat.zero_le _) hlen (Nat.le_add_right _ _)
  rw [Nat.zero_mul] at h1
  refine ⟨a2, ?_, fun i hi => h3 i (Nat.zero_le _) hi⟩
  have hp0 : ¬ numparts = 0 := by omega
  unfold gt_seed_extend_compute_parts
  simp only [hm, hps, h1, if_neg hp0, if_true]
  simp

/-- C36: without a pick value (`pick_value = GT_UWORD_MAX`), for `n ≥ 1`
sequences and `numparts ≥ 1`, an array of `numparts` ranges, and as long as
`(n - 1) + ((n - 1) / numparts + 1)` does not exceed `GT_UWORD_MAX` (no sum
wraps), `gt_seed_extend_compute_parts` returns 0 and leaves `k` ranges with
`1 ≤ k ≤ numparts`: the first starts at 0, the last ends at `n - 1`, each has
`start ≤ end` and at most `(n - 1) / numparts + 1` sequences, and each starts
one past the end of the range before. -/
theorem compute_parts_partition (GT_UWORD_MAX : Nat) (seqranges : List GtRange)
    (numparts n : Nat) (err : Option String) (hn : 1 ≤ n) (hp : 1 ≤ numparts)
    (hlen : seqranges.length = numparts)
    (hwrap : (n - 1) + ((n - 1) / numparts + 1) ≤ GT_UWORD_MAX) :
    ∃ res, gt_seed_extend_compute_parts GT_UWORD_MAX seqranges numparts n GT_UWORD_MAX
        err = some res ∧
      res.had_err = 0 ∧ res.err = err ∧
      1 ≤ res.numseqranges ∧ res.numseqranges ≤ numparts ∧
      (rangeAt res.seqranges 0).start = 0 ∧
      (rangeAt res.seqranges (res.numseqranges - 1)).end_ = n - 1 ∧
      (∀ i, i < res.numseqranges →
        (rangeAt res.seqranges i).start ≤ (rangeAt res.seqranges i).end_ ∧
        (rangeAt res.seqranges i).end_ + 1 - (rangeAt res.seqranges i).start ≤
          (n - 1) / numparts + 1) ∧
      (∀ i, i + 1 < res.numseqranges →
        (rangeAt res.seqranges (i + 1)).start = (rangeAt res.seqranges i).end_ + 1) := by
  obtain ⟨a2, hres, hr⟩ :=
    compute_parts_nopick GT_UWORD_MAX seqranges numparts n err hn hp hlen hwrap
  have hF1 : (n - 1) / ((n - 1) / numparts + 1) * ((n - 1) / numparts + 1) ≤ n - 1 :=
    Nat.div_mul_le_self _ _
  have hF2 : n - 1 < (n - 1) / ((n - 1) / numparts + 1) * ((n - 1) / numparts + 1) +
      ((n - 1) / numparts + 1) := by
    rw [← Nat.succ_mul, Nat.mul_comm]
    exact Nat.lt_mul_div_succ _ (Nat.succ_pos _)
  obtain ⟨h1, h2, h3, h4⟩ := ranges_partition (n - 1) ((n - 1) / numparts + 1)
    ((n - 1) / ((n - 1) / numparts + 1)) a2 (Nat.succ_pos _) hF1 hF2 hr
  exact ⟨_, hres, rfl, rfl, Nat.succ_pos _, parts_count_le (n - 1) numparts hp,
    h1, h2, h3, h4⟩

/-- Witness of C36: ten sequences in three parts, 64-bit words. -/
theorem compute_parts_partition_witness :
    gt_seed_extend_compute_parts (2 ^ 64 - 1) [⟨7, 7⟩, ⟨7, 7⟩, ⟨7, 7⟩] 3 10 (2 ^ 64 - 1)
        none = some ⟨[⟨0, 3⟩, ⟨4, 7⟩, ⟨8, 9⟩], 3, none, 0⟩ ∧
    ∃ res, gt_seed_extend_compute_parts (2 ^ 64 - 1) [⟨7, 7⟩, ⟨7, 7⟩, ⟨7, 7⟩] 3 10
        (2 ^ 64 - 1) none = some res ∧
      res.had_err = 0 ∧ res.err = none ∧
      1 ≤ res.numseqranges ∧ res.numseqranges ≤ 3 ∧
      (rangeAt res.seqranges 0).start = 0 ∧
      (rangeAt res.seqranges (res.numseqranges - 1)).end_ = 10 - 1 ∧
      (∀ i, i < res.numseqranges →
        (rangeAt res.seqranges i).start ≤ (rangeAt res.seqranges i).end_ ∧
        (rangeAt res.seqranges i).end_ + 1 - (rangeAt res.seqranges i).start ≤
          (10 - 1) / 3 + 1) ∧
      (∀ i, i + 1 < res.numseqranges →
        (rangeAt res.seqranges (i + 1)).start = (rangeAt res.seqranges i).end_ + 1) :=
  ⟨by decide,
    compute_parts_partition (2 ^ 64 - 1) [⟨7, 7⟩, ⟨7, 7⟩, ⟨7, 7⟩] 3 10 none
      (by decide) (by decide) (by decide) (by decide)⟩

/-- C37 fails on the code: with one sequence, two parts and the pick value 2
(and with four sequences, three parts and the pick value 3)
`gt_seed_extend_compute_parts` returns 0 and one range whose start lies behind
its end and behind the last sequence. -/
theorem pick_beyond_last_part :
    gt_seed_extend_compute_parts (2 ^ 64 - 1) [⟨0, 0⟩, ⟨0, 0⟩] 2 1 2 none =
      some ⟨[⟨1, 0⟩, ⟨0, 0⟩], 1, none, 0⟩ ∧
    gt_seed_extend_compute_parts (2 ^ 64 - 1) [⟨0, 0⟩, ⟨0, 0⟩, ⟨0, 0⟩] 3 4 3 none =
      some ⟨[⟨4, 3⟩, ⟨0, 0⟩, ⟨0, 0⟩], 1, none, 0⟩ ∧
    gt_seed_extend_compute_parts (2 ^ 64 - 1) [⟨0, 0⟩, ⟨0, 0⟩, ⟨0, 0⟩] 3 4 (2 ^ 64 - 1)
      none = some ⟨[⟨0, 1⟩, ⟨2, 3⟩, ⟨0, 0⟩], 2, none, 0⟩ := by
  decide

/-- C38: for `numparts ≥ 1` and an array of `numparts` ranges (and, without a
pick value, `n ≥ 1` sequences and no wrapping sum),
`gt_seed_extend_compute_parts` returns; it returns -1 if and only if a pick
value is given and is greater than `numparts` or less than 1, and then the
error is set and `*numseqranges` is 0; in every other case it returns 0 and
leaves the error as it was. -/
theorem compute_parts_fails_iff (GT_UWORD_MAX : Nat) (seqranges : List GtRange)
    (numparts n pick_value : Nat) (err : Option String) (hp : 1 ≤ numparts)
    (hlen : seqranges.length = numparts)
    (hall : pick_value = GT_UWORD_MAX →
      1 ≤ n ∧ (n - 1) + ((n - 1) / numparts + 1) ≤ GT_UWORD_MAX) :
    ∃ res, gt_seed_extend_compute_parts GT_UWORD_MAX seqranges numparts n pick_value
        err = some res ∧
      (res.had_err = -1 ↔
        pick_value ≠ GT_UWORD_MAX ∧ (pick_value > numparts ∨ pick_value < 1)) ∧
      (res.had_err = -1 → res.err ≠ none ∧ res.numseqranges = 0) ∧
      (res.had_err ≠ -1 → res.had_err = 0 ∧ res.err = err) := by
  by_cases hpick : pick_value = GT_UWORD_MAX
  · obtain ⟨hn, hwrap⟩ := hall hpick
    obtain ⟨a2, hres, _⟩ :=
      compute_parts_nopick GT_UWORD_MAX seqranges numparts n err hn hp hlen hwrap
    rw [hpick]
    refine ⟨_, hres, ?_, ?_, ?_⟩
    · constructor
      · intro h
        have h0 : (0 : Int) = -1 := h
        omega
      · intro h
        exact absurd rfl h.1
    · intro h
      have h0 : (0 : Int) = -1 := h
      omega
    · intro _
      exact ⟨rfl, rfl⟩
  · unfold gt_seed_extend_compute_parts
    simp only []
    rw [if_neg (by omega), if_neg hpick]
    by_cases h1 : pick_value > numparts
    · rw [if_pos h1]
      refine ⟨_, rfl, ?_, ?_, ?_⟩
      · exact ⟨fun _ => ⟨hpick, Or.inl h1⟩, fun _ => rfl⟩
      · intro _
        exact ⟨by simp, rfl⟩
      · intro h
        exact absurd rfl h
    · rw [if_neg h1]
      by_cases h2 : pick_value < 1
      · rw [if_pos h2]
        refine ⟨_, rfl, ?_, ?_, ?_⟩
        · exact ⟨fun _ => ⟨hpick, Or.inr h2⟩, fun _ => rfl⟩
        · intro _
          exact ⟨by simp, rfl⟩
        · intro h
          exact absurd rfl h
      · rw [if_neg h2]
        cases seqranges with
        | nil =>
          simp only [List.length_nil] at hlen
          omega
        | cons r rest =>
          refine ⟨_, rfl, ?_, ?_, ?_⟩
          · constructor
            · intro h
              have h0 : (0 : Int) = -1 := h
              omega
            · intro h
              rcases h.2 with h | h
              · exact absurd h h1
              · exact absurd h h2
          · intro h
            have h0 : (0 : Int) = -1 := h
            omega
          · intro _
            exact ⟨rfl, rfl⟩

/-- Witness of C38: two parts and the pick value 5. -/
theorem compute_parts_fails_iff_witness :
    gt_seed_extend_compute_parts (2 ^ 64 - 1) [⟨7, 7⟩, ⟨7, 7⟩] 2 5 5 none =
      some ⟨[⟨7, 7⟩, ⟨7, 7⟩], 0,
        some "arguments to option -pick must not exceed 2 (number of parts)", -1⟩ ∧
    ∃ res, gt_seed_extend_compute_parts (2 ^ 64 - 1) [⟨7, 7⟩, ⟨7, 7⟩] 2 5 5 none =
        some res ∧
      (res.had_err = -1 ↔ 5 ≠ 2 ^ 64 - 1 ∧ (5 > 2 ∨ 5 < 1)) ∧
      (res.had_err = -1 → res.err ≠ none ∧ res.numseqranges = 0) ∧
      (res.had_err ≠ -1 → res.had_err = 0 ∧ res.err = none) :=
  ⟨by decide,
    compute_parts_fails_iff (2 ^ 64 - 1) [⟨7, 7⟩, ⟨7, 7⟩] 2 5 5 none (by decide)
      (by decide) (by decide)⟩

end GtSeedExtend

namespace SsplicedAlignment

/-! ## The order of `range_compare_long_first` -/

/-- C39: on ranges with `start ≤ end`, `range_compare_long_first` returns a
value; it returns 0 if and only if the two ranges are equal, and -1 if and only
if the first starts earlier or starts at the same place and ends later; the
value for `(a, b)` is the negative of the value for `(b, a)`; and if the values
for `(a, b)` and `(b, c)` are at most 0, so is the value for `(a, c)`. -/
theorem range_compare_total_order (a b c : GT_Range) (ha : a.start ≤ a.end_)
    (hb : b.start ≤ b.end_) (hc : c.start ≤ c.end_) :
    ∃ ab ba bc ac,
      range_compare_long_first a b = some ab ∧
      range_compare_long_first b a = some ba ∧
      range_compare_long_first b c = some bc ∧
      range_compare_long_first a c = some ac ∧
      (ab = 0 ↔ a = b) ∧
      (ab = -1 ↔ a.start < b.start ∨ (a.start = b.start ∧ a.end_ > b.end_)) ∧
      ab = -ba ∧
      (ab ≤ 0 → bc ≤ 0 → ac ≤ 0) := by
  have hval : ∀ x y : GT_Range, x.start ≤ x.end_ → y.start ≤ y.end_ →
      range_compare_long_first x y =
        some (if x.start = y.start ∧ x.end_ = y.end_ then 0
          else if x.start < y.start ∨ (x.start = y.start ∧ x.end_ > y.end_) then -1
          else 1) := by
    intro x y hx hy
    unfold range_compare_long_first
    rw [if_neg (not_not.mpr ⟨hx, hy⟩)]
    split_ifs <;> rfl
  have heq : a = b ↔ a.start = b.start ∧ a.end_ = b.end_ := by
    cases a
    cases b
    simp
  refine ⟨_, _, _, _, hval a b ha hb, hval b a hb ha, hval b c hb hc, hval a c ha hc,
    ?_, ?_, ?_, ?_⟩
  · rw [heq]
    split_ifs <;> simp_all
  · split_ifs <;> simp_all
  · split_ifs <;> first | rfl | omega
  · split_ifs <;> intros <;> omega

/-- Witness of C39: three ranges with the same start. -/
theorem range_compare_total_order_witness :
    range_compare_long_first ⟨3, 9⟩ ⟨3, 5⟩ = some (-1) ∧
    ∃ ab ba bc ac,
      range_compare_long_first ⟨3, 9⟩ ⟨3, 5⟩ = some ab ∧
      range_compare_long_first ⟨3, 5⟩ ⟨3, 9⟩ = some ba ∧
      range_compare_long_first ⟨3, 5⟩ ⟨4, 4⟩ = some bc ∧
      range_compare_long_first ⟨3, 9⟩ ⟨4, 4⟩ = some ac ∧
      (ab = 0 ↔ (⟨3, 9⟩ : GT_Range) = ⟨3, 5⟩) ∧
      (ab = -1 ↔ (⟨3, 9⟩ : GT_Range).start < (⟨3, 5⟩ : GT_Range).start ∨
        ((⟨3, 9⟩ : GT_Range).start = (⟨3, 5⟩ : GT_Range).start ∧
          (⟨3, 9⟩ : GT_Range).end_ > (⟨3, 5⟩ : GT_Range).end_)) ∧
      ab = -ba ∧
      (ab ≤ 0 → bc ≤ 0 → ac ≤ 0) :=
  ⟨by decide,
    range_compare_total_order ⟨3, 9⟩ ⟨3, 5⟩ ⟨4, 4⟩ (by decide) (by decide) (by decide)⟩

end SsplicedAlignment
